import Mathlib

/-!
Verification development for go-z3-sudoku.

Shallow embedding of `sudoku/cli.go` (puzzle generator), `sudoku/sudoku.go`
(board encoding and constraint model builder) and the parts of `main.go`
that drive them.

Conventions of the embedding:
* a Go `byte` is a `Nat` below 256, byte arithmetic is taken `% 256`;
* a Go `[]byte` is a `List Nat`; reading or writing outside the slice is a
  run-time panic, modelled by `none` (or by `Outcome.indexPanic`);
* positions are natural numbers: every caller passes loop counters or
  results of `rand.Intn(BoardSize)`;
* the random source of `GenerateBoard` is an explicit list of draws.
-/

namespace Sudoku

/-- Side length of the board (`const BoardSize = 9`). -/
def BoardSize : Nat := 9

/-! ## cli.go : validPlacement -/

/-- Common body of the three scans of `validPlacement`: the cells are read in
loop order, a read outside the slice panics (`none`), the first byte equal to
`val` ends the scan with `false`, and the scan yields `true` when the loop
runs to its end. -/
def scanCells (board : List Nat) (val : Nat) : List Nat → Option Bool
  | [] => some true
  | i :: rest =>
    match board[i]? with
    | none => none
    | some b => if b = val then some false else scanCells board val rest

/-- Indices read by the row loop: `(y*BoardSize)+checkX` for
`checkX = 0 .. 8` with `x != checkX`. -/
def rowIndices (x y : Nat) : List Nat :=
  ((List.range BoardSize).filter (fun checkX => x ≠ checkX)).map
    (fun checkX => (y * BoardSize) + checkX)

/-- Indices read by the column loop: `(checkY*BoardSize)+x` for
`checkY = 0 .. 8` with `y != checkY`. -/
def colIndices (x y : Nat) : List Nat :=
  ((List.range BoardSize).filter (fun checkY => y ≠ checkY)).map
    (fun checkY => (checkY * BoardSize) + x)

/-- Indices read by the 3x3 loop: with `top = (y/3)*3` and `left = (x/3)*3`,
`(checkY*BoardSize)+checkX` for `checkY = top .. top+2`,
`checkX = left .. left+2`, kept when `checkY != y && checkX != x`. -/
def cubeIndices (x y : Nat) : List Nat :=
  let top := (y / 3) * 3
  let left := (x / 3) * 3
  (List.range' top 3).flatMap (fun checkY =>
    ((List.range' left 3).filter (fun checkX => checkY ≠ y ∧ checkX ≠ x)).map
      (fun checkX => (checkY * BoardSize) + checkX))

/-- Embedding of `(a *Args) validPlacement(board, x, y, val)`: row scan, then
column scan, then 3x3 scan; the first scan that finds `val` returns `false`. -/
def validPlacement (board : List Nat) (x y val : Nat) : Option Bool :=
  match scanCells board val (rowIndices x y) with
  | some true =>
    match scanCells board val (colIndices x y) with
    | some true => scanCells board val (cubeIndices x y)
    | r => r
  | r => r

/-! ## cli.go : GenerateBoard -/

/-- One round of the inner retry loop: the three results of
`r.Intn(BoardSize)`, in the order the code draws them. -/
structure Draw where
  digit : Fin 9
  x : Fin 9
  y : Fin 9
deriving DecidableEq, Repr

/-- The byte `byte(r.Intn(BoardSize) + 1 + '0')`. -/
def cellValue (d : Draw) : Nat := (d.digit.val + 1 + 48) % 256

/-- What a run of `GenerateBoard` over a finite list of draws comes to. -/
inductive Outcome where
  | returned (board : List Nat)
  | outOfDraws
  | indexPanic
deriving DecidableEq, Repr

/-- Go `int` increment on a 64-bit platform (two's complement wrap). -/
def wrapInt64 (z : Int) : Int := (z + 2 ^ 63) % 2 ^ 64 - 2 ^ 63

/-- The loop `for i := 0; i <= a.Generate; i++ { for { ... } }` of
`GenerateBoard`, started at counter `i` with the current `board`. Each round
of the inner loop consumes one draw; an accepted draw writes the board and
advances `i`, a rejected one repeats the round. -/
def genLoop (N : Int) : List Draw → Int → List Nat → Outcome
  | [], i, board => if i ≤ N then Outcome.outOfDraws else Outcome.returned board
  | d :: rest, i, board =>
    if i ≤ N then
      match validPlacement board d.x.val d.y.val (cellValue d) with
      | none => Outcome.indexPanic
      | some true =>
        if (d.y.val * BoardSize) + d.x.val < board.length then
          genLoop N rest (wrapInt64 (i + 1))
            (board.set ((d.y.val * BoardSize) + d.x.val) (cellValue d))
        else Outcome.indexPanic
      | some false => genLoop N rest i board
    else Outcome.returned board

/-- Embedding of `(a *Args) GenerateBoard()` with `a.Generate = N`: an
81-byte board of `'.'`, then the placement loop. -/
def GenerateBoard (N : Int) (draws : List Draw) : Outcome :=
  genLoop N draws 0 (List.replicate 81 46)

/-! ## Specification-side notions for the generator -/

/-- The bytes `'1' .. '9'`. -/
def isDigitByte (b : Nat) : Prop := 49 ≤ b ∧ b ≤ 57

instance (b : Nat) : Decidable (isDigitByte b) := by
  unfold isDigitByte; infer_instance

/-- Two positions lie in the same row, the same column or the same 3x3 box. -/
def sameUnit (x1 y1 x2 y2 : Nat) : Prop :=
  y1 = y2 ∨ x1 = x2 ∨ (x1 / 3 = x2 / 3 ∧ y1 / 3 = y2 / 3)

instance (x1 y1 x2 y2 : Nat) : Decidable (sameUnit x1 y1 x2 y2) := by
  unfold sameUnit; infer_instance

/-- Local validity of a board: no two distinct positions that share a row, a
column or a box hold the same digit. -/
def locallyValid (board : List Nat) : Prop :=
  ∀ x1, x1 < 9 → ∀ y1, y1 < 9 → ∀ x2, x2 < 9 → ∀ y2, y2 < 9 →
    (x1, y1) ≠ (x2, y2) → sameUnit x1 y1 x2 y2 →
    ∀ d, isDigitByte d → board[y1 * 9 + x1]? = some d → board[y2 * 9 + x2]? ≠ some d

/-- Number of cells of a board that are not `'.'`. -/
def countDigits (board : List Nat) : Nat := (board.filter (fun b => b ≠ 46)).length

/-! ## sudoku.go : terms and assertions handed to the solver

The solver library (go-z3) is an external collaborator. The program only
builds integer literals, fresh integer constants, the comparisons `Ge` and
`Lt`, and `Distinct`; these are given their SMT-LIB meaning. -/

/-- Integer terms built by the program: `ctx.Int(n, ctx.IntSort())` and
`ctx.FreshInt(fmt.Sprintf("value_x%d_y%d", pos.x, pos.y))`. A fresh constant
carries the position printed into its name and the value of the context's
fresh-name counter at its creation. -/
inductive Term where
  | int (n : Int)
  | fresh (x y idx : Nat)
deriving DecidableEq, Repr

/-- Boolean terms passed to `solver.Assert`: `a.Ge(b)`, `a.Lt(b)` and
`a.Distinct(rest...)`. -/
inductive Assertion where
  | ge (a b : Term)
  | lt (a b : Term)
  | distinct (a : Term) (rest : List Term)
deriving DecidableEq, Repr

/-- A solver model: the integer given to each fresh constant. -/
abbrev Assignment := Nat → Nat → Nat → Int

/-- Value of a term under an assignment. -/
def Term.eval (σ : Assignment) : Term → Int
  | Term.int n => n
  | Term.fresh x y idx => σ x y idx

/-- Truth of an assertion under an assignment. -/
def Assertion.holds (σ : Assignment) : Assertion → Prop
  | Assertion.ge a b => a.eval σ ≥ b.eval σ
  | Assertion.lt a b => a.eval σ < b.eval σ
  | Assertion.distinct a rest => ((a :: rest).map (Term.eval σ)).Nodup

instance (σ : Assignment) (a : Assertion) : Decidable (a.holds σ) := by
  cases a <;> unfold Assertion.holds <;> infer_instance

/-- The argument terms of an assertion, in order. -/
def Assertion.terms : Assertion → List Term
  | Assertion.ge a b => [a, b]
  | Assertion.lt a b => [a, b]
  | Assertion.distinct a rest => a :: rest

/-- Whether an assertion is a `Distinct`. -/
def Assertion.isDistinct : Assertion → Bool
  | Assertion.distinct _ _ => true
  | _ => false

/-- The state of `*z3.Context` the program depends on: the number of fresh
constants created so far. -/
abbrev Context := Nat

/-! ## sudoku.go : Pos, Cell, Model -/

/-- Embedding of `type Pos struct { x int; y int }`. -/
structure Pos where
  x : Nat
  y : Nat
deriving DecidableEq, Repr

/-- Embedding of `NewPos`. -/
def NewPos (x y : Nat) : Pos := { x := x, y := y }

/-- Embedding of `type Cell struct { value *z3.AST; fromInput bool }`. -/
structure Cell where
  value : Term
  fromInput : Bool
deriving DecidableEq, Repr

/-- Embedding of `NewDefaultCell`: a cell with a fresh constant; the context's
counter advances. -/
def NewDefaultCell (ctx : Context) (pos : Pos) : Cell × Context :=
  ({ value := Term.fresh pos.x pos.y ctx, fromInput := false }, ctx + 1)

/-- Embedding of `NewInputCell`: a cell with the literal `value`. -/
def NewInputCell (value : Int) : Cell :=
  { value := Term.int value, fromInput := true }

/-- Embedding of `(c *Cell) GetValue`. -/
def Cell.GetValue (c : Cell) : Term := c.value

/-- Embedding of `(c *Cell) IsFromInput`. -/
def Cell.IsFromInput (c : Cell) : Bool := c.fromInput

/-- Embedding of `(c *Cell) applyConstraints`: the two `solver.Assert` calls,
`c.value.Ge(one)` and `c.value.Lt(nine)`, appended to the solver's
assertions. -/
def Cell.applyConstraints (c : Cell) (solver : List Assertion) : List Assertion :=
  (solver ++ [Assertion.ge c.value (Term.int 1)]) ++ [Assertion.lt c.value (Term.int 9)]

/-- Read of a Go `map[Pos]*Cell` kept as a list of entries: `none` when the key
is absent (the Go read gives a nil pointer). -/
def mapGet : List (Pos × Cell) → Pos → Option Cell
  | [], _ => none
  | (k, v) :: rest, p => if k = p then some v else mapGet rest p

/-- Write `board[pos] = cell` of a Go map: an existing entry is replaced, a new
key is added. -/
def mapInsert : List (Pos × Cell) → Pos → Cell → List (Pos × Cell)
  | [], p, c => [(p, c)]
  | (k, v) :: rest, p, c =>
    if k = p then (p, c) :: rest else (k, v) :: mapInsert rest p c

/-- Embedding of `type Model struct { ctx *z3.Context; board map[Pos]*Cell }`. -/
structure Model where
  ctx : Context
  board : List (Pos × Cell)
deriving DecidableEq, Repr

/-- The byte subtraction `nextChar - '0'` (wraps modulo 256). -/
def byteSubZero (nextChar : Nat) : Nat := (nextChar + 256 - 48) % 256

/-- Body of the inner loop of `NewModel` at position `(x, y)`: read
`input[y*BoardSize+x]` (a read outside the slice panics), then store a default
cell for `'.'` and an input cell with `int64(nextChar - '0')` otherwise. -/
def newModelStep (input : List Nat) (st : Context × List (Pos × Cell)) (pos : Pos) :
    Option (Context × List (Pos × Cell)) :=
  match input[pos.y * BoardSize + pos.x]? with
  | none => none
  | some nextChar =>
    if nextChar = 46 then
      some ((NewDefaultCell st.1 pos).2, mapInsert st.2 pos (NewDefaultCell st.1 pos).1)
    else
      some (st.1, mapInsert st.2 pos (NewInputCell (Int.ofNat (byteSubZero nextChar))))

/-- Embedding of `NewModel(ctx, input)`: the loops `for y` / `for x` over
`0 .. BoardSize-1`, starting from an empty map. -/
def NewModel (ctx : Context) (input : List Nat) : Option Model :=
  ((List.range BoardSize).foldlM
    (fun st y => (List.range BoardSize).foldlM
      (fun st x => newModelStep input st { x := x, y := y }) st)
    (ctx, [])).map (fun st => { ctx := st.1, board := st.2 })

/-- Embedding of `(m *Model) getRow`: the values of `(0..8, targetY)`,
appended in order; a missing key is a nil dereference. -/
def Model.getRow (m : Model) (targetY : Nat) : Option (List Term) :=
  (List.range BoardSize).foldlM
    (fun row x => (mapGet m.board { x := x, y := targetY }).map
      (fun cell => row ++ [cell.value])) []

/-- Embedding of `(m *Model) getColumn`: the values of `(targetX, 0..8)`. -/
def Model.getColumn (m : Model) (targetX : Nat) : Option (List Term) :=
  (List.range BoardSize).foldlM
    (fun col y => (mapGet m.board { x := targetX, y := y }).map
      (fun cell => col ++ [cell.value])) []

/-- Embedding of `(m *Model) getCube`: the values of the 3x3 block whose top
left corner is `topLeft`, rows `y` outer, columns `x` inner. -/
def Model.getCube (m : Model) (topLeft : Pos) : Option (List Term) :=
  (List.range' topLeft.y 3).foldlM
    (fun cube y => (List.range' topLeft.x 3).foldlM
      (fun cube x => (mapGet m.board { x := x, y := y }).map
        (fun cell => cube ++ [cell.value])) cube) []

/-- Embedding of `(m *Model) constrainDistinctValues`:
`solver.Assert(cells[0].Distinct(cells[1:]...))`; an empty slice panics. -/
def constrainDistinctValues (cells : List Term) (solver : List Assertion) :
    Option (List Assertion) :=
  match cells with
  | [] => none
  | c :: rest => some (solver ++ [Assertion.distinct c rest])

/-- The literal `cubePositions` of `Model.applyConstraints`. -/
def cubePositions : List Pos :=
  [⟨0, 0⟩, ⟨0, 3⟩, ⟨0, 6⟩, ⟨3, 0⟩, ⟨3, 3⟩, ⟨3, 6⟩, ⟨6, 0⟩, ⟨6, 3⟩, ⟨6, 6⟩]

/-- Embedding of `(m *Model) applyConstraints(solver)`: the cell bounds for
every entry of the map (Go ranges over a map in an unspecified order; the
entries are taken in list order), then the row, column and 3x3 `Distinct`
assertions. The result is the solver's list of assertions. -/
def Model.applyConstraints (m : Model) (solver : List Assertion) : Option (List Assertion) :=
  ((List.range BoardSize).foldlM
    (fun s y => (m.getRow y).bind (fun rowCells => constrainDistinctValues rowCells s))
    (m.board.foldl (fun s e => e.2.applyConstraints s) solver)).bind
  (fun s1 => ((List.range BoardSize).foldlM
    (fun s x => (m.getColumn x).bind (fun colCells => constrainDistinctValues colCells s))
    s1).bind
  (fun s2 => cubePositions.foldlM
    (fun s pos => (m.getCube pos).bind (fun cubeCells => constrainDistinctValues cubeCells s))
    s2))

/-- Embedding of `Solve(input)`. The external call `solver.Check()` followed by
`solver.Model()` is the parameter `check`: it yields `some σ` when the verdict
is `z3.True` with model `σ`, and `none` otherwise. The outer `Option` is a
panic while the constraints are built; the inner one is the returned pointer
(`none` for `nil`). -/
def Solve (check : List Assertion → Option Assignment) (input : Model) :
    Option (Option Assignment) :=
  (input.applyConstraints []).map check

/-- Contract of the external solver used here: a `z3.True` verdict comes with
a model that satisfies every assertion. -/
def SoundCheck (check : List Assertion → Option Assignment) : Prop :=
  ∀ cs σ, check cs = some σ → ∀ a ∈ cs, a.holds σ

/-! ## main.go : the solve stage -/

/-- What `main` prints after solving: the solved grid (the data `FromModel`
renders) or the UNSAT line. -/
inductive Report where
  | satGrid (board : Model) (solution : Assignment)
  | unsat

/-- Embedding of the tail of `main`: `board := NewModel(ctx, input)`,
`solution := Solve(board)`, then the branch on `solution != nil`. `none` is a
run-time panic. -/
def mainSolve (check : List Assertion → Option Assignment) (ctx : Context)
    (input : List Nat) : Option Report :=
  (NewModel ctx input).bind (fun board =>
    (Solve check board).map (fun solution =>
      match solution with
      | some σ => Report.satGrid board σ
      | none => Report.unsat))

/-! ## Specification-side notions for the model -/

/-- A valid board text: exactly 81 bytes, each `'.'` or a digit `'1'..'9'`. -/
def validBoard (input : List Nat) : Prop :=
  input.length = 81 ∧ ∀ b ∈ input, b = 46 ∨ isDigitByte b

instance (input : List Nat) : Decidable (validBoard input) := by
  unfold validBoard; infer_instance

/-- The positions of row `y`, in reading order. -/
def rowPositions (y : Nat) : List Pos := (List.range 9).map (fun x => ⟨x, y⟩)

/-- The positions of column `x`, top to bottom. -/
def colPositions (x : Nat) : List Pos := (List.range 9).map (fun y => ⟨x, y⟩)

/-- The positions of the 3x3 box whose top left corner is `(3*i, 3*j)`. -/
def boxPositions (i j : Nat) : List Pos :=
  (List.range 3).flatMap (fun dy => (List.range 3).map (fun dx => ⟨3 * i + dx, 3 * j + dy⟩))

/-- The 27 units of the grid: rows 0..8, columns 0..8, then the boxes with
corner `(3*i, 3*j)` for `i = 0..2` (outer) and `j = 0..2` (inner). -/
def unitPositions : List (List Pos) :=
  (List.range 9).map rowPositions ++ (List.range 9).map colPositions ++
    (List.range 3).flatMap (fun i => (List.range 3).map (fun j => boxPositions i j))

/-- The value term of the cell a model stores at a position (the literal 0
when the key is absent). -/
def Model.termAt (m : Model) (p : Pos) : Term :=
  match mapGet m.board p with
  | some cell => cell.value
  | none => Term.int 0

/-- The list `u` holds exactly the positions of row `y`. -/
def coversRow (u : List Pos) (y : Nat) : Prop := ∀ p : Pos, p ∈ u ↔ (p.x < 9 ∧ p.y = y)

/-- The list `u` holds exactly the positions of column `x`. -/
def coversColumn (u : List Pos) (x : Nat) : Prop := ∀ p : Pos, p ∈ u ↔ (p.x = x ∧ p.y < 9)

/-- The list `u` holds exactly the positions of the 3x3 box whose top left
corner is `(3*i, 3*j)`. -/
def coversBox (u : List Pos) (i j : Nat) : Prop :=
  ∀ p : Pos, p ∈ u ↔ (3 * i ≤ p.x ∧ p.x < 3 * i + 3 ∧ 3 * j ≤ p.y ∧ p.y < 3 * j + 3)

/-- The completed grid: a given digit is kept, a blank takes the value the
assignment gives to the constant of its cell. -/
def completedGrid (input : List Nat) (m : Model) (σ : Assignment) (p : Pos) : Int :=
  match input[p.y * 9 + p.x]? with
  | some ch => if ch = 46 then (m.termAt p).eval σ else Int.ofNat ch - 48
  | none => 0

/-- A grid is a legal Sudoku solution: every row, every column and every 3x3
box contains each digit 1..9 exactly once. -/
def legalSolution (g : Pos → Int) : Prop :=
  ∀ u ∈ unitPositions, ∀ d : Int, 1 ≤ d → d ≤ 9 → (u.map g).count d = 1

/-- The 81 positions in the order `NewModel` visits them (rows `y` outer,
columns `x` inner). -/
def allPositions : List Pos :=
  (List.range 9).flatMap (fun y => (List.range 9).map (fun x => ⟨x, y⟩))

/-- What `NewModel` is to store at position `p` for the text `input`: for
`'.'` a fresh constant named after `p` with `fromInput = false`, for any
other byte `ch` the literal `ch - '0'` (byte arithmetic) with
`fromInput = true`. -/
def cellEncodes (input : List Nat) (p : Pos) (cell : Cell) : Prop :=
  ∃ ch, input[p.y * 9 + p.x]? = some ch ∧
    ((ch = 46 ∧ ∃ idx, cell = ⟨Term.fresh p.x p.y idx, false⟩) ∨
     (ch ≠ 46 ∧ cell = ⟨Term.int (Int.ofNat (byteSubZero ch)), true⟩))

/-- The positions `getCube` visits for the corner `topLeft`, in its loop
order. -/
def cubeCells (topLeft : Pos) : List Pos :=
  (List.range' topLeft.y 3).flatMap
    (fun y => (List.range' topLeft.x 3).map (fun x => ⟨x, y⟩))

/-- The `Distinct` assertion `constrainDistinctValues` makes from a non-empty
slice of terms: first term against the rest. -/
def mkDistinct (ts : List Term) : Assertion :=
  Assertion.distinct (ts.headD (Term.int 0)) ts.tail

/-- A solved grid with its `'9'` at `(6, 0)` blanked: the only blank cell has
the digits 1..8 in its row, column and box. -/
def oneBlankBoard : List Nat :=
  [53, 51, 52, 54, 55, 56, 46, 49, 50,
   54, 55, 50, 49, 57, 53, 51, 52, 56,
   49, 57, 56, 51, 52, 50, 53, 54, 55,
   56, 53, 57, 55, 54, 49, 52, 50, 51,
   52, 50, 54, 56, 53, 51, 55, 57, 49,
   55, 49, 51, 57, 50, 52, 56, 53, 54,
   57, 54, 49, 53, 51, 55, 50, 56, 52,
   50, 56, 55, 52, 49, 57, 54, 51, 53,
   51, 52, 53, 50, 56, 54, 49, 55, 57]

/-- The board with `'5'` at `(0, 0)` and at `(1, 0)` and blanks elsewhere. -/
def twoFivesBoard : List Nat :=
  [53, 53, 46, 46, 46, 46, 46, 46, 46,
   46, 46, 46, 46, 46, 46, 46, 46, 46,
   46, 46, 46, 46, 46, 46, 46, 46, 46,
   46, 46, 46, 46, 46, 46, 46, 46, 46,
   46, 46, 46, 46, 46, 46, 46, 46, 46,
   46, 46, 46, 46, 46, 46, 46, 46, 46,
   46, 46, 46, 46, 46, 46, 46, 46, 46,
   46, 46, 46, 46, 46, 46, 46, 46, 46,
   46, 46, 46, 46, 46, 46, 46, 46, 46]

/-! ## display.go : the board view and its rendering -/

/-- Embedding of `type CellView struct { value byte; fromInput bool }`. -/
structure CellView where
  value : Nat
  fromInput : Bool
deriving DecidableEq, Repr

/-- Embedding of `type BoardView map[int]map[int]CellView`. The code only reads
and writes single keys of these maps (it never ranges over them), so a map is
kept as a partial function from keys to values. -/
abbrev BoardView := Nat → Option (Nat → Option CellView)

/-- The value of `make(BoardView)`. -/
def BoardView.empty : BoardView := fun _ => none

/-- The read `board[x][y]`: a missing key at either level gives the zero
`CellView`. -/
def BoardView.get (b : BoardView) (x y : Nat) : CellView :=
  match b x with
  | some inner =>
    match inner y with
    | some c => c
    | none => { value := 0, fromInput := false }
  | none => { value := 0, fromInput := false }

/-- The statement `if _, exists := out[x]; !exists { out[x] = make(...) }`. -/
def BoardView.ensure (b : BoardView) (x : Nat) : BoardView :=
  match b x with
  | some _ => b
  | none => fun x' => if x' = x then some (fun _ => none) else b x'

/-- The write `out[x][y] = cell`; a write into a missing (nil) inner map is a
run-time panic (`none`). -/
def BoardView.set (b : BoardView) (x y : Nat) (c : CellView) : Option BoardView :=
  match b x with
  | none => none
  | some inner =>
    some (fun x' => if x' = x then some (fun y' => if y' = y then some c else inner y')
      else b x')

/-- The ways `viewFromInput` can panic. -/
inductive ViewPanic where
  | indexOutOfRange
  | nilMap
  | illegalInput (value : Nat)
deriving DecidableEq, Repr

/-- Body of the inner loop of `viewFromInput` at position `(x, y)`. The byte
`value := ch - '0'` wraps modulo 256; `value < 1 || value > 9` panics with the
illegal-input message. -/
def viewStep (input : List Nat) (out : BoardView) (pos : Pos) : Except ViewPanic BoardView :=
  match input[pos.y * BoardSize + pos.x]? with
  | none => Except.error ViewPanic.indexOutOfRange
  | some ch =>
    if ch = 46 then
      match (out.ensure pos.x).set pos.x pos.y { value := 0, fromInput := false } with
      | some out1 => Except.ok out1
      | none => Except.error ViewPanic.nilMap
    else if byteSubZero ch < 1 ∨ byteSubZero ch > 9 then
      Except.error (ViewPanic.illegalInput (byteSubZero ch))
    else
      match (out.ensure pos.x).set pos.x pos.y
          { value := byteSubZero ch, fromInput := true } with
      | some out1 => Except.ok out1
      | none => Except.error ViewPanic.nilMap

/-- Embedding of `viewFromInput(input)`: the loops `for y` / `for x` over
`0 .. BoardSize-1`, starting from an empty view. -/
def viewFromInput (input : List Nat) : Except ViewPanic BoardView :=
  (List.range BoardSize).foldlM
    (fun out y => (List.range BoardSize).foldlM
      (fun out x => viewStep input out { x := x, y := y }) out)
    BoardView.empty

/-- The pieces `render` writes to its string builder. -/
inductive Piece where
  | horizontalTop
  | horizontal
  | horizontalBottom
  | vertical
  | newline
  | blank
  | given (value : Nat)
  | solved (value : Nat)
deriving DecidableEq, Repr

/-- The cell branch of `render`: `" . "` for value 0, otherwise the value in
the colour of given cells or of solved cells. -/
def cellPiece (cell : CellView) : Piece :=
  if cell.value = 0 then Piece.blank
  else if cell.fromInput then Piece.given cell.value
  else Piece.solved cell.value

/-- Embedding of the writes of `render(board)`, in order: the top border; for
each row `y` the separator before rows 3 and 6, for each column `x` a vertical
bar before columns 0, 3 and 6 and the cell `board[x][y]`, then a bar and a
newline; the bottom border. -/
def renderPieces (board : BoardView) : List Piece :=
  [Piece.horizontalTop] ++
  (List.range BoardSize).flatMap (fun y =>
    (if y = 3 ∨ y = 6 then [Piece.horizontal] else []) ++
    (List.range BoardSize).flatMap (fun x =>
      (if x % 3 = 0 then [Piece.vertical] else []) ++ [cellPiece (board.get x y)]) ++
    [Piece.vertical, Piece.newline]) ++
  [Piece.horizontalBottom]

/-- ANSI colour code `Clear`. -/
def Clear : String := "\x1b[0;0m"

/-- ANSI colour code `Yellow`. -/
def Yellow : String := "\x1b[1;43m"

/-- ANSI colour code `Green`. -/
def Green : String := "\x1b[1;42m"

/-- ANSI colour code `BlueFg`. -/
def BlueFg : String := "\x1b[0;44m"

/-- ANSI colour code `White`. -/
def White : String := "\x1b[1;37m"

/-- Box drawing string `Vertical`. -/
def Vertical : String := "\x1b(0\x78\x1b(0"

/-- Box drawing string `Horizontal`. -/
def Horizontal : String := "\x1b(0\x71"

/-- Box drawing string `EOL`. -/
def EOL : String := "\x1b(B\n"

/-- Common shape of `horizontalTop`, `horizontal` and `horizontalBottom`: left
corner, three runs of nine `Horizontal` separated by the split, right corner,
`EOL`, between `White` and `Clear`. -/
def borderLine (left split right : String) : String :=
  White ++ String.join [left, String.join (List.replicate 9 Horizontal), split,
    String.join (List.replicate 9 Horizontal), split,
    String.join (List.replicate 9 Horizontal), right, EOL] ++ Clear

/-- The string each piece stands for. -/
def Piece.text : Piece → String
  | Piece.horizontalTop => borderLine "\x1b(0\x6c" "\x1b(0\x77" "\x1b(0\x6b"
  | Piece.horizontal => borderLine "\x1b(0\x74" "\x1b(0\x6e" "\x1b(0\x75"
  | Piece.horizontalBottom => borderLine "\x1b(0\x6d" "\x1b(0\x76" "\x1b(0\x6a"
  | Piece.vertical => Vertical
  | Piece.newline => "\n"
  | Piece.blank => BlueFg ++ " . " ++ Clear
  | Piece.given v => Yellow ++ " " ++ toString v ++ " " ++ Clear
  | Piece.solved v => Green ++ " " ++ toString v ++ " " ++ Clear

/-- Embedding of `render(board)`: the pieces joined into one string. -/
def render (board : BoardView) : String :=
  String.join ((renderPieces board).map Piece.text)

/-- Embedding of `FromInput(input)`. -/
def FromInput (input : List Nat) : Except ViewPanic String :=
  (viewFromInput input).map render

/-- Embedding of `main` from the line `fmt.Println(sudoku.FromInput(input))`
on: the input board is rendered first (a panic there ends the process), then
the model is built and solved. -/
def mainRun (check : List Assertion → Option Assignment) (ctx : Context)
    (input : List Nat) : Except ViewPanic (String × Option Report) :=
  match FromInput input with
  | Except.error e => Except.error e
  | Except.ok shown => Except.ok (shown, mainSolve check ctx input)

/-- What a cell piece shows: the digit (none for a blank) and whether it is
drawn as a given; `none` for borders and separators. -/
def Piece.cell : Piece → Option (Option Nat × Bool)
  | Piece.blank => some (none, false)
  | Piece.given v => some (some v, true)
  | Piece.solved v => some (some v, false)
  | _ => none

/-- What `render` shows for a `CellView`. -/
def cellTag (cv : CellView) : Option Nat × Bool :=
  if cv.value = 0 then (none, false) else (some cv.value, cv.fromInput)

/-- The `CellView` that `viewFromInput` stores for a legal byte. -/
def viewCell (ch : Nat) : CellView :=
  if ch = 46 then { value := 0, fromInput := false }
  else { value := byteSubZero ch, fromInput := true }

/-- The byte is accepted by `viewFromInput`. -/
def legalByte (ch : Nat) : Prop := ch = 46 ∨ (1 ≤ byteSubZero ch ∧ byteSubZero ch ≤ 9)

instance (ch : Nat) : Decidable (legalByte ch) := by
  unfold legalByte; infer_instance

/-! ## cli.go : BoardFromFile, after a successful os.ReadFile

`strings.Map` and the UTF-8 coding it relies on belong to the Go standard
library; they are modelled here on the library's behaviour: the string is
decoded rune by rune, an invalid or truncated sequence counts as the rune
U+FFFD of width 1, and each rune the mapping keeps is written in its UTF-8
encoding. -/

/-- The rune `utf8.RuneError` (U+FFFD). -/
def RuneError : Nat := 0xFFFD

/-- For a leading byte of a multi-byte sequence: the length of the sequence
and the range accepted for its second byte (tables `first` and `acceptRanges`
of `unicode/utf8`); `none` for a byte that cannot start a sequence. -/
def leadInfo (s0 : Nat) : Option (Nat × Nat × Nat) :=
  if 0xC2 ≤ s0 ∧ s0 ≤ 0xDF then some (2, 0x80, 0xBF)
  else if s0 = 0xE0 then some (3, 0xA0, 0xBF)
  else if 0xE1 ≤ s0 ∧ s0 ≤ 0xEC then some (3, 0x80, 0xBF)
  else if s0 = 0xED then some (3, 0x80, 0x9F)
  else if 0xEE ≤ s0 ∧ s0 ≤ 0xEF then some (3, 0x80, 0xBF)
  else if s0 = 0xF0 then some (4, 0x90, 0xBF)
  else if 0xF1 ≤ s0 ∧ s0 ≤ 0xF3 then some (4, 0x80, 0xBF)
  else if s0 = 0xF4 then some (4, 0x80, 0x8F)
  else none

/-- Model of `utf8.DecodeRuneInString`: the rune at the front of a byte string
and its width; `(RuneError, 1)` for an invalid or truncated sequence. -/
def decodeRune : List Nat → Nat × Nat
  | [] => (RuneError, 0)
  | s0 :: rest =>
    if s0 < 0x80 then (s0, 1)
    else
      match leadInfo s0 with
      | none => (RuneError, 1)
      | some (sz, lo, hi) =>
        if rest.length + 1 < sz then (RuneError, 1)
        else
          match rest with
          | [] => (RuneError, 1)
          | s1 :: rest1 =>
            if s1 < lo ∨ hi < s1 then (RuneError, 1)
            else if sz ≤ 2 then ((s0 % 32) * 64 + s1 % 64, 2)
            else
              match rest1 with
              | [] => (RuneError, 1)
              | s2 :: rest2 =>
                if s2 < 0x80 ∨ 0xBF < s2 then (RuneError, 1)
                else if sz ≤ 3 then ((s0 % 16) * 4096 + (s1 % 64) * 64 + s2 % 64, 3)
                else
                  match rest2 with
                  | [] => (RuneError, 1)
                  | s3 :: _ =>
                    if s3 < 0x80 ∨ 0xBF < s3 then (RuneError, 1)
                    else ((s0 % 8) * 262144 + (s1 % 64) * 4096 + (s2 % 64) * 64 + s3 % 64, 4)

/-- Model of `utf8.AppendRune` (what `WriteRune` writes): the UTF-8 encoding of
a rune; surrogates and values above U+10FFFF are written as U+FFFD. -/
def encodeRune (r : Nat) : List Nat :=
  if r ≤ 0x7F then [r]
  else if r ≤ 0x7FF then [0xC0 + r / 64, 0x80 + r % 64]
  else if 0x10FFFF < r ∨ (0xD800 ≤ r ∧ r ≤ 0xDFFF) then [0xEF, 0xBF, 0xBD]
  else if r ≤ 0xFFFF then [0xE0 + r / 4096, 0x80 + (r / 64) % 64, 0x80 + r % 64]
  else [0xF0 + r / 262144, 0x80 + (r / 4096) % 64, 0x80 + (r / 64) % 64, 0x80 + r % 64]

/-- The loop of `strings.Map(mapping, s)` over the runes of `s`; `mapping`
gives `none` for a negative result (the rune is dropped). The first argument
bounds the number of runes left. -/
def mapRunes (mapping : Nat → Option Nat) : Nat → List Nat → List Nat
  | 0, _ => []
  | _ + 1, [] => []
  | fuel + 1, s0 :: rest =>
    (match mapping (decodeRune (s0 :: rest)).1 with
      | some r => encodeRune r
      | none => []) ++
    mapRunes mapping fuel ((s0 :: rest).drop (decodeRune (s0 :: rest)).2)

/-- Model of `strings.Map(mapping, s)`. -/
def stringsMap (mapping : Nat → Option Nat) (s : List Nat) : List Nat :=
  mapRunes mapping s.length s

/-- The mapping of `BoardFromFile`: runes contained in `" \n\t\r"` are dropped
(`-1`), every other rune is kept. -/
def stripMapping (r : Nat) : Option Nat :=
  if r = 32 ∨ r = 10 ∨ r = 9 ∨ r = 13 then none else some r

/-- The error `board must be exactly 81 characters (got %d)`. -/
inductive FileError where
  | wrongLength (got : Nat)
deriving DecidableEq, Repr

/-- Embedding of `(a *Args) BoardFromFile()` from the point where
`os.ReadFile` has returned `content` without error: strip with `strings.Map`,
then check `len(board) != 81`. -/
def BoardFromFile (content : List Nat) : Except FileError (List Nat) :=
  if (stringsMap stripMapping content).length ≠ 81 then
    Except.error (FileError.wrongLength (stringsMap stripMapping content).length)
  else Except.ok (stringsMap stripMapping content)

/-- Whether the byte is none of space, newline, tab, carriage return. -/
def notWhitespace (b : Nat) : Bool := !(b = 32 ∨ b = 10 ∨ b = 9 ∨ b = 13)

/-- The content with the four whitespace bytes removed. -/
def stripped (content : List Nat) : List Nat := content.filter notWhitespace

/-- Every rune of the byte string decodes from a well-formed UTF-8 sequence
(the first argument bounds the number of runes). -/
def validRunes : Nat → List Nat → Bool
  | 0, _ => true
  | _ + 1, [] => true
  | fuel + 1, s0 :: rest =>
    (decide (s0 < 0x80) || decide ((decodeRune (s0 :: rest)).2 ≠ 1)) &&
      validRunes fuel ((s0 :: rest).drop (decodeRune (s0 :: rest)).2)

/-- The byte string is valid UTF-8 (as `utf8.Valid` decides it). -/
def utf8Valid (s : List Nat) : Bool := validRunes s.length s

/-- A board file: the rows of `oneBlankBoard`, in groups of three separated by
spaces, each line ended by carriage return or tab and a newline. -/
def exampleFileContent : List Nat :=
  [53, 51, 52, 32, 54, 55, 56, 32, 46, 49, 50, 13, 10,
   54, 55, 50, 32, 49, 57, 53, 32, 51, 52, 56, 9, 10,
   49, 57, 56, 32, 51, 52, 50, 32, 53, 54, 55, 13, 10,
   56, 53, 57, 32, 55, 54, 49, 32, 52, 50, 51, 9, 10,
   52, 50, 54, 32, 56, 53, 51, 32, 55, 57, 49, 13, 10,
   55, 49, 51, 32, 57, 50, 52, 32, 56, 53, 54, 9, 10,
   57, 54, 49, 32, 53, 51, 55, 32, 50, 56, 52, 13, 10,
   50, 56, 55, 32, 52, 49, 57, 32, 54, 51, 53, 9, 10,
   51, 52, 53, 32, 50, 56, 54, 32, 49, 55, 57, 13, 10]

/-! ## Reading the rendered text back -/

/-- State of a reader of the text `render` returns, seen as terminal output:
plain text under the colour attribute `sgr` last selected; just after ESC;
inside a colour sequence `ESC [ ... m`, collecting its parameter; just after
`ESC (`, where one character names a character set. -/
inductive ScanState where
  | ground (sgr : List Char)
  | esc (sgr : List Char)
  | csi (sgr : List Char) (acc : List Char)
  | charset (sgr : List Char)
deriving DecidableEq, Repr

/-- One character of the reader. In plain text a `'.'` or a decimal digit is a
cell glyph and is reported with the colour attribute in force; every other
character (border letters, blanks, newlines) and every escape sequence is
skipped. -/
def scanStep : ScanState → Char → ScanState × List (Nat × List Char)
  | ScanState.ground sgr, c =>
    if c.toNat = 27 then (ScanState.esc sgr, [])
    else if c.toNat = 46 ∨ (48 ≤ c.toNat ∧ c.toNat ≤ 57) then
      (ScanState.ground sgr, [(c.toNat, sgr)])
    else (ScanState.ground sgr, [])
  | ScanState.esc sgr, c =>
    if c.toNat = 91 then (ScanState.csi sgr [], [])
    else if c.toNat = 40 then (ScanState.charset sgr, [])
    else (ScanState.ground sgr, [])
  | ScanState.csi sgr acc, c =>
    if c.toNat = 109 then (ScanState.ground acc, [])
    else (ScanState.csi sgr (acc ++ [c]), [])
  | ScanState.charset sgr, _ => (ScanState.ground sgr, [])

/-- The reader run over a text: the glyphs found, in order, and the final
state. -/
def scanRun : ScanState → List Char → List (Nat × List Char) × ScanState
  | st, [] => ([], st)
  | st, c :: rest =>
    ((scanStep st c).2 ++ (scanRun (scanStep st c).1 rest).1,
      (scanRun (scanStep st c).1 rest).2)

/-- The cell glyphs of a rendered text, in the order written, borders and
styling left out: each glyph byte with the parameter of the colour sequence it
is written under. -/
def readCells (s : String) : List (Nat × List Char) :=
  (scanRun (ScanState.ground []) s.toList).1

/-- The glyph and colour parameter that stand for what a cell shows: `'.'`
under `BlueFg` for a blank, the digit under `Yellow` for a given, under
`Green` for a solved cell. -/
def tagGlyph : Option Nat × Bool → Nat × List Char
  | (none, _) => (46, "0;44".toList)
  | (some v, true) => (48 + v, "1;43".toList)
  | (some v, false) => (48 + v, "1;42".toList)

/-- The glyphs the reader is to find in one piece. -/
def pieceGlyphs (p : Piece) : List (Nat × List Char) :=
  match Piece.cell p with
  | some t => [tagGlyph t]
  | none => []

/-- The pieces written for an input board: borders, blanks and givens with a
one-digit value. -/
def simplePiece : Piece → Prop
  | Piece.given v => 1 ≤ v ∧ v ≤ 9
  | Piece.solved _ => False
  | _ => True

/-! ## main.go : the whole program -/

/-- Where `main` takes its board from: the file named by `-input` (given here
by the content `os.ReadFile` returned) or the generator with `-generate N`
(with the draws of its random source). -/
inductive Source where
  | file (content : List Nat)
  | generate (N : Int) (draws : List Draw)

/-- How a run of `main` ends: `os.Exit(1)` after the error of `BoardFromFile`;
the generator still drawing when the draws run out, or its index panic; a
panic of `FromInput`; or the run to the end, with the rendered input board and
the report of the solve stage (`none` for a panic there). -/
inductive MainOutcome where
  | exitError (e : FileError)
  | generating
  | indexPanic
  | panic (p : ViewPanic)
  | ran (shown : String) (report : Option Report)

/-- The part of `main` after `input` is set. -/
def mainAfterInput (check : List Assertion → Option Assignment) (ctx : Context)
    (input : List Nat) : MainOutcome :=
  match mainRun check ctx input with
  | Except.error p => MainOutcome.panic p
  | Except.ok r => MainOutcome.ran r.1 r.2

/-- Embedding of `main`: the board comes from `BoardFromFile` (an error ends
the process) or from `GenerateBoard`; then the input is rendered, the model
built and solved. -/
def mainProgram (check : List Assertion → Option Assignment) (ctx : Context) :
    Source → MainOutcome
  | Source.file content =>
    match BoardFromFile content with
    | Except.error e => MainOutcome.exitError e
    | Except.ok input => mainAfterInput check ctx input
  | Source.generate N draws =>
    match GenerateBoard N draws with
    | Outcome.returned input => mainAfterInput check ctx input
    | Outcome.outOfDraws => MainOutcome.generating
    | Outcome.indexPanic => MainOutcome.indexPanic

/-! ## Ghost instrumentation of GenerateBoard -/

/-- The board after the write `board[(candidateY*BoardSize)+candidateX] =
cellValue` of a committed placement, given the board it was committed on and
the draw. -/
def place (c : List Nat × Draw) : List Nat :=
  c.1.set ((c.2.y.val * BoardSize) + c.2.x.val) (cellValue c.2)

/-- The placements `genLoop` commits (the rounds that reach `break`), in
order, each with the board it was committed on. It follows `genLoop` branch
by branch and records instead of returning. -/
def genCommits (N : Int) : List Draw → Int → List Nat → List (List Nat × Draw)
  | [], _, _ => []
  | d :: rest, i, board =>
    if i ≤ N then
      match validPlacement board d.x.val d.y.val (cellValue d) with
      | none => []
      | some true =>
        if (d.y.val * BoardSize) + d.x.val < board.length then
          (board, d) :: genCommits N rest (wrapInt64 (i + 1))
            (board.set ((d.y.val * BoardSize) + d.x.val) (cellValue d))
        else []
      | some false => genCommits N rest i board
    else []

/-- The recorded placements form a run that starts on `board`: the first is
committed on `board`, each next one on the board the previous one wrote. -/
def commitsFrom : List Nat → List (List Nat × Draw) → Prop
  | _, [] => True
  | board, c :: rest => c.1 = board ∧ commitsFrom (place c) rest

/-- The board after all recorded placements, started on `board`. -/
def finalBoard : List Nat → List (List Nat × Draw) → List Nat
  | board, [] => board
  | _, c :: rest => finalBoard (place c) rest

/-! ## Lemmas on validPlacement -/

theorem scanCells_inRange (board : List Nat) (val : Nat) (idxs : List Nat)
    (h : ∀ i ∈ idxs, i < board.length) :
    (∃ b, scanCells board val idxs = some b) ∧
    (scanCells board val idxs = some true ↔ ∀ i ∈ idxs, board[i]? ≠ some val) := by
  induction idxs with
  | nil => simp [scanCells]
  | cons i rest ih =>
    have hi : i < board.length := h i (List.mem_cons_self _ _)
    have ih2 := ih (fun j hj => h j (List.mem_cons_of_mem _ hj))
    simp only [scanCells, List.getElem?_eq_getElem hi]
    by_cases hb : board[i] = val
    · have hget : board[i]? = some val := by rw [List.getElem?_eq_getElem hi, hb]
      simp [hb, hget]
    · simp only [hb, if_false]
      refine ⟨ih2.1, ?_⟩
      rw [ih2.2]
      simp [List.getElem?_eq_getElem hi, hb]

theorem rowIndices_mem (x y i : Nat) :
    i ∈ rowIndices x y ↔ ∃ cx, cx < 9 ∧ cx ≠ x ∧ i = y * 9 + cx := by
  simp only [rowIndices, BoardSize, List.mem_map, List.mem_filter, List.mem_range,
    decide_eq_true_eq]
  constructor
  · rintro ⟨cx, ⟨h1, h2⟩, rfl⟩
    exact ⟨cx, h1, fun h => h2 h.symm, rfl⟩
  · rintro ⟨cx, h1, h2, rfl⟩
    exact ⟨cx, ⟨h1, fun h => h2 h.symm⟩, rfl⟩

theorem colIndices_mem (x y i : Nat) :
    i ∈ colIndices x y ↔ ∃ cy, cy < 9 ∧ cy ≠ y ∧ i = cy * 9 + x := by
  simp only [colIndices, BoardSize, List.mem_map, List.mem_filter, List.mem_range,
    decide_eq_true_eq]
  constructor
  · rintro ⟨cy, ⟨h1, h2⟩, rfl⟩
    exact ⟨cy, h1, fun h => h2 h.symm, rfl⟩
  · rintro ⟨cy, h1, h2, rfl⟩
    exact ⟨cy, ⟨h1, fun h => h2 h.symm⟩, rfl⟩

theorem cubeIndices_mem (x y i : Nat) :
    i ∈ cubeIndices x y ↔
      ∃ cy cx, y / 3 * 3 ≤ cy ∧ cy < y / 3 * 3 + 3 ∧ x / 3 * 3 ≤ cx ∧ cx < x / 3 * 3 + 3 ∧
        cy ≠ y ∧ cx ≠ x ∧ i = cy * 9 + cx := by
  simp only [cubeIndices, BoardSize, List.mem_flatMap, List.mem_map, List.mem_filter,
    List.mem_range'_1, decide_eq_true_eq]
  constructor
  · rintro ⟨cy, ⟨h1, h2⟩, cx, ⟨⟨h3, h4⟩, h5, h6⟩, rfl⟩
    exact ⟨cy, cx, h1, h2, h3, h4, h5, h6, rfl⟩
  · rintro ⟨cy, cx, h1, h2, h3, h4, h5, h6, rfl⟩
    exact ⟨cy, ⟨h1, h2⟩, cx, ⟨⟨h3, h4⟩, h5, h6⟩, rfl⟩

theorem validPlacement_eq_true_iff_scans (board : List Nat) (x y val : Nat) :
    validPlacement board x y val = some true ↔
      scanCells board val (rowIndices x y) = some true ∧
      scanCells board val (colIndices x y) = some true ∧
      scanCells board val (cubeIndices x y) = some true := by
  unfold validPlacement
  rcases hr : scanCells board val (rowIndices x y) with _ | _ | _ <;> simp
  rcases hc : scanCells board val (colIndices x y) with _ | _ | _ <;> simp

/-- On an 81-byte board and a position of the grid, `validPlacement` returns
(no read is out of range), and it returns `true` exactly when no other cell of
the row, column or box of `(x, y)` holds `val`. -/
theorem validPlacement_spec (board : List Nat) (x y val : Nat)
    (hlen : board.length = 81) (hx : x < 9) (hy : y < 9) :
    (∃ b, validPlacement board x y val = some b) ∧
    (validPlacement board x y val = some true ↔
      ∀ x', x' < 9 → ∀ y', y' < 9 → (x', y') ≠ (x, y) → sameUnit x' y' x y →
        board[y' * 9 + x']? ≠ some val) := by
  have hrow : ∀ i ∈ rowIndices x y, i < board.length := by
    intro i hi
    obtain ⟨cx, h1, _, rfl⟩ := (rowIndices_mem x y i).1 hi
    omega
  have hcol : ∀ i ∈ colIndices x y, i < board.length := by
    intro i hi
    obtain ⟨cy, h1, _, rfl⟩ := (colIndices_mem x y i).1 hi
    omega
  have hcube : ∀ i ∈ cubeIndices x y, i < board.length := by
    intro i hi
    obtain ⟨cy, cx, h1, h2, h3, h4, _, _, rfl⟩ := (cubeIndices_mem x y i).1 hi
    omega
  obtain ⟨⟨br, hbr⟩, hr⟩ := scanCells_inRange board val _ hrow
  obtain ⟨⟨bc, hbc⟩, hc⟩ := scanCells_inRange board val _ hcol
  obtain ⟨⟨bb, hbb⟩, hb⟩ := scanCells_inRange board val _ hcube
  constructor
  · unfold validPlacement
    rw [hbr]
    cases br
    · exact ⟨_, rfl⟩
    · simp only [hbc]
      cases bc
      · exact ⟨_, rfl⟩
      · exact ⟨bb, hbb⟩
  · rw [validPlacement_eq_true_iff_scans, hr, hc, hb]
    constructor
    · rintro ⟨h1, h2, h3⟩ x' hx' y' hy' hne hsame
      have hne2 : x' ≠ x ∨ y' ≠ y := by
        by_contra hcon
        push_neg at hcon
        exact hne (by rw [hcon.1, hcon.2])
      by_cases hyy : y' = y
      · subst hyy
        have hxx : x' ≠ x := by
          rcases hne2 with h | h
          · exact h
          · exact absurd rfl h
        exact h1 _ ((rowIndices_mem x y' _).2 ⟨x', hx', hxx, rfl⟩)
      · by_cases hxx : x' = x
        · subst hxx
          exact h2 _ ((colIndices_mem x' y _).2 ⟨y', hy', hyy, rfl⟩)
        · have hbox : x' / 3 = x / 3 ∧ y' / 3 = y / 3 := by
            rcases hsame with h | h | h
            · exact absurd h hyy
            · exact absurd h hxx
            · exact h
          refine h3 _ ((cubeIndices_mem x y _).2 ⟨y', x', ?_, ?_, ?_, ?_, hyy, hxx, rfl⟩) <;>
            omega
    · intro h
      refine ⟨?_, ?_, ?_⟩
      · intro i hi
        obtain ⟨cx, h1, h2, rfl⟩ := (rowIndices_mem x y i).1 hi
        exact h cx h1 y hy (by simp [h2]) (Or.inl rfl)
      · intro i hi
        obtain ⟨cy, h1, h2, rfl⟩ := (colIndices_mem x y i).1 hi
        exact h x hx cy h1 (by simp [h2]) (Or.inr (Or.inl rfl))
      · intro i hi
        obtain ⟨cy, cx, h1, h2, h3, h4, h5, h6, rfl⟩ := (cubeIndices_mem x y i).1 hi
        refine h cx (by omega) cy (by omega) (by simp [h5, h6]) (Or.inr (Or.inr ⟨?_, ?_⟩)) <;>
          omega

/-! ## Lemmas on GenerateBoard -/

/-- Any property of 81-byte boards that every accepted placement preserves
holds of the board the loop returns. -/
theorem genLoop_invariant (N : Int) (P : List Nat → Prop)
    (hstep : ∀ (board : List Nat) (d : Draw), board.length = 81 → P board →
      validPlacement board d.x.val d.y.val (cellValue d) = some true →
      P (board.set (d.y.val * 9 + d.x.val) (cellValue d))) :
    ∀ (draws : List Draw) (i : Int) (board b : List Nat), board.length = 81 → P board →
      genLoop N draws i board = Outcome.returned b → b.length = 81 ∧ P b := by
  intro draws
  induction draws with
  | nil =>
    intro i board b hlen hP h
    simp only [genLoop] at h
    split at h
    · exact absurd h (by simp)
    · injection h with h
      subst h
      exact ⟨hlen, hP⟩
  | cons d rest ih =>
    intro i board b hlen hP h
    simp only [genLoop] at h
    split at h
    · split at h
      · exact absurd h (by simp)
      · rename_i hv
        split at h
        · exact ih _ _ b (by rw [List.length_set]; exact hlen)
            (hstep board d hlen hP hv) h
        · exact absurd h (by simp)
      · exact ih _ _ b hlen hP h
    · injection h with h
      subst h
      exact ⟨hlen, hP⟩

theorem locallyValid_replicate : locallyValid (List.replicate 81 46) := by
  intro x1 hx1 y1 hy1 x2 hx2 y2 hy2 _ _ d hd h1
  have hlt : y1 * 9 + x1 < 81 := by omega
  rw [List.getElem?_replicate] at h1
  simp only [hlt, if_true, Option.some.injEq] at h1
  unfold isDigitByte at hd
  omega

theorem locallyValid_set (board : List Nat) (x y val : Nat)
    (hlen : board.length = 81) (hx : x < 9) (hy : y < 9)
    (hloc : locallyValid board) (hv : validPlacement board x y val = some true) :
    locallyValid (board.set (y * 9 + x) val) := by
  have hok := (validPlacement_spec board x y val hlen hx hy).2.1 hv
  intro x1 hx1 y1 hy1 x2 hx2 y2 hy2 hne hsame d hd h1 h2
  rw [List.getElem?_set] at h1 h2
  have hin : y * 9 + x < board.length := by omega
  simp only [hin, if_true] at h1 h2
  have hne2 : x1 ≠ x2 ∨ y1 ≠ y2 := by
    by_contra hcon
    push_neg at hcon
    exact hne (by rw [hcon.1, hcon.2])
  by_cases e1 : y * 9 + x = y1 * 9 + x1
  · have hx1e : x1 = x := by omega
    have hy1e : y1 = y := by omega
    subst hx1e hy1e
    simp only [if_true, Option.some.injEq] at h1
    have e2 : ¬ (y1 * 9 + x1 = y2 * 9 + x2) := by omega
    simp only [e2, if_false] at h2
    subst h1
    refine hok x2 hx2 y2 hy2 ?_ ?_ h2
    · intro heq
      exact hne heq.symm
    · unfold sameUnit at hsame ⊢
      omega
  · simp only [e1, if_false] at h1
    by_cases e2 : y * 9 + x = y2 * 9 + x2
    · have hx2e : x2 = x := by omega
      have hy2e : y2 = y := by omega
      subst hx2e hy2e
      simp only [if_true, Option.some.injEq] at h2
      subst h2
      exact hok x1 hx1 y1 hy1 hne hsame h1
    · simp only [e2, if_false] at h2
      exact hloc x1 hx1 y1 hy1 x2 hx2 y2 hy2 hne hsame d hd h1 h2

/-! ## Claims on the puzzle generator -/

/-- C1: on a board of 81 bytes, for `x`, `y` in `[0,8]` and any byte `val`,
`validPlacement` returns a result, and the result is `true` if and only if no
position `(x', y')` other than `(x, y)` in the same row, the same column or the
same 3x3 box holds a byte equal to `val`; the cells the box scan skips (same
row or same column as the candidate) are covered by the row and column
scans. -/
theorem C1_validPlacement_iff_no_conflict (board : List Nat) (x y val : Nat)
    (hlen : board.length = 81) (hx : x < 9) (hy : y < 9) :
    (∃ b, validPlacement board x y val = some b) ∧
    (validPlacement board x y val = some true ↔
      ∀ x', x' < 9 → ∀ y', y' < 9 → (x', y') ≠ (x, y) →
        (y' = y ∨ x' = x ∨ (x' / 3 = x / 3 ∧ y' / 3 = y / 3)) →
        board[y' * 9 + x']? ≠ some val) :=
  validPlacement_spec board x y val hlen hx hy

theorem C1_validPlacement_iff_no_conflict_witness :
    ((List.replicate 81 46).set 10 53).length = 81 ∧ 2 < 9 ∧ 0 < 9 ∧
    ((∃ b, validPlacement ((List.replicate 81 46).set 10 53) 2 0 53 = some b) ∧
    (validPlacement ((List.replicate 81 46).set 10 53) 2 0 53 = some true ↔
      ∀ x', x' < 9 → ∀ y', y' < 9 → (x', y') ≠ (2, 0) →
        (y' = 0 ∨ x' = 2 ∨ (x' / 3 = 2 / 3 ∧ y' / 3 = 0 / 3)) →
        ((List.replicate 81 46).set 10 53)[y' * 9 + x']? ≠ some 53)) :=
  ⟨by decide, by decide, by decide,
    C1_validPlacement_iff_no_conflict ((List.replicate 81 46).set 10 53) 2 0 53
      (by decide) (by decide) (by decide)⟩

/-- C2: whatever the seed count `N` and the draws, a board returned by
`GenerateBoard` has 81 bytes and is locally valid: no two distinct positions
sharing a row, a column or a 3x3 box hold the same digit. The proof is the
invariant argument: the blank board is locally valid and every committed
placement, also one onto an occupied cell, preserves local validity. -/
theorem C2_GenerateBoard_locallyValid (N : Int) (draws : List Draw) (b : List Nat)
    (h : GenerateBoard N draws = Outcome.returned b) :
    b.length = 81 ∧ locallyValid b := by
  refine genLoop_invariant N locallyValid ?_ draws 0 (List.replicate 81 46) b
    (by simp) locallyValid_replicate h
  intro board d hlen hloc hv
  exact locallyValid_set board d.x.val d.y.val (cellValue d) hlen d.x.isLt d.y.isLt hloc hv

theorem C2_GenerateBoard_locallyValid_witness :
    GenerateBoard 2 [⟨4, 0, 0⟩, ⟨4, 1, 1⟩, ⟨2, 1, 1⟩, ⟨6, 0, 0⟩] =
      Outcome.returned (((List.replicate 81 46).set 0 55).set 10 51) ∧
    ((((List.replicate 81 46).set 0 55).set 10 51).length = 81 ∧
      locallyValid (((List.replicate 81 46).set 0 55).set 10 51)) :=
  ⟨by decide, C2_GenerateBoard_locallyValid 2 [⟨4, 0, 0⟩, ⟨4, 1, 1⟩, ⟨2, 1, 1⟩, ⟨6, 0, 0⟩]
    _ (by decide)⟩

/-- C10: run of `GenerateBoard` with seed count `N = 0` on the single draw
(digit `'1'`, x = 0, y = 0): the loop `for i := 0; i <= a.Generate; i++` runs
once, so the returned board holds one digit, not zero. -/
theorem C10_GenerateBoard_zero_seeds_one_digit :
    GenerateBoard 0 [⟨0, 0, 0⟩] = Outcome.returned ((List.replicate 81 46).set 0 49) ∧
    countDigits ((List.replicate 81 46).set 0 49) = 1 ∧
    countDigits ((List.replicate 81 46).set 0 49) ≠ 0 := by
  decide

/-! ## Lemmas on the map and on NewModel -/

theorem mapInsert_of_not_mem (b : List (Pos × Cell)) (p : Pos) (c : Cell)
    (h : p ∉ b.map Prod.fst) : mapInsert b p c = b ++ [(p, c)] := by
  induction b with
  | nil => rfl
  | cons e rest ih =>
    obtain ⟨k, v⟩ := e
    simp only [List.map_cons, List.mem_cons, not_or] at h
    have hk : ¬ k = p := fun hkp => h.1 hkp.symm
    simp only [mapInsert, hk, if_false, ih h.2, List.cons_append]

theorem mapGet_some_mem (b : List (Pos × Cell)) (p : Pos) (c : Cell)
    (h : mapGet b p = some c) : (p, c) ∈ b := by
  induction b with
  | nil => simp [mapGet] at h
  | cons e rest ih =>
    obtain ⟨k, v⟩ := e
    simp only [mapGet] at h
    by_cases hk : k = p
    · simp only [hk, if_true, Option.some.injEq] at h
      subst hk h
      exact List.mem_cons_self _ _
    · simp only [hk, if_false] at h
      exact List.mem_cons_of_mem _ (ih h)

theorem mapGet_of_mem_nodup (b : List (Pos × Cell)) (p : Pos) (c : Cell)
    (hnd : (b.map Prod.fst).Nodup) (h : (p, c) ∈ b) : mapGet b p = some c := by
  induction b with
  | nil => simp at h
  | cons e rest ih =>
    obtain ⟨k, v⟩ := e
    simp only [List.map_cons, List.nodup_cons] at hnd
    simp only [mapGet]
    rcases List.mem_cons.1 h with heq | hmem
    · have hk : k = p := (Prod.mk.inj heq).1.symm
      have hv : v = c := (Prod.mk.inj heq).2.symm
      simp [hk, hv]
    · have hk : ¬ k = p := by
        intro hkp
        subst hkp
        exact hnd.1 (List.mem_map_of_mem Prod.fst hmem)
      simp only [hk, if_false]
      exact ih hnd.2 hmem

theorem foldlM_nested_eq {σ α β : Type} (f : σ → β → Option σ) (g : α → List β)
    (l : List α) (s : σ) :
    l.foldlM (fun st a => (g a).foldlM f st) s = (l.flatMap g).foldlM f s := by
  induction l generalizing s with
  | nil => rfl
  | cons a rest ih =>
    rw [List.foldlM_cons, List.flatMap_cons, List.foldlM_append]
    cases h : (g a).foldlM f s with
    | none => rfl
    | some s1 => exact ih s1

theorem allPositions_mem (p : Pos) : p ∈ allPositions ↔ p.x < 9 ∧ p.y < 9 := by
  simp only [allPositions, List.mem_flatMap, List.mem_map, List.mem_range]
  constructor
  · rintro ⟨y, hy, x, hx, rfl⟩
    exact ⟨hx, hy⟩
  · rintro ⟨hx, hy⟩
    exact ⟨p.y, hy, p.x, hx, rfl⟩

theorem allPositions_nodup : allPositions.Nodup := by decide

theorem allPositions_length : allPositions.length = 81 := by decide

theorem NewModel_eq_fold (ctx : Context) (input : List Nat) :
    NewModel ctx input =
      (allPositions.foldlM (newModelStep input) (ctx, [])).map
        (fun st => { ctx := st.1, board := st.2 }) := by
  unfold NewModel allPositions
  rw [← foldlM_nested_eq]
  simp only [List.foldlM_map, BoardSize]

theorem newModelStep_fold (input : List Nat) :
    ∀ (ps : List Pos) (st : Context × List (Pos × Cell)),
      (∀ p ∈ ps, p.y * 9 + p.x < input.length) → ps.Nodup →
      (∀ p ∈ ps, p ∉ st.2.map Prod.fst) →
      ∃ st', ps.foldlM (newModelStep input) st = some st' ∧
        st'.2.map Prod.fst = st.2.map Prod.fst ++ ps ∧
        ∀ e ∈ st'.2, e ∈ st.2 ∨ (e.1 ∈ ps ∧ cellEncodes input e.1 e.2) := by
  intro ps
  induction ps with
  | nil =>
    intro st _ _ _
    exact ⟨st, rfl, by simp, fun e he => Or.inl he⟩
  | cons p rest ih =>
    intro st hrange hnd hfresh
    have hp : p.y * 9 + p.x < input.length := hrange p (List.mem_cons_self _ _)
    have hpk : p ∉ st.2.map Prod.fst := hfresh p (List.mem_cons_self _ _)
    have hnd2 := List.nodup_cons.1 hnd
    obtain ⟨st1, hst1, hkeys1, hcell1⟩ : ∃ st1 : Context × List (Pos × Cell),
        newModelStep input st p = some st1 ∧
        (∃ c, st1.2 = st.2 ++ [(p, c)] ∧ cellEncodes input p c) ∧ True := by
      unfold newModelStep
      simp only [BoardSize, List.getElem?_eq_getElem hp]
      by_cases hch : input[p.y * 9 + p.x] = 46
      · simp only [hch, if_true]
        refine ⟨_, rfl, ⟨_, mapInsert_of_not_mem _ _ _ hpk, ?_⟩, trivial⟩
        exact ⟨46, by rw [List.getElem?_eq_getElem hp, hch],
          Or.inl ⟨rfl, st.1, rfl⟩⟩
      · simp only [hch, if_false]
        refine ⟨_, rfl, ⟨_, mapInsert_of_not_mem _ _ _ hpk, ?_⟩, trivial⟩
        exact ⟨input[p.y * 9 + p.x], by rw [List.getElem?_eq_getElem hp],
          Or.inr ⟨hch, rfl⟩⟩
    obtain ⟨c, hb1, henc⟩ := hkeys1
    have hfresh1 : ∀ q ∈ rest, q ∉ st1.2.map Prod.fst := by
      intro q hq
      rw [hb1, List.map_append, List.mem_append]
      rintro (h | h)
      · exact hfresh q (List.mem_cons_of_mem _ hq) h
      · simp only [List.map_cons, List.map_nil, List.mem_singleton] at h
        subst h
        exact hnd2.1 hq
    obtain ⟨st', hst', hkeys', hcell'⟩ :=
      ih st1 (fun q hq => hrange q (List.mem_cons_of_mem _ hq)) hnd2.2 hfresh1
    refine ⟨st', ?_, ?_, ?_⟩
    · rw [List.foldlM_cons, hst1]
      exact hst'
    · rw [hkeys', hb1]
      simp
    · intro e he
      rcases hcell' e he with h | ⟨h1, h2⟩
      · rw [hb1, List.mem_append] at h
        rcases h with h | h
        · exact Or.inl h
        · simp only [List.mem_singleton] at h
          subst h
          exact Or.inr ⟨List.mem_cons_self _ _, henc⟩
      · exact Or.inr ⟨List.mem_cons_of_mem _ h1, h2⟩

theorem newModelStep_fold_none (input : List Nat) :
    ∀ (ps : List Pos) (st : Context × List (Pos × Cell)),
      (∃ p ∈ ps, input.length ≤ p.y * 9 + p.x) →
      ps.foldlM (newModelStep input) st = none := by
  intro ps
  induction ps with
  | nil =>
    rintro st ⟨p, hp, _⟩
    simp at hp
  | cons q rest ih =>
    rintro st ⟨p, hp, hbad⟩
    rw [List.foldlM_cons]
    cases hstep : newModelStep input st q with
    | none => rfl
    | some st1 =>
      rcases List.mem_cons.1 hp with heq | hmem
      · subst heq
        unfold newModelStep at hstep
        simp only [BoardSize, List.getElem?_eq_none hbad] at hstep
        exact absurd hstep (by simp)
      · exact ih st1 ⟨p, hmem, hbad⟩

/-- On an input of at least 81 bytes `NewModel` returns a model whose keys are
the 81 grid positions, each once, and whose cells encode the first 81
bytes. -/
theorem NewModel_spec (ctx : Context) (input : List Nat) (hlen : 81 ≤ input.length) :
    ∃ m, NewModel ctx input = some m ∧ m.board.map Prod.fst = allPositions ∧
      ∀ e ∈ m.board, cellEncodes input e.1 e.2 := by
  have hrange : ∀ p ∈ allPositions, p.y * 9 + p.x < input.length := by
    intro p hp
    have := (allPositions_mem p).1 hp
    omega
  obtain ⟨st', hst', hkeys, hcells⟩ :=
    newModelStep_fold input allPositions (ctx, []) hrange allPositions_nodup (by simp)
  refine ⟨{ ctx := st'.1, board := st'.2 }, ?_, ?_, ?_⟩
  · rw [NewModel_eq_fold, hst']
    rfl
  · simpa using hkeys
  · intro e he
    rcases hcells e he with h | ⟨_, h⟩
    · simp at h
    · exact h

theorem NewModel_short (ctx : Context) (input : List Nat) (hlen : input.length < 81) :
    NewModel ctx input = none := by
  rw [NewModel_eq_fold]
  have : allPositions.foldlM (newModelStep input) (ctx, []) = none := by
    apply newModelStep_fold_none
    refine ⟨⟨8, 8⟩, (allPositions_mem _).2 ⟨by decide, by decide⟩, ?_⟩
    show input.length ≤ 8 * 9 + 8
    omega
  rw [this]
  rfl

/-! ## Lemmas on Model.applyConstraints -/

theorem mkDistinct_terms (ts : List Term) (h : ts ≠ []) : (mkDistinct ts).terms = ts := by
  cases ts with
  | nil => exact absurd rfl h
  | cons t rest => rfl

theorem mkDistinct_holds (σ : Assignment) (ts : List Term) (h : ts ≠ []) :
    (mkDistinct ts).holds σ ↔ (ts.map (Term.eval σ)).Nodup := by
  cases ts with
  | nil => exact absurd rfl h
  | cons t rest => rfl

theorem constrainDistinctValues_eq (ts : List Term) (s : List Assertion) (h : ts ≠ []) :
    constrainDistinctValues ts s = some (s ++ [mkDistinct ts]) := by
  cases ts with
  | nil => exact absurd rfl h
  | cons t rest => rfl

theorem termAt_of_mapGet (m : Model) (p : Pos) (c : Cell) (h : mapGet m.board p = some c) :
    m.termAt p = c.value := by
  unfold Model.termAt
  rw [h]

theorem collect_fold (m : Model) :
    ∀ (ps : List Pos) (acc : List Term), (∀ p ∈ ps, ∃ c, mapGet m.board p = some c) →
      ps.foldlM (fun row p => (mapGet m.board p).map (fun cell => row ++ [cell.value])) acc =
        some (acc ++ ps.map m.termAt) := by
  intro ps
  induction ps with
  | nil =>
    intro acc _
    simp [List.foldlM]
  | cons p rest ih =>
    intro acc h
    obtain ⟨c, hc⟩ := h p (List.mem_cons_self _ _)
    rw [List.foldlM_cons, hc]
    simp only [Option.map_some', Option.bind_eq_bind, Option.some_bind]
    rw [ih _ (fun q hq => h q (List.mem_cons_of_mem _ hq)), List.map_cons,
      termAt_of_mapGet m p c hc]
    simp

theorem getRow_eq_fold (m : Model) (y : Nat) :
    m.getRow y = (rowPositions y).foldlM
      (fun row p => (mapGet m.board p).map (fun cell => row ++ [cell.value])) [] := by
  unfold Model.getRow rowPositions
  rw [List.foldlM_map]
  rfl

theorem getColumn_eq_fold (m : Model) (x : Nat) :
    m.getColumn x = (colPositions x).foldlM
      (fun row p => (mapGet m.board p).map (fun cell => row ++ [cell.value])) [] := by
  unfold Model.getColumn colPositions
  rw [List.foldlM_map]
  rfl

theorem getCube_eq_fold (m : Model) (topLeft : Pos) :
    m.getCube topLeft = (cubeCells topLeft).foldlM
      (fun row p => (mapGet m.board p).map (fun cell => row ++ [cell.value])) [] := by
  unfold Model.getCube cubeCells
  rw [← foldlM_nested_eq]
  simp only [List.foldlM_map]

theorem units_fold {α : Type} (get : α → Option (List Term)) (grp : α → List Term) :
    ∀ (l : List α) (s : List Assertion), (∀ a ∈ l, get a = some (grp a) ∧ grp a ≠ []) →
      l.foldlM (fun s a => (get a).bind (fun cells => constrainDistinctValues cells s)) s =
        some (s ++ l.map (fun a => mkDistinct (grp a))) := by
  intro l
  induction l with
  | nil =>
    intro s _
    simp [List.foldlM]
  | cons a rest ih =>
    intro s h
    obtain ⟨h1, h2⟩ := h a (List.mem_cons_self _ _)
    rw [List.foldlM_cons, h1]
    simp only [Option.some_bind, constrainDistinctValues_eq _ _ h2, Option.bind_eq_bind]
    rw [ih _ (fun q hq => h q (List.mem_cons_of_mem _ hq))]
    simp

theorem bounds_fold (board : List (Pos × Cell)) (solver : List Assertion) :
    board.foldl (fun s e => e.2.applyConstraints s) solver =
      solver ++ board.flatMap (fun e => e.2.applyConstraints []) := by
  induction board generalizing solver with
  | nil => simp
  | cons e rest ih =>
    rw [List.foldl_cons, ih, List.flatMap_cons]
    simp [Cell.applyConstraints]

theorem cubePositions_cells :
    cubePositions.map cubeCells =
      (List.range 3).flatMap (fun i => (List.range 3).map (fun j => boxPositions i j)) := by
  decide

/-- Every key of the grid is present in a model whose keys are the 81
positions. -/
theorem mapGet_of_keys (m : Model) (hkeys : m.board.map Prod.fst = allPositions)
    (p : Pos) (hx : p.x < 9) (hy : p.y < 9) : ∃ c, mapGet m.board p = some c ∧ (p, c) ∈ m.board := by
  have hp : p ∈ m.board.map Prod.fst := by
    rw [hkeys]
    exact (allPositions_mem p).2 ⟨hx, hy⟩
  obtain ⟨e, he, hfst⟩ := List.mem_map.1 hp
  obtain ⟨k, c⟩ := e
  simp only at hfst
  subst hfst
  have hnd : (m.board.map Prod.fst).Nodup := by
    rw [hkeys]
    exact allPositions_nodup
  exact ⟨c, mapGet_of_mem_nodup _ _ _ hnd he, he⟩

/-- The assertions `Model.applyConstraints` adds to the solver, for a model
whose keys are the 81 positions: two bounds per stored cell, then one
`Distinct` per row, per column and per box. -/
theorem applyConstraints_spec (m : Model) (hkeys : m.board.map Prod.fst = allPositions)
    (solver : List Assertion) :
    m.applyConstraints solver =
      some (solver ++ m.board.flatMap (fun e => e.2.applyConstraints []) ++
        unitPositions.map (fun g => mkDistinct (g.map m.termAt))) := by
  have hrow : ∀ y ∈ List.range BoardSize,
      m.getRow y = some ((rowPositions y).map m.termAt) ∧ (rowPositions y).map m.termAt ≠ [] := by
    intro y hy
    have hy9 : y < 9 := List.mem_range.1 hy
    constructor
    · rw [getRow_eq_fold, collect_fold]
      · simp
      · intro p hp
        obtain ⟨x, hx, rfl⟩ := List.mem_map.1 hp
        obtain ⟨c, hc, _⟩ := mapGet_of_keys m hkeys ⟨x, y⟩ (List.mem_range.1 hx) hy9
        exact ⟨c, hc⟩
    · simp [rowPositions]
  have hcol : ∀ x ∈ List.range BoardSize,
      m.getColumn x = some ((colPositions x).map m.termAt) ∧
        (colPositions x).map m.termAt ≠ [] := by
    intro x hx
    have hx9 : x < 9 := List.mem_range.1 hx
    constructor
    · rw [getColumn_eq_fold, collect_fold]
      · simp
      · intro p hp
        obtain ⟨y, hy, rfl⟩ := List.mem_map.1 hp
        obtain ⟨c, hc, _⟩ := mapGet_of_keys m hkeys ⟨x, y⟩ hx9 (List.mem_range.1 hy)
        exact ⟨c, hc⟩
    · simp [colPositions]
  have hcube : ∀ pos ∈ cubePositions,
      m.getCube pos = some ((cubeCells pos).map m.termAt) ∧
        (cubeCells pos).map m.termAt ≠ [] := by
    intro pos hpos
    have hb : pos.x ≤ 6 ∧ pos.y ≤ 6 := by
      simp only [cubePositions, List.mem_cons, List.mem_singleton, List.not_mem_nil,
        or_false] at hpos
      rcases hpos with h | h | h | h | h | h | h | h | h <;> subst h <;> decide
    constructor
    · rw [getCube_eq_fold, collect_fold]
      · simp
      · intro p hp
        simp only [cubeCells, List.mem_flatMap, List.mem_map, List.mem_range'_1] at hp
        obtain ⟨y, hy, x, hx, rfl⟩ := hp
        obtain ⟨c, hc, _⟩ := mapGet_of_keys m hkeys ⟨x, y⟩ (by show x < 9; omega)
          (by show y < 9; omega)
        exact ⟨c, hc⟩
    · simp only [ne_eq, List.map_eq_nil_iff]
      simp only [cubePositions, List.mem_cons, List.mem_singleton, List.not_mem_nil,
        or_false] at hpos
      rcases hpos with h | h | h | h | h | h | h | h | h <;> subst h <;> decide
  unfold Model.applyConstraints
  rw [bounds_fold, units_fold _ _ _ _ hrow]
  simp only [Option.some_bind]
  rw [units_fold _ _ _ _ hcol]
  simp only [Option.some_bind]
  rw [units_fold _ _ _ _ hcube]
  have h3 : cubePositions.map (fun a => mkDistinct ((cubeCells a).map m.termAt)) =
      ((List.range 3).flatMap (fun i => (List.range 3).map (fun j => boxPositions i j))).map
        (fun g => mkDistinct (g.map m.termAt)) := by
    rw [← cubePositions_cells, List.map_map]
    rfl
  rw [h3]
  simp only [unitPositions, BoardSize, List.map_append, List.map_map, List.append_assoc]
  rfl

/-! ## Lemmas on the pipeline NewModel, applyConstraints, Solve -/

/-- For an input of at least 81 bytes the model is built and its constraints
are the bounds of the stored cells followed by the 27 `Distinct`. -/
theorem pipeline_spec (ctx : Context) (input : List Nat) (hlen : 81 ≤ input.length) :
    ∃ m cs, NewModel ctx input = some m ∧ m.applyConstraints [] = some cs ∧
      m.board.map Prod.fst = allPositions ∧
      (∀ e ∈ m.board, cellEncodes input e.1 e.2) ∧
      cs = m.board.flatMap (fun e => e.2.applyConstraints []) ++
        unitPositions.map (fun g => mkDistinct (g.map m.termAt)) := by
  obtain ⟨m, hm, hkeys, hcells⟩ := NewModel_spec ctx input hlen
  refine ⟨m, _, hm, applyConstraints_spec m hkeys [], hkeys, hcells, ?_⟩
  simp

theorem cell_of_input (input : List Nat) (m : Model)
    (hkeys : m.board.map Prod.fst = allPositions)
    (hcells : ∀ e ∈ m.board, cellEncodes input e.1 e.2)
    (x y : Nat) (hx : x < 9) (hy : y < 9) :
    ∃ c, mapGet m.board ⟨x, y⟩ = some c ∧ (⟨x, y⟩, c) ∈ m.board ∧
      m.termAt ⟨x, y⟩ = c.value ∧ cellEncodes input ⟨x, y⟩ c := by
  obtain ⟨c, hc, hmem⟩ := mapGet_of_keys m hkeys ⟨x, y⟩ hx hy
  exact ⟨c, hc, hmem, termAt_of_mapGet m _ c hc, hcells _ hmem⟩

theorem given_cell_of_input (input : List Nat) (m : Model)
    (hkeys : m.board.map Prod.fst = allPositions)
    (hcells : ∀ e ∈ m.board, cellEncodes input e.1 e.2)
    (x y ch : Nat) (hx : x < 9) (hy : y < 9) (hch : input[y * 9 + x]? = some ch)
    (hne : ch ≠ 46) :
    mapGet m.board ⟨x, y⟩ = some ⟨Term.int (Int.ofNat (byteSubZero ch)), true⟩ ∧
      (⟨x, y⟩, ⟨Term.int (Int.ofNat (byteSubZero ch)), true⟩) ∈ m.board ∧
      m.termAt ⟨x, y⟩ = Term.int (Int.ofNat (byteSubZero ch)) := by
  obtain ⟨c, hc, hmem, ht, ch', hch', henc⟩ := cell_of_input input m hkeys hcells x y hx hy
  simp only at hch'
  rw [hch] at hch'
  injection hch' with hch'
  subst hch'
  rcases henc with ⟨h46, _⟩ | ⟨_, hcell⟩
  · exact absurd h46 hne
  · subst hcell
    exact ⟨hc, hmem, ht⟩

theorem blank_cell_of_input (input : List Nat) (m : Model)
    (hkeys : m.board.map Prod.fst = allPositions)
    (hcells : ∀ e ∈ m.board, cellEncodes input e.1 e.2)
    (x y : Nat) (hx : x < 9) (hy : y < 9) (hch : input[y * 9 + x]? = some 46) :
    ∃ idx, mapGet m.board ⟨x, y⟩ = some ⟨Term.fresh x y idx, false⟩ ∧
      (⟨x, y⟩, ⟨Term.fresh x y idx, false⟩) ∈ m.board ∧
      m.termAt ⟨x, y⟩ = Term.fresh x y idx := by
  obtain ⟨c, hc, hmem, ht, ch', hch', henc⟩ := cell_of_input input m hkeys hcells x y hx hy
  simp only at hch'
  rw [hch] at hch'
  injection hch' with hch'
  subst hch'
  rcases henc with ⟨_, idx, hcell⟩ | ⟨h46, _⟩
  · subst hcell
    exact ⟨idx, hc, hmem, ht⟩
  · exact absurd rfl h46

theorem Solve_of_unsat (check : List Assertion → Option Assignment) (hs : SoundCheck check)
    (m : Model) (cs : List Assertion) (h : m.applyConstraints [] = some cs)
    (hun : ¬ ∃ σ, ∀ a ∈ cs, a.holds σ) : Solve check m = some none := by
  unfold Solve
  rw [h]
  cases hc : check cs with
  | none => rw [Option.map_some', hc]
  | some σ => exact absurd ⟨σ, hs cs σ hc⟩ hun

/-- A given `'9'` makes the constraints unsatisfiable: its upper bound is the
assertion `9 < 9`. -/
theorem unsat_of_given_nine (ctx : Context) (input : List Nat) (hlen : 81 ≤ input.length)
    (x y : Nat) (hx : x < 9) (hy : y < 9) (h9 : input[y * 9 + x]? = some 57) :
    ∃ m cs, NewModel ctx input = some m ∧ m.applyConstraints [] = some cs ∧
      Assertion.lt (Term.int 9) (Term.int 9) ∈ cs ∧ ¬ ∃ σ, ∀ a ∈ cs, a.holds σ := by
  obtain ⟨m, cs, hm, hcs, hkeys, hcells, hform⟩ := pipeline_spec ctx input hlen
  obtain ⟨_, hmem, _⟩ := given_cell_of_input input m hkeys hcells x y 57 hx hy h9 (by decide)
  have hin : Assertion.lt (Term.int 9) (Term.int 9) ∈ cs := by
    rw [hform]
    apply List.mem_append_left
    rw [List.mem_flatMap]
    exact ⟨_, hmem, by simp [Cell.applyConstraints, byteSubZero]⟩
  refine ⟨m, cs, hm, hcs, hin, ?_⟩
  rintro ⟨σ, hσ⟩
  have := hσ _ hin
  simp [Assertion.holds, Term.eval] at this

theorem foldlM_congr_mem {σ α : Type} (f g : σ → α → Option σ) :
    ∀ (l : List α) (s : σ), (∀ a ∈ l, ∀ st, f st a = g st a) →
      l.foldlM f s = l.foldlM g s := by
  intro l
  induction l with
  | nil =>
    intro s _
    rfl
  | cons a rest ih =>
    intro s h
    rw [List.foldlM_cons, List.foldlM_cons, h a (List.mem_cons_self _ _) s]
    cases g s a with
    | none => rfl
    | some s1 => exact ih s1 (fun b hb => h b (List.mem_cons_of_mem _ hb))

/-- `NewModel` reads the first 81 bytes only. -/
theorem NewModel_take (ctx : Context) (input : List Nat) :
    NewModel ctx (input.take 81) = NewModel ctx input := by
  rw [NewModel_eq_fold, NewModel_eq_fold]
  congr 1
  apply foldlM_congr_mem
  intro p hp st
  have hlt : p.y * 9 + p.x < 81 := by
    have := (allPositions_mem p).1 hp
    omega
  unfold newModelStep
  simp only [BoardSize, List.getElem?_take, hlt, if_true]

/-! ## Claims on board encoding and the constraint model -/

/-- C3: the two bound assertions `Cell.applyConstraints` emits are
`value >= 1` and `value < 9`. For the given cell with literal 9 they are
`9 >= 1` and `9 < 9`, which no assignment satisfies, and for a free cell the
assignment that gives it 9 violates them: the value 9 of the range `[1,9]` is
excluded. -/
theorem C3_cell_bounds_exclude_nine :
    (NewInputCell 9).applyConstraints [] =
      [Assertion.ge (Term.int 9) (Term.int 1), Assertion.lt (Term.int 9) (Term.int 9)] ∧
    (¬ ∃ σ : Assignment, ∀ a ∈ (NewInputCell 9).applyConstraints [], a.holds σ) ∧
    (NewDefaultCell 0 ⟨0, 0⟩).1.applyConstraints [] =
      [Assertion.ge (Term.fresh 0 0 0) (Term.int 1),
        Assertion.lt (Term.fresh 0 0 0) (Term.int 9)] ∧
    (¬ ∀ a ∈ (NewDefaultCell 0 ⟨0, 0⟩).1.applyConstraints [], a.holds (fun _ _ _ => 9)) := by
  refine ⟨rfl, ?_, rfl, ?_⟩
  · rintro ⟨σ, h⟩
    have := h (Assertion.lt (Term.int 9) (Term.int 9))
      (by simp [NewInputCell, Cell.applyConstraints])
    simp [Assertion.holds, Term.eval] at this
  · intro h
    have := h (Assertion.lt (Term.fresh 0 0 0) (Term.int 9))
      (by simp [NewDefaultCell, Cell.applyConstraints])
    simp [Assertion.holds, Term.eval] at this

/-- C5: on `oneBlankBoard` (a valid board, one blank cell at `(6, 0)` whose
row, column and box hold the digits 1..8) the model is built and the
constraints are emitted, but they contain `9 < 9` (the upper bound of a given
`'9'`), so no assignment satisfies them and `Solve` returns `nil` with any
sound solver: the board is not solved with 9 in the blank cell. -/
theorem C5_oneBlankBoard_unsat :
    validBoard oneBlankBoard ∧ oneBlankBoard.count 46 = 1 ∧ oneBlankBoard[0 * 9 + 6]? = some 46 ∧
    (∀ d ∈ List.range' 49 8, ∃ i ∈ rowIndices 6 0 ++ colIndices 6 0 ++ cubeIndices 6 0,
      oneBlankBoard[i]? = some d) ∧
    ∃ m cs, NewModel 0 oneBlankBoard = some m ∧ m.applyConstraints [] = some cs ∧
      Assertion.lt (Term.int 9) (Term.int 9) ∈ cs ∧
      (¬ ∃ σ, ∀ a ∈ cs, a.holds σ) ∧
      (∀ check, SoundCheck check → Solve check m = some none) := by
  refine ⟨by decide, by decide, by decide, by decide, ?_⟩
  obtain ⟨m, cs, hm, hcs, hin, hun⟩ :=
    unsat_of_given_nine 0 oneBlankBoard (by decide) 4 1 (by decide) (by decide) (by decide)
  exact ⟨m, cs, hm, hcs, hin, hun, fun check hs => Solve_of_unsat check hs m cs hcs hun⟩

/-- C6: for a valid board in which two distinct positions `(x1, y)` and
`(x2, y)` of one row hold the same given digit, the model is built, the
constraints are emitted, no assignment satisfies them (the `Distinct` of row
`y` has the same literal twice), `Solve` returns `nil` with any sound solver,
and `main` reports UNSAT instead of a solved grid. -/
theorem C6_duplicate_given_in_row_unsat (ctx : Context) (input : List Nat)
    (hvalid : validBoard input) (x1 x2 y d : Nat) (hx1 : x1 < 9) (hx2 : x2 < 9) (hy : y < 9)
    (hne : x1 ≠ x2) (hd : isDigitByte d)
    (h1 : input[y * 9 + x1]? = some d) (h2 : input[y * 9 + x2]? = some d) :
    ∃ m cs, NewModel ctx input = some m ∧ m.applyConstraints [] = some cs ∧
      (¬ ∃ σ, ∀ a ∈ cs, a.holds σ) ∧
      (∀ check, SoundCheck check →
        Solve check m = some none ∧ mainSolve check ctx input = some Report.unsat) := by
  obtain ⟨m, cs, hm, hcs, hkeys, hcells, hform⟩ := pipeline_spec ctx input (by rw [hvalid.1])
  have hd46 : d ≠ 46 := by
    unfold isDigitByte at hd
    omega
  obtain ⟨_, _, ht1⟩ := given_cell_of_input input m hkeys hcells x1 y d hx1 hy h1 hd46
  obtain ⟨_, _, ht2⟩ := given_cell_of_input input m hkeys hcells x2 y d hx2 hy h2 hd46
  have hrow : mkDistinct ((rowPositions y).map m.termAt) ∈ cs := by
    rw [hform]
    apply List.mem_append_right
    apply List.mem_map_of_mem
    unfold unitPositions
    apply List.mem_append_left
    apply List.mem_append_left
    exact List.mem_map_of_mem _ (List.mem_range.2 hy)
  have hun : ¬ ∃ σ, ∀ a ∈ cs, a.holds σ := by
    rintro ⟨σ, hσ⟩
    have hnd := (mkDistinct_holds σ _ (by simp [rowPositions])).1 (hσ _ hrow)
    rw [rowPositions, List.map_map, List.map_map] at hnd
    have hinj := List.inj_on_of_nodup_map hnd (List.mem_range.2 hx1) (List.mem_range.2 hx2)
    apply hne
    apply hinj
    simp only [Function.comp]
    rw [ht1, ht2]
  refine ⟨m, cs, hm, hcs, hun, ?_⟩
  intro check hs
  have hsolve := Solve_of_unsat check hs m cs hcs hun
  refine ⟨hsolve, ?_⟩
  unfold mainSolve
  rw [hm]
  simp only [Option.some_bind, hsolve, Option.map_some']

theorem C6_duplicate_given_in_row_unsat_witness :
    validBoard twoFivesBoard ∧ 0 < 9 ∧ 1 < 9 ∧ 0 < 9 ∧ 0 ≠ 1 ∧ isDigitByte 53 ∧
    twoFivesBoard[0 * 9 + 0]? = some 53 ∧ twoFivesBoard[0 * 9 + 1]? = some 53 ∧
    ∃ m cs, NewModel 0 twoFivesBoard = some m ∧ m.applyConstraints [] = some cs ∧
      (¬ ∃ σ, ∀ a ∈ cs, a.holds σ) ∧
      (∀ check, SoundCheck check →
        Solve check m = some none ∧ mainSolve check 0 twoFivesBoard = some Report.unsat) :=
  ⟨by decide, by decide, by decide, by decide, by decide, by decide, by decide, by decide,
    C6_duplicate_given_in_row_unsat 0 twoFivesBoard (by decide) 0 1 0 53 (by decide)
      (by decide) (by decide) (by decide) (by decide) (by decide) (by decide)⟩

/-- C8: for a valid 81-byte board, `NewModel` returns a model with exactly 81
entries whose keys are exactly the positions `(x, y)` with `x, y` in `0..8`,
each once. A digit `d` at `input[y*9 + x]` gives the literal `d - '0'` with
`fromInput = true`; a `'.'` gives a fresh constant with `fromInput = false`
that is the value of no other position; every cell with `fromInput = true` is
a literal in `[1,9]`, never a free variable. -/
theorem C8_NewModel_cells (ctx : Context) (input : List Nat) (hvalid : validBoard input) :
    ∃ m, NewModel ctx input = some m ∧ m.board.length = 81 ∧
      (m.board.map Prod.fst).Nodup ∧
      (∀ p, (∃ c, mapGet m.board p = some c) ↔ (p.x < 9 ∧ p.y < 9)) ∧
      (∀ x, x < 9 → ∀ y, y < 9 → ∀ d, isDigitByte d → input[y * 9 + x]? = some d →
        mapGet m.board ⟨x, y⟩ = some ⟨Term.int (Int.ofNat (d - 48)), true⟩) ∧
      (∀ x, x < 9 → ∀ y, y < 9 → input[y * 9 + x]? = some 46 →
        ∃ idx, mapGet m.board ⟨x, y⟩ = some ⟨Term.fresh x y idx, false⟩ ∧
          ∀ q c, q ≠ ⟨x, y⟩ → mapGet m.board q = some c → c.value ≠ Term.fresh x y idx) ∧
      (∀ p c, mapGet m.board p = some c → c.fromInput = true →
        ∃ n : Int, c.value = Term.int n ∧ 1 ≤ n ∧ n ≤ 9) := by
  obtain ⟨m, hm, hkeys, hcells⟩ := NewModel_spec ctx input (by rw [hvalid.1])
  have hnd : (m.board.map Prod.fst).Nodup := by
    rw [hkeys]
    exact allPositions_nodup
  refine ⟨m, hm, ?_, hnd, ?_, ?_, ?_, ?_⟩
  · have := congrArg List.length hkeys
    rw [List.length_map, allPositions_length] at this
    exact this
  · intro p
    constructor
    · rintro ⟨c, hc⟩
      have hmem := List.mem_map_of_mem Prod.fst (mapGet_some_mem _ _ _ hc)
      rw [hkeys] at hmem
      exact (allPositions_mem p).1 hmem
    · rintro ⟨hx, hy⟩
      obtain ⟨c, hc, _⟩ := mapGet_of_keys m hkeys p hx hy
      exact ⟨c, hc⟩
  · intro x hx y hy d hd hin
    have hd46 : d ≠ 46 := by
      unfold isDigitByte at hd
      omega
    have hsub : byteSubZero d = d - 48 := by
      unfold isDigitByte at hd
      unfold byteSubZero
      omega
    have := (given_cell_of_input input m hkeys hcells x y d hx hy hin hd46).1
    rw [hsub] at this
    exact this
  · intro x hx y hy hin
    obtain ⟨idx, hc, _, _⟩ := blank_cell_of_input input m hkeys hcells x y hx hy hin
    refine ⟨idx, hc, ?_⟩
    intro q c hq hqc hval
    have hq' : cellEncodes input q c := hcells (q, c) (mapGet_some_mem m.board q c hqc)
    obtain ⟨ch, _, henc⟩ := hq'
    rcases henc with ⟨_, idx2, hcell⟩ | ⟨_, hcell⟩
    · subst hcell
      simp only [Term.fresh.injEq] at hval
      apply hq
      cases q
      simp only [Pos.mk.injEq]
      exact ⟨hval.1, hval.2.1⟩
    · subst hcell
      simp at hval
  · intro p c hc hfrom
    have hp' : cellEncodes input p c := hcells (p, c) (mapGet_some_mem m.board p c hc)
    obtain ⟨ch, hch, henc⟩ := hp'
    rcases henc with ⟨_, idx2, hcell⟩ | ⟨hne, hcell⟩
    · subst hcell
      simp at hfrom
    · subst hcell
      have hmem := hvalid.2 ch (List.getElem?_mem hch)
      refine ⟨_, rfl, ?_⟩
      rcases hmem with h | h
      · exact absurd h hne
      · unfold isDigitByte at h
        unfold byteSubZero
        simp only [Int.ofNat_eq_coe]
        omega

theorem C8_NewModel_cells_witness :
    validBoard twoFivesBoard ∧
    ∃ m, NewModel 0 twoFivesBoard = some m ∧ m.board.length = 81 ∧
      (m.board.map Prod.fst).Nodup ∧
      (∀ p, (∃ c, mapGet m.board p = some c) ↔ (p.x < 9 ∧ p.y < 9)) ∧
      (∀ x, x < 9 → ∀ y, y < 9 → ∀ d, isDigitByte d → twoFivesBoard[y * 9 + x]? = some d →
        mapGet m.board ⟨x, y⟩ = some ⟨Term.int (Int.ofNat (d - 48)), true⟩) ∧
      (∀ x, x < 9 → ∀ y, y < 9 → twoFivesBoard[y * 9 + x]? = some 46 →
        ∃ idx, mapGet m.board ⟨x, y⟩ = some ⟨Term.fresh x y idx, false⟩ ∧
          ∀ q c, q ≠ ⟨x, y⟩ → mapGet m.board q = some c → c.value ≠ Term.fresh x y idx) ∧
      (∀ p c, mapGet m.board p = some c → c.fromInput = true →
        ∃ n : Int, c.value = Term.int n ∧ 1 ≤ n ∧ n ≤ 9) :=
  ⟨by decide, C8_NewModel_cells 0 twoFivesBoard (by decide)⟩

/-- C9 as stated fails: `NewModel` builds a model from an input of 82 bytes,
and from an 81-byte input whose first byte is `'a'` it builds a model whose
cell `(0, 0)` is a given cell with the literal `'a' - '0' = 49`. -/
theorem C9_NewModel_accepts_malformed :
    (List.replicate 82 46).length ≠ 81 ∧ (NewModel 0 (List.replicate 82 46)).isSome = true ∧
    (97 :: List.replicate 80 46).length = 81 ∧
    (NewModel 0 (97 :: List.replicate 80 46)).map (fun m => mapGet m.board ⟨0, 0⟩) =
      some (some ⟨Term.int 49, true⟩) := by
  decide

/-- What `NewModel` does without any check of its own: it returns no model (an
index-out-of-range panic) exactly when the input has fewer than 81 bytes; on a
longer input it builds the model of the first 81 bytes; and every byte `ch`
other than `'.'` among the first 81, a digit or not, becomes a given cell
with the literal `ch - '0'` taken modulo 256. -/
theorem NewModel_reads_unchecked (ctx : Context) (input : List Nat) :
    (NewModel ctx input = none ↔ input.length < 81) ∧
    NewModel ctx (input.take 81) = NewModel ctx input ∧
    (∀ m, NewModel ctx input = some m →
      ∀ x, x < 9 → ∀ y, y < 9 → ∀ ch, input[y * 9 + x]? = some ch → ch ≠ 46 →
        mapGet m.board ⟨x, y⟩ =
          some ⟨Term.int (Int.ofNat ((ch + 256 - 48) % 256)), true⟩) := by
  refine ⟨?_, NewModel_take ctx input, ?_⟩
  · constructor
    · intro hnone
      by_contra hlen
      obtain ⟨m, hm, _⟩ := NewModel_spec ctx input (by omega)
      rw [hm] at hnone
      exact absurd hnone (by simp)
    · exact NewModel_short ctx input
  · intro m hm x hx y hy ch hch hne
    have hlen : 81 ≤ input.length := by
      by_contra hlen
      rw [NewModel_short ctx input (by omega)] at hm
      exact absurd hm (by simp)
    obtain ⟨m', hm', hkeys, hcells⟩ := NewModel_spec ctx input hlen
    rw [hm] at hm'
    injection hm' with hm'
    subst hm'
    exact (given_cell_of_input input m hkeys hcells x y ch hx hy hch hne).1

/-! ## Lemmas on the 27 units -/

theorem unitPositions_shape :
    ∀ u ∈ unitPositions, u.Nodup ∧ u.length = 9 ∧ ∀ p ∈ u, p.x < 9 ∧ p.y < 9 := by
  decide

theorem unitPositions_length : unitPositions.length = 27 := by decide

theorem rowPositions_covers (y : Nat) : coversRow (rowPositions y) y := by
  intro p
  simp only [rowPositions, List.mem_map, List.mem_range]
  constructor
  · rintro ⟨x, hx, rfl⟩
    exact ⟨hx, rfl⟩
  · rintro ⟨hx, rfl⟩
    exact ⟨p.x, hx, rfl⟩

theorem colPositions_covers (x : Nat) : coversColumn (colPositions x) x := by
  intro p
  simp only [colPositions, List.mem_map, List.mem_range]
  constructor
  · rintro ⟨y, hy, rfl⟩
    exact ⟨rfl, hy⟩
  · rintro ⟨rfl, hy⟩
    exact ⟨p.y, hy, rfl⟩

theorem boxPositions_covers (i j : Nat) : coversBox (boxPositions i j) i j := by
  intro p
  simp only [boxPositions, List.mem_flatMap, List.mem_map, List.mem_range]
  constructor
  · rintro ⟨dy, hdy, dx, hdx, rfl⟩
    simp only
    omega
  · rintro ⟨h1, h2, h3, h4⟩
    refine ⟨p.y - 3 * j, by omega, p.x - 3 * i, by omega, ?_⟩
    cases p
    simp only [Pos.mk.injEq] at *
    omega

theorem unitPositions_row_index :
    ∀ y, y < 9 → unitPositions[y]? = some (rowPositions y) := by decide

theorem unitPositions_col_index :
    ∀ x, x < 9 → unitPositions[9 + x]? = some (colPositions x) := by decide

theorem unitPositions_box_index :
    ∀ i, i < 3 → ∀ j, j < 3 → unitPositions[18 + 3 * i + j]? = some (boxPositions i j) := by
  decide

theorem unitPositions_row_anchor :
    ∀ k, k < 27 → ∀ y, y < 9 →
      (⟨0, y⟩ : Pos) ∈ unitPositions[k]?.getD [] → (⟨8, y⟩ : Pos) ∈ unitPositions[k]?.getD [] →
      k = y := by
  decide

theorem unitPositions_col_anchor :
    ∀ k, k < 27 → ∀ x, x < 9 →
      (⟨x, 0⟩ : Pos) ∈ unitPositions[k]?.getD [] → (⟨x, 8⟩ : Pos) ∈ unitPositions[k]?.getD [] →
      k = 9 + x := by
  decide

theorem unitPositions_box_anchor :
    ∀ k, k < 27 → ∀ i, i < 3 → ∀ j, j < 3 →
      ((⟨3 * i, 3 * j⟩ : Pos) ∈ unitPositions[k]?.getD [] ∧
        (⟨3 * i + 2, 3 * j + 2⟩ : Pos) ∈ unitPositions[k]?.getD []) →
      k = 18 + 3 * i + j := by
  decide

theorem unitPositions_index_lt (k : Nat) (u : List Pos) (h : unitPositions[k]? = some u) :
    k < 27 := by
  have := (List.getElem?_eq_some.1 h).1
  rw [unitPositions_length] at this
  exact this

theorem bounds_not_distinct (board : List (Pos × Cell)) :
    (board.flatMap (fun e => e.2.applyConstraints [])).filter Assertion.isDistinct = [] := by
  rw [List.filter_eq_nil_iff]
  intro a ha
  obtain ⟨e, _, hae⟩ := List.mem_flatMap.1 ha
  simp only [Cell.applyConstraints, List.nil_append, List.cons_append, List.mem_cons,
    List.mem_singleton, List.not_mem_nil, or_false] at hae
  rcases hae with h | h <;> subst h <;> simp [Assertion.isDistinct]

theorem units_all_distinct (f : List Pos → List Term) (l : List (List Pos)) :
    (l.map (fun g => mkDistinct (f g))).filter Assertion.isDistinct =
      l.map (fun g => mkDistinct (f g)) := by
  rw [List.filter_eq_self]
  intro a ha
  obtain ⟨g, _, rfl⟩ := List.mem_map.1 ha
  rfl

/-- The `Distinct` assertions among the emitted constraints are those of the
27 units, in order. -/
theorem distinct_part (m : Model) (cs : List Assertion)
    (hform : cs = m.board.flatMap (fun e => e.2.applyConstraints []) ++
      unitPositions.map (fun g => mkDistinct (g.map m.termAt))) :
    cs.filter Assertion.isDistinct =
      unitPositions.map (fun g => mkDistinct (g.map m.termAt)) := by
  rw [hform, List.filter_append, bounds_not_distinct, List.nil_append,
    units_all_distinct (fun g => g.map m.termAt)]

/-- C4: for a valid board the model is built and `Model.applyConstraints`
emits exactly 27 `Distinct` assertions; their argument lists are the value
terms of the 27 position lists `unitPositions`; each list has 9 positions, none
twice; each row `y` is covered by exactly one of them (all of `(0..8, y)`), each
column `x` by exactly one, and each 3x3 box with corner `(3i, 3j)` by exactly
one. -/
theorem C4_distinct_assertions (ctx : Context) (input : List Nat)
    (hvalid : validBoard input) :
    ∃ m cs, NewModel ctx input = some m ∧ m.applyConstraints [] = some cs ∧
      (cs.filter Assertion.isDistinct).length = 27 ∧
      (cs.filter Assertion.isDistinct).map Assertion.terms =
        unitPositions.map (fun u => u.map m.termAt) ∧
      (∀ u ∈ unitPositions, u.Nodup ∧ u.length = 9) ∧
      (∀ y, y < 9 → ∃! k : Nat, ∃ u, unitPositions[k]? = some u ∧ coversRow u y) ∧
      (∀ x, x < 9 → ∃! k : Nat, ∃ u, unitPositions[k]? = some u ∧ coversColumn u x) ∧
      (∀ i, i < 3 → ∀ j, j < 3 →
        ∃! k : Nat, ∃ u, unitPositions[k]? = some u ∧ coversBox u i j) := by
  obtain ⟨m, cs, hm, hcs, _, _, hform⟩ := pipeline_spec ctx input (by rw [hvalid.1])
  have hd := distinct_part m cs hform
  refine ⟨m, cs, hm, hcs, ?_, ?_, ?_, ?_, ?_, ?_⟩
  · rw [hd, List.length_map, unitPositions_length]
  · rw [hd, List.map_map]
    apply List.map_congr_left
    intro u hu
    apply mkDistinct_terms
    intro hnil
    have hlen := (unitPositions_shape u hu).2.1
    have := congrArg List.length hnil
    rw [List.length_map, hlen] at this
    exact absurd this (by decide)
  · intro u hu
    exact ⟨(unitPositions_shape u hu).1, (unitPositions_shape u hu).2.1⟩
  · intro y hy
    refine ⟨y, ⟨_, unitPositions_row_index y hy, rowPositions_covers y⟩, ?_⟩
    rintro k ⟨u, hk, hcov⟩
    apply unitPositions_row_anchor k (unitPositions_index_lt k u hk) y hy
    · rw [hk]
      exact (hcov ⟨0, y⟩).2 ⟨by show 0 < 9; omega, rfl⟩
    · rw [hk]
      exact (hcov ⟨8, y⟩).2 ⟨by show 8 < 9; omega, rfl⟩
  · intro x hx
    refine ⟨9 + x, ⟨_, unitPositions_col_index x hx, colPositions_covers x⟩, ?_⟩
    rintro k ⟨u, hk, hcov⟩
    apply unitPositions_col_anchor k (unitPositions_index_lt k u hk) x hx
    · rw [hk]
      exact (hcov ⟨x, 0⟩).2 ⟨rfl, by show 0 < 9; omega⟩
    · rw [hk]
      exact (hcov ⟨x, 8⟩).2 ⟨rfl, by show 8 < 9; omega⟩
  · intro i hi j hj
    refine ⟨18 + 3 * i + j, ⟨_, unitPositions_box_index i hi j hj, boxPositions_covers i j⟩, ?_⟩
    rintro k ⟨u, hk, hcov⟩
    apply unitPositions_box_anchor k (unitPositions_index_lt k u hk) i hi j hj
    rw [hk]
    constructor
    · exact (hcov ⟨3 * i, 3 * j⟩).2 (by simp only; omega)
    · exact (hcov ⟨3 * i + 2, 3 * j + 2⟩).2 (by simp only; omega)

theorem C4_distinct_assertions_witness :
    validBoard oneBlankBoard ∧
    ∃ m cs, NewModel 0 oneBlankBoard = some m ∧ m.applyConstraints [] = some cs ∧
      (cs.filter Assertion.isDistinct).length = 27 ∧
      (cs.filter Assertion.isDistinct).map Assertion.terms =
        unitPositions.map (fun u => u.map m.termAt) ∧
      (∀ u ∈ unitPositions, u.Nodup ∧ u.length = 9) ∧
      (∀ y, y < 9 → ∃! k : Nat, ∃ u, unitPositions[k]? = some u ∧ coversRow u y) ∧
      (∀ x, x < 9 → ∃! k : Nat, ∃ u, unitPositions[k]? = some u ∧ coversColumn u x) ∧
      (∀ i, i < 3 → ∀ j, j < 3 →
        ∃! k : Nat, ∃ u, unitPositions[k]? = some u ∧ coversBox u i j) :=
  ⟨by decide, C4_distinct_assertions 0 oneBlankBoard (by decide)⟩

/-! ## Pigeonhole for nine values in 1..9 -/

theorem nodup_iff_each_digit_once (l : List Int) (hlen : l.length = 9)
    (hr : ∀ v ∈ l, 1 ≤ v ∧ v ≤ 9) :
    l.Nodup ↔ ∀ d : Int, 1 ≤ d → d ≤ 9 → l.count d = 1 := by
  constructor
  · intro hnd d h1 h2
    have hsub : l.toFinset ⊆ Finset.Icc (1 : Int) 9 := by
      intro v hv
      rw [List.mem_toFinset] at hv
      rw [Finset.mem_Icc]
      exact hr v hv
    have hcard : (Finset.Icc (1 : Int) 9).card ≤ l.toFinset.card := by
      rw [List.toFinset_card_of_nodup hnd, hlen]
      simp
    have heq := Finset.eq_of_subset_of_card_le hsub hcard
    have hd : d ∈ l.toFinset := by
      rw [heq, Finset.mem_Icc]
      exact ⟨h1, h2⟩
    exact List.count_eq_one_of_mem hnd (List.mem_toFinset.1 hd)
  · intro h
    rw [List.nodup_iff_count_le_one]
    intro a
    by_cases ha : a ∈ l
    · rw [h a (hr a ha).1 (hr a ha).2]
    · rw [List.count_eq_zero_of_not_mem ha]
      exact Nat.zero_le _

/-- On a valid board, under an assignment that gives the free cells values in
`[1,9]`, the value of the term stored at a grid position is the entry of the
completed grid, and it lies in `[1,9]`. -/
theorem grid_value (input : List Nat) (hvalid : validBoard input) (m : Model)
    (hkeys : m.board.map Prod.fst = allPositions)
    (hcells : ∀ e ∈ m.board, cellEncodes input e.1 e.2) (σ : Assignment)
    (hσ : ∀ p c, mapGet m.board p = some c → c.fromInput = false →
      1 ≤ c.value.eval σ ∧ c.value.eval σ ≤ 9)
    (p : Pos) (hx : p.x < 9) (hy : p.y < 9) :
    (m.termAt p).eval σ = completedGrid input m σ p ∧
      1 ≤ completedGrid input m σ p ∧ completedGrid input m σ p ≤ 9 := by
  obtain ⟨x, y⟩ := p
  simp only at hx hy
  obtain ⟨c, hc, _, ht, ch, hch, henc⟩ := cell_of_input input m hkeys hcells x y hx hy
  simp only at hch
  have hcomp : completedGrid input m σ ⟨x, y⟩ =
      if ch = 46 then (m.termAt ⟨x, y⟩).eval σ else Int.ofNat ch - 48 := by
    unfold completedGrid
    simp only [hch]
  rcases henc with ⟨h46, idx, hcell⟩ | ⟨hne, hcell⟩
  · rw [hcomp, if_pos h46]
    refine ⟨rfl, ?_⟩
    rw [ht]
    exact hσ ⟨x, y⟩ c hc (by rw [hcell])
  · rw [hcomp, if_neg hne, ht, hcell]
    have hmem := hvalid.2 ch (List.getElem?_mem hch)
    rcases hmem with h | h
    · exact absurd h hne
    · unfold isDigitByte at h
      simp only [Term.eval, byteSubZero, Int.ofNat_eq_coe]
      omega

/-- C7: for a valid board the model is built and the constraints are emitted,
and for every assignment that gives each free cell a value in `[1,9]`, the
assignment satisfies the `Distinct` assertions among them (the 27 of C4) if and
only if the completed grid (givens kept, blanks replaced by their assigned
values) has each digit 1..9 exactly once in every row, every column and every
3x3 box. -/
theorem C7_distinct_iff_legal_solution (ctx : Context) (input : List Nat)
    (hvalid : validBoard input) :
    ∃ m cs, NewModel ctx input = some m ∧ m.applyConstraints [] = some cs ∧
      ∀ σ : Assignment,
        (∀ p c, mapGet m.board p = some c → c.fromInput = false →
          1 ≤ c.value.eval σ ∧ c.value.eval σ ≤ 9) →
        ((∀ a ∈ cs, a.isDistinct = true → a.holds σ) ↔
          legalSolution (completedGrid input m σ)) := by
  obtain ⟨m, cs, hm, hcs, hkeys, hcells, hform⟩ := pipeline_spec ctx input (by rw [hvalid.1])
  refine ⟨m, cs, hm, hcs, ?_⟩
  intro σ hσ
  have hval : ∀ u ∈ unitPositions,
      (u.map m.termAt).map (Term.eval σ) = u.map (completedGrid input m σ) ∧
      (∀ v ∈ u.map (completedGrid input m σ), 1 ≤ v ∧ v ≤ 9) ∧
      (u.map (completedGrid input m σ)).length = 9 ∧ u.map m.termAt ≠ [] := by
    intro u hu
    obtain ⟨_, hlen, hpos⟩ := unitPositions_shape u hu
    refine ⟨?_, ?_, ?_, ?_⟩
    · rw [List.map_map]
      apply List.map_congr_left
      intro p hp
      exact (grid_value input hvalid m hkeys hcells σ hσ p (hpos p hp).1 (hpos p hp).2).1
    · intro v hv
      obtain ⟨p, hp, rfl⟩ := List.mem_map.1 hv
      exact (grid_value input hvalid m hkeys hcells σ hσ p (hpos p hp).1 (hpos p hp).2).2
    · rw [List.length_map, hlen]
    · intro hnil
      have := congrArg List.length hnil
      rw [List.length_map, hlen] at this
      exact absurd this (by decide)
  constructor
  · intro h u hu d h1 h2
    obtain ⟨e1, e2, e3, e4⟩ := hval u hu
    have hmem : mkDistinct (u.map m.termAt) ∈ cs := by
      rw [hform]
      apply List.mem_append_right
      exact List.mem_map_of_mem (fun g => mkDistinct (g.map m.termAt)) hu
    have hnd := (mkDistinct_holds σ _ e4).1 (h _ hmem rfl)
    rw [e1] at hnd
    exact (nodup_iff_each_digit_once _ e3 e2).1 hnd d h1 h2
  · intro h a ha hdist
    have hfil : a ∈ cs.filter Assertion.isDistinct := List.mem_filter.2 ⟨ha, hdist⟩
    rw [distinct_part m cs hform] at hfil
    obtain ⟨u, hu, rfl⟩ := List.mem_map.1 hfil
    obtain ⟨e1, e2, e3, e4⟩ := hval u hu
    rw [mkDistinct_holds σ _ e4, e1]
    exact (nodup_iff_each_digit_once _ e3 e2).2 (h u hu)

theorem C7_distinct_iff_legal_solution_witness :
    validBoard oneBlankBoard ∧
    ∃ m cs, NewModel 0 oneBlankBoard = some m ∧ m.applyConstraints [] = some cs ∧
      ∀ σ : Assignment,
        (∀ p c, mapGet m.board p = some c → c.fromInput = false →
          1 ≤ c.value.eval σ ∧ c.value.eval σ ≤ 9) →
        ((∀ a ∈ cs, a.isDistinct = true → a.holds σ) ↔
          legalSolution (completedGrid oneBlankBoard m σ)) :=
  ⟨by decide, C7_distinct_iff_legal_solution 0 oneBlankBoard (by decide)⟩

/-! ## Further lemmas on the generator -/

theorem cellValue_digit (d : Draw) : isDigitByte (cellValue d) := by
  have := d.digit.isLt
  unfold isDigitByte cellValue
  omega

theorem sameUnit_symm (x1 y1 x2 y2 : Nat) (h : sameUnit x1 y1 x2 y2) :
    sameUnit x2 y2 x1 y1 := by
  unfold sameUnit at h ⊢
  omega

theorem genLoop_no_panic (N : Int) :
    ∀ (draws : List Draw) (i : Int) (board : List Nat), board.length = 81 →
      genLoop N draws i board ≠ Outcome.indexPanic := by
  intro draws
  induction draws with
  | nil =>
    intro i board _
    simp only [genLoop]
    split <;> simp
  | cons d rest ih =>
    intro i board hlen
    simp only [genLoop]
    split
    · obtain ⟨r, hr⟩ := (validPlacement_spec board d.x.val d.y.val (cellValue d) hlen
        d.x.isLt d.y.isLt).1
      rw [hr]
      cases r
      · exact ih i board hlen
      · have hlt : d.y.val * BoardSize + d.x.val < board.length := by
          have := d.x.isLt
          have := d.y.isLt
          simp only [BoardSize]
          omega
        simp only [hlt, if_true]
        exact ih _ _ (by rw [List.length_set]; exact hlen)
    · simp

/-- C11: whatever the seed count `N` (negative included) and the draws, a
board returned by `GenerateBoard` is a valid input of Board Encoding: it has
exactly 81 bytes and each byte is `'.'` or a digit `'1'..'9'`. -/
theorem C11_GenerateBoard_validBoard (N : Int) (draws : List Draw) (b : List Nat)
    (h : GenerateBoard N draws = Outcome.returned b) :
    b.length = 81 ∧ (∀ c ∈ b, c = 46 ∨ (49 ≤ c ∧ c ≤ 57)) ∧ validBoard b := by
  have hinv := genLoop_invariant N (fun board => ∀ c ∈ board, c = 46 ∨ isDigitByte c) (by
    intro board d _ hP _ c hc
    rcases List.mem_or_eq_of_mem_set hc with hmem | heq
    · exact hP c hmem
    · rw [heq]
      exact Or.inr (cellValue_digit d)) draws 0 (List.replicate 81 46) b (by simp)
    (by
      intro c hc
      exact Or.inl (List.eq_of_mem_replicate hc)) h
  exact ⟨hinv.1, hinv.2, hinv.1, hinv.2⟩

theorem C11_GenerateBoard_validBoard_witness :
    GenerateBoard 2 [⟨8, 3, 2⟩, ⟨8, 4, 1⟩, ⟨0, 4, 1⟩, ⟨5, 3, 2⟩, ⟨1, 8, 8⟩] =
      Outcome.returned ((((List.replicate 81 46).set 21 54).set 13 49)) ∧
    (((((List.replicate 81 46).set 21 54).set 13 49)).length = 81 ∧
      (∀ c ∈ (((List.replicate 81 46).set 21 54).set 13 49), c = 46 ∨ (49 ≤ c ∧ c ≤ 57)) ∧
      validBoard ((((List.replicate 81 46).set 21 54).set 13 49))) :=
  ⟨by decide,
    C11_GenerateBoard_validBoard 2 [⟨8, 3, 2⟩, ⟨8, 4, 1⟩, ⟨0, 4, 1⟩, ⟨5, 3, 2⟩, ⟨1, 8, 8⟩] _
      (by decide)⟩

/-- C18: on every locally valid 81-byte board over `'.'`, `'1'..'9'`, some
draw is accepted by `validPlacement`: on the all-blank board every draw is,
and a digit that is on the board is accepted again on its own cell. -/
theorem C18_some_draw_accepted (board : List Nat) (hvalid : validBoard board)
    (hloc : locallyValid board) :
    (board = List.replicate 81 46 →
      ∀ d : Draw, validPlacement board d.x.val d.y.val (cellValue d) = some true) ∧
    (∀ x, x < 9 → ∀ y, y < 9 → ∀ c, isDigitByte c → board[y * 9 + x]? = some c →
      validPlacement board x y c = some true) ∧
    (∃ d : Draw, validPlacement board d.x.val d.y.val (cellValue d) = some true) := by
  have hblank : board = List.replicate 81 46 →
      ∀ d : Draw, validPlacement board d.x.val d.y.val (cellValue d) = some true := by
    intro hb d
    rw [(validPlacement_spec board d.x.val d.y.val (cellValue d) hvalid.1 d.x.isLt d.y.isLt).2]
    intro x' hx' y' hy' _ _ hget
    have hdig := cellValue_digit d
    rw [hb, List.getElem?_replicate] at hget
    have hlt : y' * 9 + x' < 81 := by omega
    simp only [hlt, if_true, Option.some.injEq] at hget
    unfold isDigitByte at hdig
    omega
  have hown : ∀ x, x < 9 → ∀ y, y < 9 → ∀ c, isDigitByte c → board[y * 9 + x]? = some c →
      validPlacement board x y c = some true := by
    intro x hx y hy c hc hget
    rw [(validPlacement_spec board x y c hvalid.1 hx hy).2]
    intro x' hx' y' hy' hne hsame
    exact hloc x hx y hy x' hx' y' hy' (fun heq => hne heq.symm)
      (sameUnit_symm _ _ _ _ hsame) c hc hget
  refine ⟨hblank, hown, ?_⟩
  by_cases hex : ∃ i, i < 81 ∧ ∃ c, isDigitByte c ∧ board[i]? = some c
  · obtain ⟨i, hi, c, hc, hget⟩ := hex
    have hcr : c - 49 < 9 := by
      unfold isDigitByte at hc
      omega
    refine ⟨⟨⟨c - 49, hcr⟩, ⟨i % 9, Nat.mod_lt _ (by decide)⟩,
      ⟨i / 9, by omega⟩⟩, ?_⟩
    have hcv : cellValue ⟨⟨c - 49, hcr⟩, ⟨i % 9, Nat.mod_lt _ (by decide)⟩,
        ⟨i / 9, by omega⟩⟩ = c := by
      unfold isDigitByte at hc
      simp only [cellValue]
      omega
    rw [hcv]
    apply hown (i % 9) (Nat.mod_lt _ (by decide)) (i / 9) (by omega) c hc
    have hidx : i / 9 * 9 + i % 9 = i := by omega
    rw [hidx]
    exact hget
  · apply Exists.intro ⟨0, 0, 0⟩
    apply hblank
    apply List.ext_getElem?
    intro n
    by_cases hn : n < 81
    · rw [List.getElem?_replicate]
      simp only [hn, if_true]
      have hlt : n < board.length := by rw [hvalid.1]; exact hn
      rw [List.getElem?_eq_getElem hlt]
      have hmem := hvalid.2 _ (List.getElem_mem hlt)
      rcases hmem with h46 | hdig
      · rw [h46]
      · exfalso
        exact hex ⟨n, hn, _, hdig, List.getElem?_eq_getElem hlt⟩
    · rw [List.getElem?_replicate]
      simp only [hn, if_false]
      exact List.getElem?_eq_none (by rw [hvalid.1]; omega)

theorem C18_some_draw_accepted_witness :
    validBoard ((List.replicate 81 46).set (0 * 9 + 0) 53) ∧
    locallyValid ((List.replicate 81 46).set (0 * 9 + 0) 53) ∧
    ((((List.replicate 81 46).set (0 * 9 + 0) 53) = List.replicate 81 46 →
      ∀ d : Draw, validPlacement ((List.replicate 81 46).set (0 * 9 + 0) 53)
        d.x.val d.y.val (cellValue d) = some true) ∧
    (∀ x, x < 9 → ∀ y, y < 9 → ∀ c, isDigitByte c →
      ((List.replicate 81 46).set (0 * 9 + 0) 53)[y * 9 + x]? = some c →
      validPlacement ((List.replicate 81 46).set (0 * 9 + 0) 53) x y c = some true) ∧
    (∃ d : Draw, validPlacement ((List.replicate 81 46).set (0 * 9 + 0) 53)
      d.x.val d.y.val (cellValue d) = some true)) :=
  ⟨by decide,
    locallyValid_set (List.replicate 81 46) 0 0 53 (by decide) (by decide) (by decide)
      locallyValid_replicate (by decide),
    C18_some_draw_accepted ((List.replicate 81 46).set (0 * 9 + 0) 53) (by decide)
      (locallyValid_set (List.replicate 81 46) 0 0 53 (by decide) (by decide) (by decide)
        locallyValid_replicate (by decide))⟩

/-- C19: on a board of exactly 81 bytes and for `x`, `y` in `[0,8]`, every
index of the row, column and 3x3 scans of `validPlacement` lies in `[0,80]`,
so `validPlacement` returns without an out-of-range read; the index
`(candidateY*9)+candidateX` written by `GenerateBoard` lies in `[0,80]` as
well, and no run of `GenerateBoard` ends in an index panic. -/
theorem C19_indices_in_range (board : List Nat) (x y : Nat)
    (hlen : board.length = 81) (hx : x < 9) (hy : y < 9) :
    (∀ i ∈ rowIndices x y ++ colIndices x y ++ cubeIndices x y, i ≤ 80) ∧
    (∀ val, ∃ r, validPlacement board x y val = some r) ∧
    (∀ d : Draw, (d.y.val * BoardSize) + d.x.val ≤ 80) ∧
    (∀ N draws, GenerateBoard N draws ≠ Outcome.indexPanic) := by
  refine ⟨?_, ?_, ?_, ?_⟩
  · intro i hi
    rw [List.mem_append, List.mem_append] at hi
    rcases hi with (hi | hi) | hi
    · obtain ⟨cx, h1, _, rfl⟩ := (rowIndices_mem x y i).1 hi
      omega
    · obtain ⟨cy, h1, _, rfl⟩ := (colIndices_mem x y i).1 hi
      omega
    · obtain ⟨cy, cx, h1, h2, h3, h4, _, _, rfl⟩ := (cubeIndices_mem x y i).1 hi
      omega
  · intro val
    exact (validPlacement_spec board x y val hlen hx hy).1
  · intro d
    have := d.x.isLt
    have := d.y.isLt
    simp only [BoardSize]
    omega
  · intro N draws
    exact genLoop_no_panic N draws 0 (List.replicate 81 46) (by simp)

theorem C19_indices_in_range_witness :
    twoFivesBoard.length = 81 ∧ 8 < 9 ∧ 8 < 9 ∧
    ((∀ i ∈ rowIndices 8 8 ++ colIndices 8 8 ++ cubeIndices 8 8, i ≤ 80) ∧
    (∀ val, ∃ r, validPlacement twoFivesBoard 8 8 val = some r) ∧
    (∀ d : Draw, (d.y.val * BoardSize) + d.x.val ≤ 80) ∧
    (∀ N draws, GenerateBoard N draws ≠ Outcome.indexPanic)) :=
  ⟨by decide, by decide, by decide,
    C19_indices_in_range twoFivesBoard 8 8 (by decide) (by decide) (by decide)⟩

/-! ## Counting the committed placements -/

theorem wrapInt64_range (z : Int) : -2 ^ 63 ≤ wrapInt64 z ∧ wrapInt64 z < 2 ^ 63 := by
  unfold wrapInt64
  omega

theorem wrapInt64_id (z : Int) (h1 : -2 ^ 63 ≤ z) (h2 : z < 2 ^ 63) : wrapInt64 z = z := by
  unfold wrapInt64
  omega

theorem countDigits_pos_of_get (l : List Nat) (i v : Nat) (h : l[i]? = some v)
    (hv : v ≠ 46) : 1 ≤ countDigits l := by
  unfold countDigits
  apply List.length_pos_of_mem (a := v)
  rw [List.mem_filter]
  exact ⟨List.getElem?_mem h, by simp [hv]⟩

theorem countDigits_set (l : List Nat) (v : Nat) (hv : v ≠ 46) :
    ∀ i, i < l.length →
      countDigits (l.set i v) = countDigits l + (if l[i]? = some 46 then 1 else 0) := by
  induction l with
  | nil =>
    intro i hi
    simp at hi
  | cons a rest ih =>
    intro i hi
    cases i with
    | zero =>
      simp only [List.set_cons_zero, countDigits, List.filter_cons, List.getElem?_cons_zero,
        Option.some.injEq]
      by_cases ha : a = 46
      · simp [ha, hv]
      · simp [ha, hv]
    | succ j =>
      have hj : j < rest.length := by
        simp only [List.length_cons] at hi
        omega
      have := ih j hj
      simp only [countDigits, ne_eq] at this
      simp only [List.set_cons_succ, countDigits, List.filter_cons, List.getElem?_cons_succ,
        ne_eq]
      by_cases ha : a = 46
      · simp only [ha, ne_eq, not_true_eq_false, decide_False, Bool.false_eq_true, if_false]
        exact this
      · simp only [ha, ne_eq, not_false_eq_true, decide_True, if_true, List.length_cons]
        omega

theorem cellValue_ne_blank (d : Draw) : cellValue d ≠ 46 := by
  have := cellValue_digit d
  unfold isDigitByte at this
  omega

theorem countDigits_place (c : List Nat × Draw) (hlen : c.1.length = 81) :
    countDigits (place c) =
      countDigits c.1 + (if c.1[c.2.y.val * 9 + c.2.x.val]? = some 46 then 1 else 0) := by
  have h1 := c.2.x.isLt
  have h2 := c.2.y.isLt
  exact countDigits_set c.1 (cellValue c.2) (cellValue_ne_blank c.2) _
    (by simp only [BoardSize]; omega)

theorem place_length (c : List Nat × Draw) : (place c).length = c.1.length := by
  unfold place
  rw [List.length_set]

/-- The recorded placements of a run that returns: they start on the initial
board, lead to the returned board, and each was accepted by `validPlacement`
on an 81-byte board. -/
theorem genLoop_commits (N : Int) :
    ∀ (draws : List Draw) (i : Int) (board b : List Nat), board.length = 81 →
      genLoop N draws i board = Outcome.returned b →
      commitsFrom board (genCommits N draws i board) ∧
      finalBoard board (genCommits N draws i board) = b ∧
      ∀ c ∈ genCommits N draws i board, c.1.length = 81 ∧
        validPlacement c.1 c.2.x.val c.2.y.val (cellValue c.2) = some true := by
  intro draws
  induction draws with
  | nil =>
    intro i board b _ h
    simp only [genLoop] at h
    split at h
    · exact absurd h (by simp)
    · injection h with h
      subst h
      simp [genCommits, commitsFrom, finalBoard]
  | cons d rest ih =>
    intro i board b hlen h
    simp only [genLoop] at h
    simp only [genCommits]
    split at h
    · rename_i hi
      simp only [hi, if_true]
      split at h
      · exact absurd h (by simp)
      · rename_i hv
        split at h
        · rename_i hidx
          simp only [hidx, if_true]
          obtain ⟨h1, h2, h3⟩ := ih _ _ b (by rw [List.length_set]; exact hlen) h
          refine ⟨⟨rfl, h1⟩, h2, ?_⟩
          intro c hc
          rcases List.mem_cons.1 hc with heq | hmem
          · subst heq
            exact ⟨hlen, hv⟩
          · exact h3 c hmem
        · exact absurd h (by simp)
      · rename_i hv
        exact ih _ _ b hlen h
    · rename_i hi
      injection h with h
      subst h
      simp [hi, commitsFrom, finalBoard]

theorem genLoop_commit_count (N : Int) (hN : N < 2 ^ 63 - 1) :
    ∀ (draws : List Draw) (i : Int) (board b : List Nat), -2 ^ 63 ≤ i → i ≤ N + 1 →
      genLoop N draws i board = Outcome.returned b →
      ((genCommits N draws i board).length : Int) = N + 1 - i := by
  intro draws
  induction draws with
  | nil =>
    intro i board b _ hi2 h
    simp only [genLoop] at h
    split at h
    · exact absurd h (by simp)
    · simp only [genCommits, List.length_nil]
      omega
  | cons d rest ih =>
    intro i board b hi1 hi2 h
    simp only [genLoop] at h
    simp only [genCommits]
    split at h
    · rename_i hi
      simp only [hi, if_true]
      split at h
      · exact absurd h (by simp)
      · rename_i hv
        split at h
        · rename_i hidx
          simp only [hidx, if_true, List.length_cons]
          have hw : wrapInt64 (i + 1) = i + 1 := wrapInt64_id _ (by omega) (by omega)
          rw [hw] at h ⊢
          have := ih (i + 1) _ b (by omega) (by omega) h
          push_cast
          omega
        · exact absurd h (by simp)
      · rename_i hv
        exact ih i board b hi1 hi2 h
    · rename_i hi
      simp only [hi, if_false, List.length_nil]
      omega

theorem genLoop_never_returns (N : Int) (hN : 2 ^ 63 - 1 ≤ N) :
    ∀ (draws : List Draw) (i : Int) (board b : List Nat), -2 ^ 63 ≤ i → i < 2 ^ 63 →
      genLoop N draws i board ≠ Outcome.returned b := by
  intro draws
  induction draws with
  | nil =>
    intro i board b _ hi2
    have hi : i ≤ N := by omega
    simp [genLoop, hi]
  | cons d rest ih =>
    intro i board b hi1 hi2
    have hi : i ≤ N := by omega
    simp only [genLoop, hi, if_true]
    split
    · simp
    · split
      · exact ih _ _ b (wrapInt64_range _).1 (wrapInt64_range _).2
      · simp
    · exact ih i board b hi1 hi2

theorem finalBoard_count :
    ∀ (cs : List (List Nat × Draw)) (board : List Nat), commitsFrom board cs →
      (∀ c ∈ cs, c.1.length = 81) →
      countDigits (finalBoard board cs) ≤ countDigits board + cs.length ∧
      (cs ≠ [] → 1 ≤ countDigits (finalBoard board cs)) ∧
      countDigits board ≤ countDigits (finalBoard board cs) := by
  intro cs
  induction cs with
  | nil =>
    intro board _ _
    simp [finalBoard]
  | cons c rest ih =>
    intro board hch hlen
    obtain ⟨hc1, hch2⟩ := hch
    have hl : c.1.length = 81 := hlen c (List.mem_cons_self _ _)
    obtain ⟨h1, _, h3⟩ := ih (place c) hch2 (fun c' hc' => hlen c' (List.mem_cons_of_mem _ hc'))
    have hp := countDigits_place c hl
    have hpos : 1 ≤ countDigits (place c) := by
      have hx := c.2.x.isLt
      have hy := c.2.y.isLt
      apply countDigits_pos_of_get (place c) (c.2.y.val * 9 + c.2.x.val) (cellValue c.2) _
        (cellValue_ne_blank c.2)
      unfold place
      simp only [BoardSize]
      rw [List.getElem?_set]
      have hin : c.2.y.val * 9 + c.2.x.val < c.1.length := by omega
      simp [hin]
    simp only [finalBoard, List.length_cons]
    rw [← hc1]
    refine ⟨?_, fun _ => ?_, ?_⟩
    · split at hp <;> omega
    · omega
    · split at hp <;> omega

/-- C17: for a run of `GenerateBoard` that returns `b`: with `N < 0` the board
is all blank; with `N >= 0` exactly `N + 1` placements are committed and `b`
holds at least 1 and at most `N + 1` digits. The committed placements run from
the blank board to `b`, each was accepted by `validPlacement`, none lowers the
number of digits, and a placement leaves it unchanged exactly when its cell
was already occupied, which `validPlacement` accepts on some boards. -/
theorem C17_commits_and_digit_count (N : Int) (draws : List Draw) (b : List Nat)
    (h : GenerateBoard N draws = Outcome.returned b) :
    (N < 0 → b = List.replicate 81 46) ∧
    (0 ≤ N →
      ((genCommits N draws 0 (List.replicate 81 46)).length : Int) = N + 1 ∧
      1 ≤ countDigits b ∧ (countDigits b : Int) ≤ N + 1) ∧
    commitsFrom (List.replicate 81 46) (genCommits N draws 0 (List.replicate 81 46)) ∧
    finalBoard (List.replicate 81 46) (genCommits N draws 0 (List.replicate 81 46)) = b ∧
    (∀ c ∈ genCommits N draws 0 (List.replicate 81 46),
      validPlacement c.1 c.2.x.val c.2.y.val (cellValue c.2) = some true ∧
      countDigits c.1 ≤ countDigits (place c) ∧
      (countDigits (place c) = countDigits c.1 ↔
        ∃ v, c.1[c.2.y.val * 9 + c.2.x.val]? = some v ∧ v ≠ 46)) ∧
    (∃ (board : List Nat) (d : Draw), board.length = 81 ∧
      (∃ v, board[d.y.val * 9 + d.x.val]? = some v ∧ v ≠ 46) ∧
      validPlacement board d.x.val d.y.val (cellValue d) = some true) := by
  have hblank : (List.replicate 81 46).length = 81 := by simp
  have hcount0 : countDigits (List.replicate 81 46) = 0 := by decide
  obtain ⟨hch, hfin, hall⟩ := genLoop_commits N draws 0 (List.replicate 81 46) b hblank h
  refine ⟨?_, ?_, hch, hfin, ?_, ?_⟩
  · intro hneg
    have hi : ¬ (0 : Int) ≤ N := by omega
    unfold GenerateBoard at h
    cases draws with
    | nil =>
      simp only [genLoop, hi, if_false] at h
      injection h with h
      exact h.symm
    | cons d rest =>
      simp only [genLoop, hi, if_false] at h
      injection h with h
      exact h.symm
  · intro hN
    have hlt : N < 2 ^ 63 - 1 := by
      by_contra hge
      exact genLoop_never_returns N (by omega) draws 0 (List.replicate 81 46) b
        (by omega) (by omega) h
    have hlen := genLoop_commit_count N hlt draws 0 (List.replicate 81 46) b
      (by omega) (by omega) h
    obtain ⟨h1, h2, _⟩ := finalBoard_count _ _ hch (fun c hc => (hall c hc).1)
    rw [hfin, hcount0] at h1
    rw [hfin] at h2
    refine ⟨by omega, ?_, by omega⟩
    apply h2
    intro hnil
    rw [hnil] at hlen
    simp only [List.length_nil] at hlen
    omega
  · intro c hc
    obtain ⟨hl, hv⟩ := hall c hc
    have hp := countDigits_place c hl
    have hx := c.2.x.isLt
    have hy := c.2.y.isLt
    have hin : c.2.y.val * 9 + c.2.x.val < c.1.length := by omega
    refine ⟨hv, by omega, ?_⟩
    rw [hp, List.getElem?_eq_getElem hin]
    by_cases h46 : c.1[c.2.y.val * 9 + c.2.x.val] = 46
    · simp [h46]
    · simp [h46]
  · exact ⟨(List.replicate 81 46).set 0 53, ⟨6, 0, 0⟩, by decide, ⟨53, by decide, by decide⟩,
      by decide⟩

theorem C17_commits_and_digit_count_witness :
    GenerateBoard 2 [⟨4, 0, 0⟩, ⟨4, 1, 1⟩, ⟨2, 1, 1⟩, ⟨6, 0, 0⟩] =
      Outcome.returned (((List.replicate 81 46).set 0 55).set 10 51) ∧
    ((genCommits 2 [⟨4, 0, 0⟩, ⟨4, 1, 1⟩, ⟨2, 1, 1⟩, ⟨6, 0, 0⟩] 0
      (List.replicate 81 46)).length : Int) = 2 + 1 ∧
    countDigits (((List.replicate 81 46).set 0 55).set 10 51) = 2 :=
  ⟨by decide,
    ((C17_commits_and_digit_count 2 [⟨4, 0, 0⟩, ⟨4, 1, 1⟩, ⟨2, 1, 1⟩, ⟨6, 0, 0⟩]
      (((List.replicate 81 46).set 0 55).set 10 51) (by decide)).2.1 (by decide)).1,
    by decide⟩

/-! ## Size and satisfiability of the whole constraint set -/

theorem bounds_length (board : List (Pos × Cell)) :
    (board.flatMap (fun e => e.2.applyConstraints [])).length = 2 * board.length := by
  induction board with
  | nil => rfl
  | cons e rest ih =>
    rw [List.flatMap_cons, List.length_append, ih]
    simp only [Cell.applyConstraints, List.nil_append, List.length_cons, List.length_nil,
      List.cons_append, List.length_singleton]
    omega

/-- Size of the emitted constraint set: two bounds for each of the 81 cells and
27 `Distinct`, 189 assertions in all. -/
theorem constraints_count (m : Model) (cs : List Assertion)
    (hkeys : m.board.map Prod.fst = allPositions)
    (hform : cs = m.board.flatMap (fun e => e.2.applyConstraints []) ++
      unitPositions.map (fun g => mkDistinct (g.map m.termAt))) :
    m.board.length = 81 ∧ cs.length = 189 ∧
      (cs.filter Assertion.isDistinct).length = 27 ∧
      (cs.filter (fun a => !a.isDistinct)).length = 162 := by
  have hlen : m.board.length = 81 := by
    have := congrArg List.length hkeys
    rw [List.length_map, allPositions_length] at this
    exact this
  have hd := distinct_part m cs hform
  have hcs : cs.length = 189 := by
    rw [hform, List.length_append, bounds_length, hlen, List.length_map, unitPositions_length]
  have h27 : (cs.filter Assertion.isDistinct).length = 27 := by
    rw [hd, List.length_map, unitPositions_length]
  refine ⟨hlen, hcs, h27, ?_⟩
  have hsplit := List.length_eq_length_filter_add (l := cs) Assertion.isDistinct
  rw [hcs, h27] at hsplit
  omega

theorem nodup_bounded_short (l : List Int) (hnd : l.Nodup)
    (hr : ∀ v ∈ l, 1 ≤ v ∧ v < 9) : l.length ≤ 8 := by
  have hsub : l.toFinset ⊆ Finset.Icc (1 : Int) 8 := by
    intro v hv
    rw [List.mem_toFinset] at hv
    rw [Finset.mem_Icc]
    have := hr v hv
    omega
  have hcard := Finset.card_le_card hsub
  rw [List.toFinset_card_of_nodup hnd] at hcard
  simpa using hcard

/-- The bounds and the `Distinct` of row 0 cannot hold together: nine pairwise
distinct values would have to lie in `1..8`. -/
theorem constraints_unsat (input : List Nat) (m : Model) (cs : List Assertion)
    (hkeys : m.board.map Prod.fst = allPositions)
    (hcells : ∀ e ∈ m.board, cellEncodes input e.1 e.2)
    (hform : cs = m.board.flatMap (fun e => e.2.applyConstraints []) ++
      unitPositions.map (fun g => mkDistinct (g.map m.termAt))) :
    ¬ ∃ σ, ∀ a ∈ cs, a.holds σ := by
  rintro ⟨σ, hσ⟩
  have hrow : mkDistinct ((rowPositions 0).map m.termAt) ∈ cs := by
    rw [hform]
    apply List.mem_append_right
    apply List.mem_map_of_mem
    unfold unitPositions
    apply List.mem_append_left
    apply List.mem_append_left
    exact List.mem_map_of_mem _ (List.mem_range.2 (by decide))
  have hnd := (mkDistinct_holds σ _ (by simp [rowPositions])).1 (hσ _ hrow)
  have hbound : ∀ v ∈ ((rowPositions 0).map m.termAt).map (Term.eval σ), 1 ≤ v ∧ v < 9 := by
    intro v hv
    obtain ⟨t, ht, rfl⟩ := List.mem_map.1 hv
    obtain ⟨p, hp, rfl⟩ := List.mem_map.1 ht
    obtain ⟨x, hx, rfl⟩ := List.mem_map.1 hp
    obtain ⟨c, _, hmem, hterm, _⟩ :=
      cell_of_input input m hkeys hcells x 0 (List.mem_range.1 hx) (by decide)
    have hge : Assertion.ge c.value (Term.int 1) ∈ cs := by
      rw [hform]
      apply List.mem_append_left
      rw [List.mem_flatMap]
      exact ⟨_, hmem, by simp [Cell.applyConstraints]⟩
    have hlt : Assertion.lt c.value (Term.int 9) ∈ cs := by
      rw [hform]
      apply List.mem_append_left
      rw [List.mem_flatMap]
      exact ⟨_, hmem, by simp [Cell.applyConstraints]⟩
    have h1 := hσ _ hge
    have h2 := hσ _ hlt
    simp only [Assertion.holds, Term.eval] at h1 h2
    rw [hterm]
    exact ⟨h1, h2⟩
  have hshort := nodup_bounded_short _ hnd hbound
  simp [rowPositions] at hshort

/-- C13 as stated fails: on `oneBlankBoard`, a valid board, the emitted
constraint set has 189 assertions, not 108. -/
theorem C13_constraint_count_not_108 :
    validBoard oneBlankBoard ∧
    ∃ m cs, NewModel 0 oneBlankBoard = some m ∧ m.applyConstraints [] = some cs ∧
      cs.length = 189 ∧ cs.length ≠ 108 := by
  refine ⟨by decide, ?_⟩
  obtain ⟨m, cs, hm, hcs, hkeys, _, hform⟩ := pipeline_spec 0 oneBlankBoard (by decide)
  have h := (constraints_count m cs hkeys hform).2.1
  exact ⟨m, cs, hm, hcs, h, by rw [h]; decide⟩

/-- C13 amended: for a valid board the emitted constraint set has exactly 189
assertions: two bound assertions for each of the 81 cells (`value >= 1` and
`value < 9`, 162 in all) and 27 `Distinct` assertions (9 rows, 9 columns,
9 boxes), each a single assertion over 9 terms. -/
theorem C13_constraint_count (ctx : Context) (input : List Nat) (hvalid : validBoard input) :
    ∃ m cs, NewModel ctx input = some m ∧ m.applyConstraints [] = some cs ∧
      m.board.length = 81 ∧ cs.length = 189 ∧
      (cs.filter (fun a => !a.isDistinct)).length = 162 ∧
      (∀ e ∈ m.board, Assertion.ge e.2.value (Term.int 1) ∈ cs ∧
        Assertion.lt e.2.value (Term.int 9) ∈ cs) ∧
      (cs.filter Assertion.isDistinct).length = 27 ∧
      (∀ a ∈ cs.filter Assertion.isDistinct, a.terms.length = 9) := by
  obtain ⟨m, cs, hm, hcs, hkeys, _, hform⟩ := pipeline_spec ctx input (by rw [hvalid.1])
  obtain ⟨h81, h189, h27, h162⟩ := constraints_count m cs hkeys hform
  refine ⟨m, cs, hm, hcs, h81, h189, h162, ?_, h27, ?_⟩
  · intro e he
    constructor
    · rw [hform]
      apply List.mem_append_left
      rw [List.mem_flatMap]
      exact ⟨e, he, by simp [Cell.applyConstraints]⟩
    · rw [hform]
      apply List.mem_append_left
      rw [List.mem_flatMap]
      exact ⟨e, he, by simp [Cell.applyConstraints]⟩
  · intro a ha
    rw [distinct_part m cs hform] at ha
    obtain ⟨u, hu, rfl⟩ := List.mem_map.1 ha
    have hlen := (unitPositions_shape u hu).2.1
    rw [mkDistinct_terms, List.length_map, hlen]
    intro hnil
    have := congrArg List.length hnil
    rw [List.length_map, hlen] at this
    exact absurd this (by decide)

theorem C13_constraint_count_witness :
    validBoard twoFivesBoard ∧
    ∃ m cs, NewModel 0 twoFivesBoard = some m ∧ m.applyConstraints [] = some cs ∧
      m.board.length = 81 ∧ cs.length = 189 ∧
      (cs.filter (fun a => !a.isDistinct)).length = 162 ∧
      (∀ e ∈ m.board, Assertion.ge e.2.value (Term.int 1) ∈ cs ∧
        Assertion.lt e.2.value (Term.int 9) ∈ cs) ∧
      (cs.filter Assertion.isDistinct).length = 27 ∧
      (∀ a ∈ cs.filter Assertion.isDistinct, a.terms.length = 9) :=
  ⟨by decide, C13_constraint_count 0 twoFivesBoard (by decide)⟩

/-- C16: for every valid board, with or without givens, conflict-free or not,
the model is built and the full constraint set (bounds `value >= 1` and
`value < 9` for every cell, and the 27 `Distinct`) has no satisfying
assignment, so `Solve` returns `nil` with any sound solver. -/
theorem C16_constraints_always_unsat (ctx : Context) (input : List Nat)
    (hvalid : validBoard input) :
    ∃ m cs, NewModel ctx input = some m ∧ m.applyConstraints [] = some cs ∧
      (¬ ∃ σ, ∀ a ∈ cs, a.holds σ) ∧
      (∀ check, SoundCheck check → Solve check m = some none) := by
  obtain ⟨m, cs, hm, hcs, hkeys, hcells, hform⟩ := pipeline_spec ctx input (by rw [hvalid.1])
  have hun := constraints_unsat input m cs hkeys hcells hform
  exact ⟨m, cs, hm, hcs, hun, fun check hs => Solve_of_unsat check hs m cs hcs hun⟩

theorem C16_constraints_always_unsat_witness :
    validBoard (List.replicate 81 46) ∧
    ∃ m cs, NewModel 0 (List.replicate 81 46) = some m ∧ m.applyConstraints [] = some cs ∧
      (¬ ∃ σ, ∀ a ∈ cs, a.holds σ) ∧
      (∀ check, SoundCheck check → Solve check m = some none) :=
  ⟨by decide, C16_constraints_always_unsat 0 (List.replicate 81 46) (by decide)⟩

/-! ## Lemmas on viewFromInput and render -/

theorem foldlM_nested_eq_except {ε σ α β : Type} (f : σ → β → Except ε σ) (g : α → List β)
    (l : List α) (s : σ) :
    l.foldlM (fun st a => (g a).foldlM f st) s = (l.flatMap g).foldlM f s := by
  induction l generalizing s with
  | nil => rfl
  | cons a rest ih =>
    rw [List.foldlM_cons, List.flatMap_cons, List.foldlM_append]
    cases h : (g a).foldlM f s with
    | error e => rfl
    | ok s1 => exact ih s1

theorem viewFromInput_eq_fold (input : List Nat) :
    viewFromInput input = allPositions.foldlM (viewStep input) BoardView.empty := by
  unfold viewFromInput allPositions
  rw [← foldlM_nested_eq_except]
  simp only [List.foldlM_map, BoardSize]

theorem ensure_set (b : BoardView) (x y : Nat) (c : CellView) :
    ∃ b1, (b.ensure x).set x y c = some b1 ∧ b1.get x y = c ∧
      ∀ x' y', (x' ≠ x ∨ y' ≠ y) → b1.get x' y' = b.get x' y' := by
  cases hb : b x with
  | none =>
    refine ⟨_, by simp [BoardView.ensure, BoardView.set, hb]; rfl, ?_, ?_⟩
    · simp [BoardView.get]
    · intro x' y' hne
      by_cases hx : x' = x
      · subst hx
        have hy : y' ≠ y := by
          rcases hne with h | h
          · exact absurd rfl h
          · exact h
        simp [BoardView.get, hb, hy]
      · simp [BoardView.get, BoardView.ensure, hb, hx]
  | some inner =>
    refine ⟨_, by simp [BoardView.ensure, BoardView.set, hb]; rfl, ?_, ?_⟩
    · simp [BoardView.get]
    · intro x' y' hne
      by_cases hx : x' = x
      · subst hx
        have hy : y' ≠ y := by
          rcases hne with h | h
          · exact absurd rfl h
          · exact h
        simp [BoardView.get, hb, hy]
      · simp [BoardView.get, hx]

theorem viewStep_ok (input : List Nat) (out : BoardView) (p : Pos) (ch : Nat)
    (hch : input[p.y * 9 + p.x]? = some ch) (hleg : legalByte ch) :
    ∃ out1, viewStep input out p = Except.ok out1 ∧ out1.get p.x p.y = viewCell ch ∧
      ∀ x y, (x ≠ p.x ∨ y ≠ p.y) → out1.get x y = out.get x y := by
  unfold viewStep
  simp only [BoardSize, hch]
  by_cases h46 : ch = 46
  · obtain ⟨b1, h1, h2, h3⟩ := ensure_set out p.x p.y { value := 0, fromInput := false }
    simp only [h46, if_true, h1]
    exact ⟨b1, rfl, by simp [viewCell, h2], h3⟩
  · have hrange : ¬ (byteSubZero ch < 1 ∨ byteSubZero ch > 9) := by
      rcases hleg with h | h
      · exact absurd h h46
      · omega
    obtain ⟨b1, h1, h2, h3⟩ :=
      ensure_set out p.x p.y { value := byteSubZero ch, fromInput := true }
    simp only [h46, if_false, hrange, h1]
    exact ⟨b1, rfl, by simp [viewCell, h46, h2], h3⟩

theorem viewStep_illegal (input : List Nat) (out : BoardView) (p : Pos) (ch : Nat)
    (hch : input[p.y * 9 + p.x]? = some ch) (hleg : ¬ legalByte ch) :
    viewStep input out p = Except.error (ViewPanic.illegalInput (byteSubZero ch)) := by
  unfold viewStep
  simp only [BoardSize, hch]
  have h46 : ¬ ch = 46 := fun h => hleg (Or.inl h)
  have hrange : byteSubZero ch < 1 ∨ byteSubZero ch > 9 := by
    by_contra hcon
    exact hleg (Or.inr (by omega))
  simp only [h46, if_false, hrange, if_true]

theorem viewFold_ok (input : List Nat) :
    ∀ (ps : List Pos) (out : BoardView), ps.Nodup →
      (∀ p ∈ ps, ∃ ch, input[p.y * 9 + p.x]? = some ch ∧ legalByte ch) →
      ∃ out', ps.foldlM (viewStep input) out = Except.ok out' ∧
        (∀ p ∈ ps, ∃ ch, input[p.y * 9 + p.x]? = some ch ∧ out'.get p.x p.y = viewCell ch) ∧
        (∀ x y, (⟨x, y⟩ : Pos) ∉ ps → out'.get x y = out.get x y) := by
  intro ps
  induction ps with
  | nil =>
    intro out _ _
    exact ⟨out, rfl, by simp, fun _ _ _ => rfl⟩
  | cons p rest ih =>
    intro out hnd hleg
    obtain ⟨ch, hch, hl⟩ := hleg p (List.mem_cons_self _ _)
    obtain ⟨out1, h1, h2, h3⟩ := viewStep_ok input out p ch hch hl
    have hnd2 := List.nodup_cons.1 hnd
    obtain ⟨out', h1', h2', h3'⟩ :=
      ih out1 hnd2.2 (fun q hq => hleg q (List.mem_cons_of_mem _ hq))
    refine ⟨out', ?_, ?_, ?_⟩
    · rw [List.foldlM_cons, h1]
      exact h1'
    · intro q hq
      rcases List.mem_cons.1 hq with heq | hmem
      · subst heq
        refine ⟨ch, hch, ?_⟩
        rw [h3' q.x q.y hnd2.1]
        exact h2
      · exact h2' q hmem
    · intro x y hxy
      have hne : (⟨x, y⟩ : Pos) ≠ p := fun h => hxy (h ▸ List.mem_cons_self _ _)
      rw [h3' x y (fun h => hxy (List.mem_cons_of_mem _ h))]
      apply h3
      by_contra hcon
      push_neg at hcon
      apply hne
      cases p
      simp only [Pos.mk.injEq]
      exact hcon

theorem viewFold_illegal (input : List Nat) :
    ∀ (ps : List Pos) (out : BoardView), (∀ p ∈ ps, p.y * 9 + p.x < input.length) →
      (∃ p ∈ ps, ∃ ch, input[p.y * 9 + p.x]? = some ch ∧ ¬ legalByte ch) →
      ∃ v, ps.foldlM (viewStep input) out = Except.error (ViewPanic.illegalInput v) := by
  intro ps
  induction ps with
  | nil =>
    rintro out _ ⟨p, hp, _⟩
    simp at hp
  | cons q rest ih =>
    rintro out hrange ⟨p, hp, ch, hch, hbad⟩
    have hq : q.y * 9 + q.x < input.length := hrange q (List.mem_cons_self _ _)
    by_cases hlq : legalByte input[q.y * 9 + q.x]
    · obtain ⟨out1, h1, _, _⟩ := viewStep_ok input out q _ (List.getElem?_eq_getElem hq) hlq
      rcases List.mem_cons.1 hp with heq | hmem
      · subst heq
        rw [List.getElem?_eq_getElem hq] at hch
        injection hch with hch
        subst hch
        exact absurd hlq hbad
      · obtain ⟨v, hv⟩ := ih out1 (fun r hr => hrange r (List.mem_cons_of_mem _ hr))
          ⟨p, hmem, ch, hch, hbad⟩
        refine ⟨v, ?_⟩
        rw [List.foldlM_cons, h1]
        exact hv
    · refine ⟨byteSubZero input[q.y * 9 + q.x], ?_⟩
      rw [List.foldlM_cons, viewStep_illegal input out q _ (List.getElem?_eq_getElem hq) hlq]
      rfl

theorem cell_of_cellPiece (cv : CellView) : Piece.cell (cellPiece cv) = some (cellTag cv) := by
  unfold cellPiece cellTag
  by_cases h0 : cv.value = 0
  · simp [h0, Piece.cell]
  · by_cases hf : cv.fromInput = true
    · simp [h0, hf, Piece.cell]
    · simp only [Bool.not_eq_true] at hf
      simp [h0, hf, Piece.cell]

/-- The cells `render` writes, borders left out, are those of the view in
row-major order. -/
theorem render_cells (b : BoardView) :
    (renderPieces b).filterMap Piece.cell = allPositions.map (fun p => cellTag (b.get p.x p.y)) := by
  have hrow : ∀ y, (((if y = 3 ∨ y = 6 then [Piece.horizontal] else []) ++
      (List.range BoardSize).flatMap (fun x =>
        (if x % 3 = 0 then [Piece.vertical] else []) ++ [cellPiece (b.get x y)]) ++
      [Piece.vertical, Piece.newline]).filterMap Piece.cell) =
      (List.range 9).map (fun x => cellTag (b.get x y)) := by
    intro y
    have hsep : (if y = 3 ∨ y = 6 then [Piece.horizontal] else []).filterMap Piece.cell = [] := by
      split <;> rfl
    have hcellx : ∀ x, ((if x % 3 = 0 then [Piece.vertical] else []) ++
        [cellPiece (b.get x y)]).filterMap Piece.cell = [cellTag (b.get x y)] := by
      intro x
      rw [List.filterMap_append]
      have : (if x % 3 = 0 then [Piece.vertical] else []).filterMap Piece.cell = [] := by
        split <;> rfl
      rw [this]
      simp [cell_of_cellPiece]
    rw [List.filterMap_append, List.filterMap_append, hsep, List.filterMap_flatMap]
    simp only [hcellx, BoardSize, List.nil_append]
    have htail : [Piece.vertical, Piece.newline].filterMap Piece.cell = [] := rfl
    rw [htail, List.append_nil]
    induction (List.range 9) with
    | nil => rfl
    | cons a rest ih => simp [List.flatMap_cons, ih]
  unfold renderPieces
  rw [List.filterMap_append, List.filterMap_append, List.filterMap_flatMap]
  simp only [hrow]
  have h1 : [Piece.horizontalTop].filterMap Piece.cell = [] := rfl
  have h2 : [Piece.horizontalBottom].filterMap Piece.cell = [] := rfl
  rw [h1, h2, List.nil_append, List.append_nil]
  unfold allPositions
  rw [List.map_flatMap]
  simp only [BoardSize, List.map_map]
  rfl

set_option maxRecDepth 8000 in
theorem allPositions_getElem : ∀ n, n < 81 → allPositions[n]? = some ⟨n % 9, n / 9⟩ := by
  decide

theorem legalByte_iff (ch : Nat) (h : ch < 256) :
    legalByte ch ↔ (ch = 46 ∨ (49 ≤ ch ∧ ch ≤ 57)) := by
  unfold legalByte byteSubZero
  omega

/-- The two outcomes of `viewFromInput` on an input of at least 81 bytes: a
view of the first 81 bytes when all of them are accepted, the illegal-input
panic when one is not. -/
theorem viewFromInput_cases (input : List Nat) (hlen : 81 ≤ input.length) :
    ((∀ i, i < 81 → ∀ ch, input[i]? = some ch → legalByte ch) →
      ∃ view, viewFromInput input = Except.ok view ∧
        ∀ x, x < 9 → ∀ y, y < 9 →
          ∃ ch, input[y * 9 + x]? = some ch ∧ view.get x y = viewCell ch) ∧
    ((∃ i, i < 81 ∧ ∃ ch, input[i]? = some ch ∧ ¬ legalByte ch) →
      ∃ v, viewFromInput input = Except.error (ViewPanic.illegalInput v)) := by
  constructor
  · intro hall
    have hleg : ∀ p ∈ allPositions, ∃ ch, input[p.y * 9 + p.x]? = some ch ∧ legalByte ch := by
      intro p hp
      have hb := (allPositions_mem p).1 hp
      have hlt : p.y * 9 + p.x < input.length := by omega
      exact ⟨_, List.getElem?_eq_getElem hlt,
        hall _ (by omega) _ (List.getElem?_eq_getElem hlt)⟩
    obtain ⟨view, h1, h2, _⟩ := viewFold_ok input allPositions BoardView.empty
      allPositions_nodup hleg
    refine ⟨view, by rw [viewFromInput_eq_fold]; exact h1, ?_⟩
    intro x hx y hy
    exact h2 ⟨x, y⟩ ((allPositions_mem _).2 ⟨hx, hy⟩)
  · rintro ⟨i, hi, ch, hch, hbad⟩
    rw [viewFromInput_eq_fold]
    apply viewFold_illegal input allPositions BoardView.empty
    · intro p hp
      have hb := (allPositions_mem p).1 hp
      omega
    · refine ⟨⟨i % 9, i / 9⟩, (allPositions_mem _).2 ⟨Nat.mod_lt _ (by decide), by
        show i / 9 < 9
        omega⟩, ch, ?_, hbad⟩
      have hidx : i / 9 * 9 + i % 9 = i := by omega
      show input[i / 9 * 9 + i % 9]? = some ch
      rw [hidx]
      exact hch

theorem join_toList (l : List String) (acc : String) :
    (l.foldl (fun r s => r ++ s) acc).toList = acc.toList ++ l.flatMap String.toList := by
  induction l generalizing acc with
  | nil => simp
  | cons a rest ih =>
    rw [List.foldl_cons, ih, List.flatMap_cons]
    simp [String.toList, String.data_append, List.append_assoc]

/-- The string `render` returns is the texts of its pieces, one after the
other. -/
theorem render_toList (b : BoardView) :
    (render b).toList = (renderPieces b).flatMap (fun p => p.text.toList) := by
  unfold render String.join
  rw [join_toList]
  simp [List.flatMap_map]

theorem scanRun_append (st : ScanState) (a b : List Char) :
    scanRun st (a ++ b) =
      ((scanRun st a).1 ++ (scanRun (scanRun st a).2 b).1, (scanRun (scanRun st a).2 b).2) := by
  induction a generalizing st with
  | nil => simp [scanRun]
  | cons c rest ih =>
    rw [List.cons_append]
    simp only [scanRun]
    rw [ih]
    simp only [List.append_assoc]

set_option maxRecDepth 100000 in
theorem scan_piece (p : Piece) (hp : simplePiece p) (sgr : List Char) :
    ∃ sgr', scanRun (ScanState.ground sgr) p.text.toList =
      (pieceGlyphs p, ScanState.ground sgr') := by
  cases p with
  | horizontalTop => exact ⟨_, rfl⟩
  | horizontal => exact ⟨_, rfl⟩
  | horizontalBottom => exact ⟨_, rfl⟩
  | vertical => exact ⟨_, rfl⟩
  | newline => exact ⟨_, rfl⟩
  | blank => exact ⟨_, rfl⟩
  | given v =>
    obtain ⟨h1, h2⟩ := hp
    interval_cases v <;> exact ⟨_, rfl⟩
  | solved v => exact absurd hp (by simp [simplePiece])

theorem scan_pieces :
    ∀ (ps : List Piece), (∀ p ∈ ps, simplePiece p) → ∀ sgr, ∃ sgr',
      scanRun (ScanState.ground sgr) (ps.flatMap (fun p => p.text.toList)) =
        (ps.flatMap pieceGlyphs, ScanState.ground sgr') := by
  intro ps
  induction ps with
  | nil =>
    intro _ sgr
    exact ⟨sgr, rfl⟩
  | cons p rest ih =>
    intro h sgr
    obtain ⟨s1, h1⟩ := scan_piece p (h p (List.mem_cons_self _ _)) sgr
    obtain ⟨s2, h2⟩ := ih (fun q hq => h q (List.mem_cons_of_mem _ hq)) s1
    refine ⟨s2, ?_⟩
    rw [List.flatMap_cons, List.flatMap_cons, scanRun_append, h1]
    simp only [h2]

theorem pieceGlyphs_flatMap (ps : List Piece) :
    ps.flatMap pieceGlyphs = (ps.filterMap Piece.cell).map tagGlyph := by
  induction ps with
  | nil => rfl
  | cons p rest ih =>
    rw [List.flatMap_cons, ih, List.filterMap_cons]
    unfold pieceGlyphs
    cases Piece.cell p <;> rfl

theorem renderPieces_simple (view : BoardView)
    (h : ∀ x, x < 9 → ∀ y, y < 9 → simplePiece (cellPiece (view.get x y))) :
    ∀ p ∈ renderPieces view, simplePiece p := by
  intro p hp
  unfold renderPieces at hp
  simp only [List.mem_append, List.mem_flatMap, List.mem_range, List.mem_singleton,
    List.mem_cons, BoardSize, List.not_mem_nil, or_false] at hp
  rcases hp with (hp | ⟨y, hy, (hp | ⟨x, hx, hp | hp⟩) | hp | hp⟩) | hp
  · subst hp
    simp [simplePiece]
  · split at hp
    · simp only [List.mem_singleton] at hp
      subst hp
      simp [simplePiece]
    · simp at hp
  · split at hp
    · simp only [List.mem_singleton] at hp
      subst hp
      simp [simplePiece]
    · simp at hp
  · subst hp
    exact h x hx y hy
  · subst hp
    simp [simplePiece]
  · subst hp
    simp [simplePiece]
  · subst hp
    simp [simplePiece]

/-- On a valid board text `viewFromInput` returns a view that holds the cell
of each byte, and the cells of its rendering are the board in row-major
order. -/
theorem view_of_valid (input : List Nat) (hvalid : validBoard input) :
    ∃ view, viewFromInput input = Except.ok view ∧
      (∀ x, x < 9 → ∀ y, y < 9 →
        ∃ ch, input[y * 9 + x]? = some ch ∧ view.get x y = viewCell ch) ∧
      (renderPieces view).filterMap Piece.cell =
        input.map (fun ch => if ch = 46 then (none, false) else (some (ch - 48), true)) := by
  have hleg : ∀ i, i < 81 → ∀ ch, input[i]? = some ch → legalByte ch := by
    intro i _ ch hch
    rcases hvalid.2 ch (List.getElem?_mem hch) with h | h
    · exact Or.inl h
    · unfold isDigitByte at h
      unfold legalByte byteSubZero
      omega
  obtain ⟨view, hview, hget⟩ := (viewFromInput_cases input (by rw [hvalid.1])).1 hleg
  refine ⟨view, hview, hget, ?_⟩
  rw [render_cells]
  apply List.ext_getElem?
  intro n
  rw [List.getElem?_map, List.getElem?_map]
  by_cases hn : n < 81
  · rw [allPositions_getElem n hn]
    obtain ⟨ch, hch, hcell⟩ := hget (n % 9) (Nat.mod_lt _ (by decide)) (n / 9) (by omega)
    have hidx : n / 9 * 9 + n % 9 = n := by omega
    rw [hidx] at hch
    rw [hch]
    simp only [Option.map_some', hcell, Option.some.injEq]
    rcases hvalid.2 ch (List.getElem?_mem hch) with h | h
    · simp [h, viewCell, cellTag]
    · unfold isDigitByte at h
      have h46 : ch ≠ 46 := by omega
      have hsub : byteSubZero ch = ch - 48 := by
        unfold byteSubZero
        omega
      have hne0 : ch - 48 ≠ 0 := by omega
      simp [h46, viewCell, cellTag, hsub, hne0]
  · rw [List.getElem?_eq_none (by rw [allPositions_length]; omega),
      List.getElem?_eq_none (by rw [hvalid.1]; omega)]
    rfl

/-- C12: for a valid board text, `viewFromInput` succeeds and `FromInput`
returns the string `render` makes of that view. Reading that string back as
terminal output, with borders, blanks and escape sequences left out, gives
exactly 81 cell glyphs, in the order written: the bytes of the input in
row-major order, `'.'` where `input[y*9 + x]` is `'.'` and the digit `d` where
it is `d`, every digit under the colour of given cells (`Yellow`) and every
blank under `BlueFg`. The same holds of the pieces `render` writes: the blank
is `" . "` and a given digit its decimal character, between colour codes. -/
theorem C12_render_reproduces_input (input : List Nat) (hvalid : validBoard input) :
    ∃ view, viewFromInput input = Except.ok view ∧
      FromInput input = Except.ok (render view) ∧
      readCells (render view) =
        input.map (fun ch => (ch, if ch = 46 then "0;44".toList else "1;43".toList)) ∧
      (renderPieces view).filterMap Piece.cell =
        input.map (fun ch => if ch = 46 then (none, false) else (some (ch - 48), true)) ∧
      Piece.blank.text = BlueFg ++ " . " ++ Clear ∧
      (∀ d, 1 ≤ d → d ≤ 9 → (Piece.given d).text =
        Yellow ++ " " ++ String.singleton (Char.ofNat (48 + d)) ++ " " ++ Clear) := by
  obtain ⟨view, hview, hget, hcells⟩ := view_of_valid input hvalid
  refine ⟨view, hview, ?_, ?_, hcells, rfl, ?_⟩
  · unfold FromInput
    rw [hview]
    rfl
  · have hsimple : ∀ p ∈ renderPieces view, simplePiece p := by
      apply renderPieces_simple
      intro x hx y hy
      obtain ⟨ch, hch, hcell⟩ := hget x hx y hy
      rw [hcell]
      rcases hvalid.2 ch (List.getElem?_mem hch) with h | h
      · simp [h, viewCell, cellPiece, simplePiece]
      · unfold isDigitByte at h
        have h46 : ch ≠ 46 := by omega
        have hsub : byteSubZero ch = ch - 48 := by
          unfold byteSubZero
          omega
        have hne0 : ch - 48 ≠ 0 := by omega
        simp only [viewCell, h46, if_false, cellPiece, hsub, hne0, if_true, simplePiece]
        omega
    obtain ⟨sgr', hscan⟩ := scan_pieces (renderPieces view) hsimple []
    unfold readCells
    rw [render_toList, hscan]
    simp only
    rw [pieceGlyphs_flatMap, hcells, List.map_map]
    apply List.map_congr_left
    intro ch hch
    rcases hvalid.2 ch hch with h | h
    · simp [h, tagGlyph]
    · unfold isDigitByte at h
      have h46 : ch ≠ 46 := by omega
      have hadd : 48 + (ch - 48) = ch := by omega
      simp [h46, tagGlyph, hadd]
  · intro d h1 h2
    interval_cases d <;> rfl

theorem C12_render_reproduces_input_witness :
    validBoard twoFivesBoard ∧
    ∃ view, viewFromInput twoFivesBoard = Except.ok view ∧
      FromInput twoFivesBoard = Except.ok (render view) ∧
      readCells (render view) =
        twoFivesBoard.map
          (fun ch => (ch, if ch = 46 then "0;44".toList else "1;43".toList)) ∧
      (renderPieces view).filterMap Piece.cell =
        twoFivesBoard.map
          (fun ch => if ch = 46 then (none, false) else (some (ch - 48), true)) ∧
      Piece.blank.text = BlueFg ++ " . " ++ Clear ∧
      (∀ d, 1 ≤ d → d ≤ 9 → (Piece.given d).text =
        Yellow ++ " " ++ String.singleton (Char.ofNat (48 + d)) ++ " " ++ Clear) :=
  ⟨by decide, C12_render_reproduces_input twoFivesBoard (by decide)⟩

/-- C15: for an input of at least 81 bytes (each below 256), `viewFromInput`
panics with the illegal-input message if and only if one of the first 81 bytes
is outside `'.'`, `'1'..'9'`, and it returns a view if and only if none is;
bytes below `'0'`, for which `ch - '0'` wraps around, are rejected like the
others. When it panics, `main` ends with that panic, before `NewModel` is
called. -/
theorem C15_viewFromInput_rejects_illegal (input : List Nat) (hlen : 81 ≤ input.length)
    (hbytes : ∀ b ∈ input, b < 256) :
    ((∃ v, viewFromInput input = Except.error (ViewPanic.illegalInput v)) ↔
      ∃ i, i < 81 ∧ ∃ ch, input[i]? = some ch ∧ ¬ (ch = 46 ∨ (49 ≤ ch ∧ ch ≤ 57))) ∧
    ((∃ view, viewFromInput input = Except.ok view) ↔
      ∀ i, i < 81 → ∀ ch, input[i]? = some ch → (ch = 46 ∨ (49 ≤ ch ∧ ch ≤ 57))) ∧
    (∀ e, viewFromInput input = Except.error e → ∃ v, e = ViewPanic.illegalInput v) ∧
    (∀ check ctx e, viewFromInput input = Except.error e →
      mainRun check ctx input = Except.error e) := by
  obtain ⟨hok, hbad⟩ := viewFromInput_cases input hlen
  have hdich : (∀ i, i < 81 → ∀ ch, input[i]? = some ch → legalByte ch) ∨
      (∃ i, i < 81 ∧ ∃ ch, input[i]? = some ch ∧ ¬ legalByte ch) := by
    by_cases h : ∃ i, i < 81 ∧ ∃ ch, input[i]? = some ch ∧ ¬ legalByte ch
    · exact Or.inr h
    · left
      intro i hi ch hch
      by_contra hl
      exact h ⟨i, hi, ch, hch, hl⟩
  have hiff : ∀ ch, (∃ i : Nat, input[i]? = some ch) →
      (legalByte ch ↔ (ch = 46 ∨ (49 ≤ ch ∧ ch ≤ 57))) := by
    rintro ch ⟨i, hch⟩
    exact legalByte_iff ch (hbytes ch (List.getElem?_mem hch))
  refine ⟨⟨?_, ?_⟩, ⟨?_, ?_⟩, ?_, ?_⟩
  · rintro ⟨v, hv⟩
    rcases hdich with hall | ⟨i, hi, ch, hch, hl⟩
    · obtain ⟨view, hview, _⟩ := hok hall
      rw [hview] at hv
      exact absurd hv (by simp)
    · exact ⟨i, hi, ch, hch, fun h => hl ((hiff ch ⟨i, hch⟩).2 h)⟩
  · rintro ⟨i, hi, ch, hch, hl⟩
    exact hbad ⟨i, hi, ch, hch, fun h => hl ((hiff ch ⟨i, hch⟩).1 h)⟩
  · rintro ⟨view, hview⟩ i hi ch hch
    rcases hdich with hall | hex
    · exact (hiff ch ⟨i, hch⟩).1 (hall i hi ch hch)
    · obtain ⟨v, hv⟩ := hbad hex
      rw [hview] at hv
      exact absurd hv (by simp)
  · intro hall
    obtain ⟨view, hview, _⟩ := hok (fun i hi ch hch => (hiff ch ⟨i, hch⟩).2 (hall i hi ch hch))
    exact ⟨view, hview⟩
  · intro e he
    rcases hdich with hall | hex
    · obtain ⟨view, hview, _⟩ := hok hall
      rw [hview] at he
      exact absurd he (by simp)
    · obtain ⟨v, hv⟩ := hbad hex
      rw [hv] at he
      injection he with he
      exact ⟨v, he.symm⟩
  · intro check ctx e he
    unfold mainRun FromInput
    rw [he]
    rfl

theorem C15_viewFromInput_rejects_illegal_witness :
    81 ≤ (47 :: List.replicate 80 46).length ∧ (∀ b ∈ 47 :: List.replicate 80 46, b < 256) ∧
    (∃ v, viewFromInput (47 :: List.replicate 80 46) =
      Except.error (ViewPanic.illegalInput v)) :=
  ⟨by decide, by decide,
    (C15_viewFromInput_rejects_illegal (47 :: List.replicate 80 46) (by decide)
      (by decide)).1.2 ⟨0, by decide, 47, by decide, by decide⟩⟩

/-! ## Lemmas on the UTF-8 model and strings.Map -/

theorem leadInfo_some (s0 sz lo hi : Nat) (h : leadInfo s0 = some (sz, lo, hi)) :
    (sz = 2 ∧ lo = 0x80 ∧ hi = 0xBF ∧ 0xC2 ≤ s0 ∧ s0 ≤ 0xDF) ∨
    (sz = 3 ∧ lo = 0xA0 ∧ hi = 0xBF ∧ s0 = 0xE0) ∨
    (sz = 3 ∧ lo = 0x80 ∧ hi = 0xBF ∧ ((0xE1 ≤ s0 ∧ s0 ≤ 0xEC) ∨ (0xEE ≤ s0 ∧ s0 ≤ 0xEF))) ∨
    (sz = 3 ∧ lo = 0x80 ∧ hi = 0x9F ∧ s0 = 0xED) ∨
    (sz = 4 ∧ lo = 0x90 ∧ hi = 0xBF ∧ s0 = 0xF0) ∨
    (sz = 4 ∧ lo = 0x80 ∧ hi = 0xBF ∧ 0xF1 ≤ s0 ∧ s0 ≤ 0xF3) ∨
    (sz = 4 ∧ lo = 0x80 ∧ hi = 0x8F ∧ s0 = 0xF4) := by
  unfold leadInfo at h
  split_ifs at h with c1 c2 c3 c4 c5 c6 c7 c8
  · simp only [Option.some.injEq, Prod.mk.injEq] at h
    obtain ⟨rfl, rfl, rfl⟩ := h
    exact Or.inl ⟨rfl, rfl, rfl, c1.1, c1.2⟩
  · simp only [Option.some.injEq, Prod.mk.injEq] at h
    obtain ⟨rfl, rfl, rfl⟩ := h
    exact Or.inr (Or.inl ⟨rfl, rfl, rfl, c2⟩)
  · simp only [Option.some.injEq, Prod.mk.injEq] at h
    obtain ⟨rfl, rfl, rfl⟩ := h
    exact Or.inr (Or.inr (Or.inl ⟨rfl, rfl, rfl, Or.inl c3⟩))
  · simp only [Option.some.injEq, Prod.mk.injEq] at h
    obtain ⟨rfl, rfl, rfl⟩ := h
    exact Or.inr (Or.inr (Or.inr (Or.inl ⟨rfl, rfl, rfl, c4⟩)))
  · simp only [Option.some.injEq, Prod.mk.injEq] at h
    obtain ⟨rfl, rfl, rfl⟩ := h
    exact Or.inr (Or.inr (Or.inl ⟨rfl, rfl, rfl, Or.inr c5⟩))
  · simp only [Option.some.injEq, Prod.mk.injEq] at h
    obtain ⟨rfl, rfl, rfl⟩ := h
    exact Or.inr (Or.inr (Or.inr (Or.inr (Or.inl ⟨rfl, rfl, rfl, c6⟩))))
  · simp only [Option.some.injEq, Prod.mk.injEq] at h
    obtain ⟨rfl, rfl, rfl⟩ := h
    exact Or.inr (Or.inr (Or.inr (Or.inr (Or.inr (Or.inl ⟨rfl, rfl, rfl, c7.1, c7.2⟩)))))
  · simp only [Option.some.injEq, Prod.mk.injEq] at h
    obtain ⟨rfl, rfl, rfl⟩ := h
    exact Or.inr (Or.inr (Or.inr (Or.inr (Or.inr (Or.inr ⟨rfl, rfl, rfl, c8⟩)))))

theorem notWhitespace_of_ge (b : Nat) (h : 0x80 ≤ b) : notWhitespace b = true := by
  unfold notWhitespace
  simp
  omega

theorem stripMapping_of_ge (r : Nat) (h : 0x80 ≤ r) : stripMapping r = some r := by
  unfold stripMapping
  have : ¬ (r = 32 ∨ r = 10 ∨ r = 9 ∨ r = 13) := by omega
  simp only [this, if_false]



theorem decode2 (s0 lo hi : Nat) (rest : List Nat) (h0 : ¬ s0 < 0x80)
    (hl : leadInfo s0 = some (2, lo, hi)) :
    decodeRune (s0 :: rest) = (RuneError, 1) ∨
    (∃ s1 r1, rest = s1 :: r1 ∧ lo ≤ s1 ∧ s1 ≤ hi ∧
      decodeRune (s0 :: rest) = (s0 % 32 * 64 + s1 % 64, 2)) := by
  rcases rest with _ | ⟨s1, r1⟩
  · left
    simp [decodeRune, h0, hl]
  · by_cases hr : s1 < lo ∨ hi < s1
    · left
      simp [decodeRune, h0, hl, hr]
    · right
      refine ⟨s1, r1, rfl, by omega, by omega, ?_⟩
      simp [decodeRune, h0, hl, hr]

theorem decode3 (s0 lo hi : Nat) (rest : List Nat) (h0 : ¬ s0 < 0x80)
    (hl : leadInfo s0 = some (3, lo, hi)) :
    decodeRune (s0 :: rest) = (RuneError, 1) ∨
    (∃ s1 s2 r2, rest = s1 :: s2 :: r2 ∧ lo ≤ s1 ∧ s1 ≤ hi ∧ 0x80 ≤ s2 ∧ s2 ≤ 0xBF ∧
      decodeRune (s0 :: rest) = (s0 % 16 * 4096 + s1 % 64 * 64 + s2 % 64, 3)) := by
  rcases rest with _ | ⟨s1, _ | ⟨s2, r2⟩⟩
  · left
    simp [decodeRune, h0, hl]
  · left
    simp [decodeRune, h0, hl]
  · by_cases hr : s1 < lo ∨ hi < s1
    · left
      simp [decodeRune, h0, hl, hr]
    · by_cases hr2 : s2 < 0x80 ∨ 0xBF < s2
      · left
        simp [decodeRune, h0, hl, hr, hr2]
      · right
        refine ⟨s1, s2, r2, rfl, by omega, by omega, by omega, by omega, ?_⟩
        simp [decodeRune, h0, hl, hr, hr2]

theorem decode4 (s0 lo hi : Nat) (rest : List Nat) (h0 : ¬ s0 < 0x80)
    (hl : leadInfo s0 = some (4, lo, hi)) :
    decodeRune (s0 :: rest) = (RuneError, 1) ∨
    (∃ s1 s2 s3 r3, rest = s1 :: s2 :: s3 :: r3 ∧ lo ≤ s1 ∧ s1 ≤ hi ∧ 0x80 ≤ s2 ∧ s2 ≤ 0xBF ∧
      0x80 ≤ s3 ∧ s3 ≤ 0xBF ∧
      decodeRune (s0 :: rest) =
        (s0 % 8 * 262144 + s1 % 64 * 4096 + s2 % 64 * 64 + s3 % 64, 4)) := by
  rcases rest with _ | ⟨s1, _ | ⟨s2, _ | ⟨s3, r3⟩⟩⟩
  · left
    simp [decodeRune, h0, hl]
  · left
    simp [decodeRune, h0, hl]
  · left
    simp [decodeRune, h0, hl]
  · by_cases hr : s1 < lo ∨ hi < s1
    · left
      simp [decodeRune, h0, hl, hr]
    · by_cases hr2 : s2 < 0x80 ∨ 0xBF < s2
      · left
        simp [decodeRune, h0, hl, hr, hr2]
      · by_cases hr3 : s3 < 0x80 ∨ 0xBF < s3
        · left
          simp [decodeRune, h0, hl, hr, hr2, hr3]
        · right
          refine ⟨s1, s2, s3, r3, rfl, by omega, by omega, by omega, by omega, by omega,
            by omega, ?_⟩
          simp [decodeRune, h0, hl, hr, hr2, hr3]

theorem encode2 (s0 s1 : Nat) (h1 : 0xC2 ≤ s0) (h2 : s0 ≤ 0xDF) (h3 : 0x80 ≤ s1)
    (h4 : s1 ≤ 0xBF) :
    0x80 ≤ s0 % 32 * 64 + s1 % 64 ∧ encodeRune (s0 % 32 * 64 + s1 % 64) = [s0, s1] := by
  have e1 : ¬ (s0 % 32 * 64 + s1 % 64 ≤ 0x7F) := by omega
  have e2 : s0 % 32 * 64 + s1 % 64 ≤ 0x7FF := by omega
  refine ⟨by omega, ?_⟩
  simp only [encodeRune, e1, e2, if_false, if_true, List.cons.injEq, and_true]
  constructor <;> omega

theorem encode3 (s0 s1 s2 : Nat) (h1 : 0xE0 ≤ s0) (h2 : s0 ≤ 0xEF) (h3 : 0x80 ≤ s1)
    (h4 : s1 ≤ 0xBF) (h5 : s0 = 0xE0 → 0xA0 ≤ s1) (h6 : s0 = 0xED → s1 ≤ 0x9F)
    (h7 : 0x80 ≤ s2) (h8 : s2 ≤ 0xBF) :
    0x80 ≤ s0 % 16 * 4096 + s1 % 64 * 64 + s2 % 64 ∧
      encodeRune (s0 % 16 * 4096 + s1 % 64 * 64 + s2 % 64) = [s0, s1, s2] := by
  have e1 : ¬ (s0 % 16 * 4096 + s1 % 64 * 64 + s2 % 64 ≤ 0x7F) := by omega
  have e2 : ¬ (s0 % 16 * 4096 + s1 % 64 * 64 + s2 % 64 ≤ 0x7FF) := by omega
  have e3 : ¬ (0x10FFFF < s0 % 16 * 4096 + s1 % 64 * 64 + s2 % 64 ∨
      (0xD800 ≤ s0 % 16 * 4096 + s1 % 64 * 64 + s2 % 64 ∧
        s0 % 16 * 4096 + s1 % 64 * 64 + s2 % 64 ≤ 0xDFFF)) := by omega
  have e4 : s0 % 16 * 4096 + s1 % 64 * 64 + s2 % 64 ≤ 0xFFFF := by omega
  refine ⟨by omega, ?_⟩
  simp only [encodeRune, e1, e2, e3, e4, if_false, if_true, List.cons.injEq, and_true]
  refine ⟨?_, ?_, ?_⟩ <;> omega

theorem encode4 (s0 s1 s2 s3 : Nat) (h1 : 0xF0 ≤ s0) (h2 : s0 ≤ 0xF4) (h3 : 0x80 ≤ s1)
    (h4 : s1 ≤ 0xBF) (h5 : s0 = 0xF0 → 0x90 ≤ s1) (h6 : s0 = 0xF4 → s1 ≤ 0x8F)
    (h7 : 0x80 ≤ s2) (h8 : s2 ≤ 0xBF) (h9 : 0x80 ≤ s3) (h10 : s3 ≤ 0xBF) :
    0x80 ≤ s0 % 8 * 262144 + s1 % 64 * 4096 + s2 % 64 * 64 + s3 % 64 ∧
      encodeRune (s0 % 8 * 262144 + s1 % 64 * 4096 + s2 % 64 * 64 + s3 % 64) =
        [s0, s1, s2, s3] := by
  have e1 : ¬ (s0 % 8 * 262144 + s1 % 64 * 4096 + s2 % 64 * 64 + s3 % 64 ≤ 0x7F) := by omega
  have e2 : ¬ (s0 % 8 * 262144 + s1 % 64 * 4096 + s2 % 64 * 64 + s3 % 64 ≤ 0x7FF) := by omega
  have e3 : ¬ (0x10FFFF < s0 % 8 * 262144 + s1 % 64 * 4096 + s2 % 64 * 64 + s3 % 64 ∨
      (0xD800 ≤ s0 % 8 * 262144 + s1 % 64 * 4096 + s2 % 64 * 64 + s3 % 64 ∧
        s0 % 8 * 262144 + s1 % 64 * 4096 + s2 % 64 * 64 + s3 % 64 ≤ 0xDFFF)) := by omega
  have e4 : ¬ (s0 % 8 * 262144 + s1 % 64 * 4096 + s2 % 64 * 64 + s3 % 64 ≤ 0xFFFF) := by
    omega
  refine ⟨by omega, ?_⟩
  simp only [encodeRune, e1, e2, e3, e4, if_false, if_true, List.cons.injEq, and_true]
  refine ⟨?_, ?_, ?_, ?_⟩ <;> omega

theorem decode_step (s0 : Nat) (rest : List Nat)
    (hv : s0 < 0x80 ∨ (decodeRune (s0 :: rest)).2 ≠ 1) :
    1 ≤ (decodeRune (s0 :: rest)).2 ∧
    (match stripMapping (decodeRune (s0 :: rest)).1 with
      | some r => encodeRune r
      | none => []) =
      ((s0 :: rest).take (decodeRune (s0 :: rest)).2).filter notWhitespace := by
  by_cases h0 : s0 < 0x80
  · have hd : decodeRune (s0 :: rest) = (s0, 1) := by simp [decodeRune, h0]
    rw [hd]
    refine ⟨le_refl _, ?_⟩
    by_cases hw : s0 = 32 ∨ s0 = 10 ∨ s0 = 9 ∨ s0 = 13
    · simp [stripMapping, hw, notWhitespace]
    · have he : encodeRune s0 = [s0] := by
        unfold encodeRune
        have : s0 ≤ 0x7F := by omega
        simp only [this, if_true]
      simp [stripMapping, hw, notWhitespace, he]
  · have hw : (decodeRune (s0 :: rest)).2 ≠ 1 := by
      rcases hv with h | h
      · exact absurd h h0
      · exact h
    rcases hl : leadInfo s0 with _ | ⟨sz, lo, hi⟩
    · exfalso
      apply hw
      simp [decodeRune, h0, hl]
    · rcases leadInfo_some _ _ _ _ hl with ⟨rfl, rfl, rfl, a1, a2⟩ | ⟨rfl, rfl, rfl, a1⟩ |
        ⟨rfl, rfl, rfl, a1⟩ | ⟨rfl, rfl, rfl, a1⟩ | ⟨rfl, rfl, rfl, a1⟩ |
        ⟨rfl, rfl, rfl, a1, a2⟩ | ⟨rfl, rfl, rfl, a1⟩
      · rcases decode2 s0 _ _ rest h0 hl with hbad | ⟨s1, r1, rfl, b1, b2, hd⟩
        · rw [hbad] at hw
          exact absurd rfl hw
        · obtain ⟨c1, c2⟩ := encode2 s0 s1 a1 a2 b1 b2
          rw [hd]
          simp only [stripMapping_of_ge _ c1, c2]
          simp [notWhitespace_of_ge s0 (by omega), notWhitespace_of_ge s1 (by omega)]
      all_goals first
        | (rcases decode3 s0 _ _ rest h0 hl with hbad | ⟨s1, s2, r2, rfl, b1, b2, b3, b4, hd⟩
           · rw [hbad] at hw
             exact absurd rfl hw
           · obtain ⟨c1, c2⟩ := encode3 s0 s1 s2 (by omega) (by omega) (by omega) (by omega)
               (by omega) (by omega) b3 b4
             rw [hd]
             simp only [stripMapping_of_ge _ c1, c2]
             simp [notWhitespace_of_ge s0 (by omega), notWhitespace_of_ge s1 (by omega),
               notWhitespace_of_ge s2 (by omega)])
        | (rcases decode4 s0 _ _ rest h0 hl with
             hbad | ⟨s1, s2, s3, r3, rfl, b1, b2, b3, b4, b5, b6, hd⟩
           · rw [hbad] at hw
             exact absurd rfl hw
           · obtain ⟨c1, c2⟩ := encode4 s0 s1 s2 s3 (by omega) (by omega) (by omega)
               (by omega) (by omega) (by omega) b3 b4 b5 b6
             rw [hd]
             simp only [stripMapping_of_ge _ c1, c2]
             simp [notWhitespace_of_ge s0 (by omega), notWhitespace_of_ge s1 (by omega),
               notWhitespace_of_ge s2 (by omega), notWhitespace_of_ge s3 (by omega)])

theorem mapRunes_valid :
    ∀ (fuel : Nat) (s : List Nat), s.length ≤ fuel → validRunes fuel s = true →
      mapRunes stripMapping fuel s = s.filter notWhitespace := by
  intro fuel
  induction fuel with
  | zero =>
    intro s hlen _
    have : s = [] := List.length_eq_zero.1 (by omega)
    subst this
    rfl
  | succ fuel ih =>
    intro s hlen hv
    cases s with
    | nil => rfl
    | cons s0 rest =>
      simp only [validRunes, Bool.and_eq_true, Bool.or_eq_true, decide_eq_true_eq] at hv
      obtain ⟨h1, h2⟩ := decode_step s0 rest hv.1
      simp only [mapRunes]
      rw [h2, ih _ (by
        rw [List.length_drop]
        simp only [List.length_cons] at hlen ⊢
        omega) hv.2, ← List.filter_append, List.take_append_drop]

theorem stringsMap_valid (content : List Nat) (hv : utf8Valid content = true) :
    stringsMap stripMapping content = stripped content :=
  mapRunes_valid content.length content (le_refl _) hv

theorem validRunes_ascii :
    ∀ (fuel : Nat) (s : List Nat), (∀ b ∈ s, b < 0x80) → validRunes fuel s = true := by
  intro fuel
  induction fuel with
  | zero =>
    intro s _
    rfl
  | succ fuel ih =>
    intro s hs
    cases s with
    | nil => rfl
    | cons s0 rest =>
      have h0 : s0 < 0x80 := hs s0 (List.mem_cons_self _ _)
      simp only [validRunes, Bool.and_eq_true, Bool.or_eq_true, decide_eq_true_eq]
      refine ⟨Or.inl h0, ih _ ?_⟩
      intro b hb
      exact hs b (List.mem_of_mem_drop hb)

/-! ## Claims on BoardFromFile -/

set_option maxRecDepth 100000 in
/-- C14 as stated fails on content that is not valid UTF-8. 80 dots followed
by the byte `0xFF` have 81 bytes once whitespace is removed, but `strings.Map`
writes U+FFFD (3 bytes) for `0xFF`, so the length check sees 83 and fails; 78
dots followed by `0xFF` pass the check and the returned bytes are not the
stripped content. -/
theorem C14_invalid_utf8_counterexample :
    (stripped (List.replicate 80 46 ++ [255])).length = 81 ∧
    BoardFromFile (List.replicate 80 46 ++ [255]) = Except.error (FileError.wrongLength 83) ∧
    (stripped (List.replicate 78 46 ++ [255])).length ≠ 81 ∧
    BoardFromFile (List.replicate 78 46 ++ [255]) =
      Except.ok (List.replicate 78 46 ++ [239, 191, 189]) :=
  ⟨by decide, rfl, by decide, rfl⟩

/-- C14 amended: for every file content that is valid UTF-8 (in particular
every ASCII content), the part of `BoardFromFile` after the read succeeds if
and only if the content with space, newline, tab and carriage return removed
has exactly 81 bytes; on success the returned bytes are exactly that stripped
content, in order, and on failure no board is returned, only the length
error. -/
theorem C14_BoardFromFile_valid_utf8 (content : List Nat)
    (hv : utf8Valid content = true) :
    ((∃ b, BoardFromFile content = Except.ok b) ↔ (stripped content).length = 81) ∧
    (∀ b, BoardFromFile content = Except.ok b → b = stripped content) ∧
    ((stripped content).length ≠ 81 →
      BoardFromFile content =
        Except.error (FileError.wrongLength (stripped content).length)) := by
  have hmap := stringsMap_valid content hv
  unfold BoardFromFile
  rw [hmap]
  by_cases hlen : (stripped content).length = 81
  · simp [hlen]
  · simp [hlen]

set_option maxRecDepth 100000 in
theorem C14_BoardFromFile_valid_utf8_witness :
    utf8Valid exampleFileContent = true ∧
    (((∃ b, BoardFromFile exampleFileContent = Except.ok b) ↔
      (stripped exampleFileContent).length = 81) ∧
    (∀ b, BoardFromFile exampleFileContent = Except.ok b → b = stripped exampleFileContent) ∧
    ((stripped exampleFileContent).length ≠ 81 →
      BoardFromFile exampleFileContent =
        Except.error (FileError.wrongLength (stripped exampleFileContent).length))) :=
  ⟨validRunes_ascii _ _ (by decide),
    C14_BoardFromFile_valid_utf8 exampleFileContent (validRunes_ascii _ _ (by decide))⟩

/-! ## Lemmas on main -/

theorem encodeRune_lt (r b : Nat) (h : b ∈ encodeRune r) : b < 256 := by
  unfold encodeRune at h
  split_ifs at h <;>
    simp only [List.mem_cons, List.mem_singleton, List.not_mem_nil, or_false] at h <;> omega

theorem mapRunes_lt :
    ∀ (fuel : Nat) (s : List Nat), ∀ b ∈ mapRunes stripMapping fuel s, b < 256 := by
  intro fuel
  induction fuel with
  | zero =>
    intro s b hb
    simp [mapRunes] at hb
  | succ fuel ih =>
    intro s b hb
    cases s with
    | nil => simp [mapRunes] at hb
    | cons s0 rest =>
      simp only [mapRunes, List.mem_append] at hb
      rcases hb with hb | hb
      · cases hm : stripMapping (decodeRune (s0 :: rest)).1 with
        | none =>
          rw [hm] at hb
          simp at hb
        | some r =>
          rw [hm] at hb
          exact encodeRune_lt r b hb
      · exact ih _ b hb

theorem BoardFromFile_ok (content input : List Nat)
    (h : BoardFromFile content = Except.ok input) :
    input.length = 81 ∧ ∀ b ∈ input, b < 256 := by
  unfold BoardFromFile at h
  split at h
  · exact absurd h (by simp)
  · rename_i hlen
    injection h with h
    subst h
    exact ⟨by omega, fun b hb => mapRunes_lt _ _ b hb⟩

theorem GenerateBoard_valid (N : Int) (draws : List Draw) (b : List Nat)
    (h : GenerateBoard N draws = Outcome.returned b) : validBoard b :=
  genLoop_invariant N (fun board => ∀ c ∈ board, c = 46 ∨ isDigitByte c) (by
    intro board d _ hP _ c hc
    rcases List.mem_or_eq_of_mem_set hc with hmem | heq
    · exact hP c hmem
    · rw [heq]
      exact Or.inr (cellValue_digit d)) draws 0 (List.replicate 81 46) b (by simp)
    (by
      intro c hc
      exact Or.inl (List.eq_of_mem_replicate hc)) h

theorem viewStep_out_of_range (input : List Nat) (out : BoardView) (p : Pos)
    (h : input.length ≤ p.y * 9 + p.x) :
    viewStep input out p = Except.error ViewPanic.indexOutOfRange := by
  unfold viewStep
  simp only [BoardSize, List.getElem?_eq_none h]

theorem viewFold_short (input : List Nat) :
    ∀ (ps : List Pos) (out : BoardView), (∃ p ∈ ps, input.length ≤ p.y * 9 + p.x) →
      ∃ e, ps.foldlM (viewStep input) out = Except.error e := by
  intro ps
  induction ps with
  | nil =>
    rintro out ⟨p, hp, _⟩
    simp at hp
  | cons q rest ih =>
    rintro out ⟨p, hp, hbad⟩
    cases hstep : viewStep input out q with
    | error e =>
      refine ⟨e, ?_⟩
      rw [List.foldlM_cons, hstep]
      rfl
    | ok out1 =>
      rcases List.mem_cons.1 hp with heq | hmem
      · subst heq
        rw [viewStep_out_of_range input out p hbad] at hstep
        exact absurd hstep (by simp)
      · obtain ⟨e, he⟩ := ih out1 ⟨p, hmem, hbad⟩
        refine ⟨e, ?_⟩
        rw [List.foldlM_cons, hstep]
        exact he

theorem viewFromInput_short (input : List Nat) (hlen : input.length < 81) :
    ∃ e, viewFromInput input = Except.error e := by
  rw [viewFromInput_eq_fold]
  apply viewFold_short
  refine ⟨⟨8, 8⟩, (allPositions_mem _).2 ⟨by decide, by decide⟩, ?_⟩
  show input.length ≤ 8 * 9 + 8
  omega

theorem mainRun_of_view_error (check : List Assertion → Option Assignment) (ctx : Context)
    (input : List Nat) (e : ViewPanic) (h : viewFromInput input = Except.error e) :
    mainRun check ctx input = Except.error e := by
  unfold mainRun FromInput
  rw [h]
  rfl

/-- When `main` gets past `FromInput` on an input of 81 bytes, the input is a
valid board, and what it goes on with is the rendered input and the solve
stage on that input. -/
theorem mainRun_ok_valid (check : List Assertion → Option Assignment) (ctx : Context)
    (input : List Nat) (hlen : input.length = 81) (hb : ∀ b ∈ input, b < 256)
    (r : String × Option Report) (h : mainRun check ctx input = Except.ok r) :
    validBoard input ∧ FromInput input = Except.ok r.1 ∧ r.2 = mainSolve check ctx input := by
  have hall : ∀ i, i < 81 → ∀ ch, input[i]? = some ch → legalByte ch := by
    intro i hi ch hch
    by_contra hl
    obtain ⟨v, hv⟩ := (viewFromInput_cases input (by omega)).2 ⟨i, hi, ch, hch, hl⟩
    rw [mainRun_of_view_error check ctx input _ hv] at h
    exact absurd h (by simp)
  refine ⟨⟨hlen, ?_⟩, ?_⟩
  · intro b hmem
    obtain ⟨i, hi, hget⟩ := List.getElem_of_mem hmem
    have hq : input[i]? = some b := by
      rw [List.getElem?_eq_getElem hi, hget]
    have hl := (legalByte_iff b (hb b hmem)).1 (hall i (by omega) b hq)
    unfold isDigitByte
    exact hl
  · unfold mainRun at h
    cases hF : FromInput input with
    | error e =>
      rw [hF] at h
      exact absurd h (by simp)
    | ok shown =>
      rw [hF] at h
      simp only [Except.ok.injEq] at h
      subst h
      exact ⟨rfl, rfl⟩

/-- C9 amended: the input format is checked by the stages `main` runs before
`NewModel`, which has no check and no error result of its own. Whenever
`main` runs to the end, so that `NewModel` is called and a Model built, its
input is well-formed: exactly 81 bytes, each `'.'` or `'1'..'9'`.
`BoardFromFile` returns a board only of exactly 81 bytes, and on its length
error `main` exits; on an input of at least 81 bytes with a byte outside the
alphabet among the first 81, `FromInput`, which `main` calls before
`NewModel`, panics with the illegal-input message; on an input of fewer than
81 bytes `FromInput` panics as well and `NewModel` returns no Model. In each
of these cases no Model is built. -/
theorem C9_model_only_for_checked_input (check : List Assertion → Option Assignment)
    (ctx : Context) :
    (∀ src shown rep, mainProgram check ctx src = MainOutcome.ran shown rep →
      ∃ input, validBoard input ∧ FromInput input = Except.ok shown ∧
        rep = mainSolve check ctx input ∧ ∃ m, NewModel ctx input = some m) ∧
    (∀ content e, BoardFromFile content = Except.error e →
      mainProgram check ctx (Source.file content) = MainOutcome.exitError e) ∧
    (∀ content input, BoardFromFile content = Except.ok input → input.length = 81) ∧
    (∀ input : List Nat, 81 ≤ input.length → (∀ b ∈ input, b < 256) →
      (∃ i, i < 81 ∧ ∃ ch, input[i]? = some ch ∧ ¬ (ch = 46 ∨ (49 ≤ ch ∧ ch ≤ 57))) →
      ∃ v, mainRun check ctx input = Except.error (ViewPanic.illegalInput v) ∧
        mainAfterInput check ctx input = MainOutcome.panic (ViewPanic.illegalInput v)) ∧
    (∀ input : List Nat, input.length < 81 →
      NewModel ctx input = none ∧
      ∃ e, mainRun check ctx input = Except.error e ∧
        mainAfterInput check ctx input = MainOutcome.panic e) := by
  have hafter : ∀ input shown rep, input.length = 81 → (∀ b ∈ input, b < 256) →
      mainAfterInput check ctx input = MainOutcome.ran shown rep →
      ∃ input', validBoard input' ∧ FromInput input' = Except.ok shown ∧
        rep = mainSolve check ctx input' ∧ ∃ m, NewModel ctx input' = some m := by
    intro input shown rep hlen hb h
    unfold mainAfterInput at h
    cases hr : mainRun check ctx input with
    | error e =>
      rw [hr] at h
      exact absurd h (by simp)
    | ok r =>
      rw [hr] at h
      simp only [MainOutcome.ran.injEq] at h
      obtain ⟨h1, h2, h3⟩ := mainRun_ok_valid check ctx input hlen hb r hr
      obtain ⟨m, hm, _⟩ := NewModel_spec ctx input (by omega)
      exact ⟨input, h1, by rw [← h.1]; exact h2, by rw [← h.2]; exact h3, m, hm⟩
  refine ⟨?_, ?_, ?_, ?_, ?_⟩
  · intro src shown rep h
    cases src with
    | file content =>
      simp only [mainProgram] at h
      cases hB : BoardFromFile content with
      | error e =>
        rw [hB] at h
        exact absurd h (by simp)
      | ok input =>
        rw [hB] at h
        obtain ⟨hlen, hb⟩ := BoardFromFile_ok content input hB
        exact hafter input shown rep hlen hb h
    | generate N draws =>
      simp only [mainProgram] at h
      cases hG : GenerateBoard N draws with
      | returned input =>
        rw [hG] at h
        have hv := GenerateBoard_valid N draws input hG
        refine hafter input shown rep hv.1 ?_ h
        intro b hb
        rcases hv.2 b hb with h46 | hd
        · omega
        · unfold isDigitByte at hd
          omega
      | outOfDraws =>
        rw [hG] at h
        exact absurd h (by simp)
      | indexPanic =>
        rw [hG] at h
        exact absurd h (by simp)
  · intro content e h
    simp only [mainProgram, h]
  · intro content input h
    exact (BoardFromFile_ok content input h).1
  · rintro input hlen hb ⟨i, hi, ch, hch, hbad⟩
    have hl : ¬ legalByte ch := fun hl =>
      hbad ((legalByte_iff ch (hb ch (List.getElem?_mem hch))).1 hl)
    obtain ⟨v, hv⟩ := (viewFromInput_cases input hlen).2 ⟨i, hi, ch, hch, hl⟩
    have hr := mainRun_of_view_error check ctx input _ hv
    refine ⟨v, hr, ?_⟩
    unfold mainAfterInput
    rw [hr]
  · intro input hlen
    obtain ⟨e, he⟩ := viewFromInput_short input hlen
    have hr := mainRun_of_view_error check ctx input _ he
    refine ⟨NewModel_short ctx input hlen, e, hr, ?_⟩
    unfold mainAfterInput
    rw [hr]

theorem C9_model_only_for_checked_input_witness :
    81 ≤ (97 :: List.replicate 80 46).length ∧ (∀ b ∈ 97 :: List.replicate 80 46, b < 256) ∧
    (∃ v, mainRun (fun _ => none) 0 (97 :: List.replicate 80 46) =
        Except.error (ViewPanic.illegalInput v) ∧
      mainAfterInput (fun _ => none) 0 (97 :: List.replicate 80 46) =
        MainOutcome.panic (ViewPanic.illegalInput v)) :=
  ⟨by decide, by decide,
    (C9_model_only_for_checked_input (fun _ => none) 0).2.2.2.1 (97 :: List.replicate 80 46)
      (by decide) (by decide) ⟨0, by decide, 97, by decide, by decide⟩⟩

end Sudoku
